import Mathlib

/-!
# ConvexHull: Graham scan and furthest pair (`src/main.cpp`)

A shallow embedding of the geometric part of `main.cpp`:

* the starting-point scan (lines 78-91) and the pivot placement (lines 93-96);
* `SortPointsByPolarAngle` (lines 329-414): the comparator `cmp` and the
  bottom-up merge sort over `hullVertIndices[1..numPoints)`;
* the hull scan with backtracking (lines 107-137), whose vector
  `convex_hull_vec` is what the write-back of lines 140-144 leaves in
  `hullVertIndices[0..numHullVerts)`;
* the furthest-pair search (lines 162-178);
* the same pipeline once more with every array access checked against the
  array bounds (`pipelineC`).

`GLuint`, `int` and `size_t` values are natural numbers (every index stays far
below any machine bound).  C arrays are lists; a read `a[i]` is `a.getD i d` and
a write `a[i] = v` is `a.set i v`.  The macro `NUM_POINTS` is the length of the
point array.  Every loop is a total function: a `for` loop with a fixed range is
a fold, the other loops recurse on a measure that decreases with each iteration.

## The `float` values

A finite `float` (IEEE 754 binary32) is a rational number, and the model keeps
it as that rational.  Every arithmetic operation of the source on `float`
operands, the subtractions, products, sums and quotients of lines 119-121,
168-170, 335-352 and the `sqrt` of line 170, is the exact operation followed by
`fl32`, the rounding to the nearest binary32 value with ties to even and with
gradual underflow; each operation is rounded on its own (no fused
multiply-add, no wider intermediate format).  A result beyond `FLT_MAX` is the
stand-in `INF32` for the infinity the machine delivers; the model follows the
machine on an infinity in the two places where one can arise from coordinates
of magnitude at most `2^62` (the program draws them from `[-0.975, 0.975]`):
the quotient `delta_y / delta_x` and the quotient `-1.0f / slope`, where a
finite value divided by an infinity is zero and two infinities of one sign
compare equal.  Larger coordinates, for which a difference, a product or a sum
can leave the finite range and the machine goes on with infinities and NaNs,
are outside what the model is faithful to.  The sign of a zero is not kept: the
program only compares zeros, and `-0.0f == 0.0f`.
-/

namespace ConvexHull

/-! ## Data model -/

/-- A row `pointPos[i]` of the point array: `pointPos[i][0]` is the first
component, `pointPos[i][1]` the second, two `float` values. -/
abbrev Point := ℚ × ℚ

/-- The value of `std::numeric_limits<float>::max()`, which is
`(2 - 2^(-23)) * 2^127`, as an exact rational. -/
def FLT_MAX : ℚ := (2 ^ 24 - 1) * 2 ^ 104

/-- The read `pointPos[i][0]`. -/
def X (pointPos : List Point) (i : Nat) : ℚ := (pointPos.getD i (0, 0)).1

/-- The read `pointPos[i][1]`. -/
def Y (pointPos : List Point) (i : Nat) : ℚ := (pointPos.getD i (0, 0)).2

/-! ## `float` arithmetic: IEEE 754 binary32, round to nearest, ties to even -/

/-- The stand-in for the `float` infinity: `2^128`, the least power of two
beyond `FLT_MAX`.  Its negative stands for the negative infinity. -/
def INF32 : ℚ := 2 ^ 128

/-- The position of the leading binary digit of `n`, by repeated halving; the
first argument bounds the number of halvings. -/
def log2Fuel : Nat → Nat → Nat
  | 0, _ => 0
  | fuel + 1, n => if 2 ≤ n then log2Fuel fuel (n / 2) + 1 else 0

/-- The position of the leading binary digit of `n`: `2^(floorLog2 n) ≤ n <
2^(floorLog2 n + 1)` for `n ≥ 1`. -/
def floorLog2 (n : Nat) : Nat := log2Fuel n n

/-- The binary exponent of a positive rational `a`: the integer `e` with
`2^e ≤ a < 2^(e+1)`.  With `k` and `l` the positions of the leading digits of
the numerator and of the denominator it is `k - l` or `k - l - 1`. -/
def binExp (a : ℚ) : ℤ :=
  if (2 : ℚ) ^ ((floorLog2 a.num.natAbs : ℤ) - (floorLog2 a.den : ℤ)) ≤ a then
    (floorLog2 a.num.natAbs : ℤ) - (floorLog2 a.den : ℤ)
  else
    (floorLog2 a.num.natAbs : ℤ) - (floorLog2 a.den : ℤ) - 1

/-- The integer nearest to `r`; of the two nearest ones, when `r` is half way
between them, the even one. -/
def roundHalfEven (r : ℚ) : ℤ :=
  if r - ⌊r⌋ < 1 / 2 then ⌊r⌋
  else if 1 / 2 < r - ⌊r⌋ then ⌊r⌋ + 1
  else if ⌊r⌋ % 2 = 0 then ⌊r⌋ else ⌊r⌋ + 1

/-- The distance between neighbouring binary32 values at the magnitude `a`:
`2^(e - 23)` for the binary exponent `e` of `a`, and `2^(-149)` throughout the
subnormal range (below `2^(-126)`). -/
def ulp32 (a : ℚ) : ℚ := 2 ^ (max (binExp a) (-126) - 23)

/-- The rounding of a magnitude `a ≥ 0`: the nearest multiple of `ulp32 a`, ties
to the even multiple; a result beyond `FLT_MAX` is the infinity. -/
def roundAbs (a : ℚ) : ℚ :=
  if FLT_MAX < (roundHalfEven (a / ulp32 a) : ℚ) * ulp32 a then INF32
  else (roundHalfEven (a / ulp32 a) : ℚ) * ulp32 a

/-- The binary32 value that an exact result `q` is rounded to. -/
def fl32 (q : ℚ) : ℚ := if q < 0 then -roundAbs (-q) else roundAbs q

/-- The `float` sum `a + b`. -/
def fadd (a b : ℚ) : ℚ := fl32 (a + b)

/-- The `float` difference `a - b`. -/
def fsub (a b : ℚ) : ℚ := fl32 (a - b)

/-- The `float` product `a * b`. -/
def fmul (a b : ℚ) : ℚ := fl32 (a * b)

/-- The `float` quotient `a / b` for a divisor `b` that is not zero (the source
divides only behind the tests `delta_x == 0.0f` and `slope == 0.0f`): a finite
`a` divided by an infinity is zero. -/
def fdiv (a b : ℚ) : ℚ := if |b| = INF32 then 0 else fl32 (a / b)

/-- The loop of the binary square root: the digits of the root are fixed from
the position `b - 1` down, `acc` being the digits fixed so far. -/
def sqrtBits (n : Nat) : Nat → Nat → Nat
  | 0, acc => acc
  | b + 1, acc => sqrtBits n b (if (acc + 2 ^ b) * (acc + 2 ^ b) ≤ n then acc + 2 ^ b else acc)

/-- The integer square root: the largest `r` with `r * r ≤ n`. -/
def isqrt (n : Nat) : Nat := sqrtBits n (floorLog2 n / 2 + 1) 0

/-- The `float` value `sqrt(s)` for `s ≥ 0`: the rounding of the exact root.
The root is located between two neighbouring multiples of `2^(-128)`, far
finer than the binary32 values at the magnitude of the root of a positive
binary32 value, and when it is not one of the two it is replaced by the point
half way between them, which rounds as the root does. -/
def fsqrt (s : ℚ) : ℚ :=
  if s ≤ 0 then 0
  else
    fl32 (((isqrt ⌊s * 4 ^ 128⌋₊ : ℚ)
      + (if (isqrt ⌊s * 4 ^ 128⌋₊ : ℚ) * (isqrt ⌊s * 4 ^ 128⌋₊ : ℚ) = s * 4 ^ 128 then 0
          else 1 / 2)) / 2 ^ 128)

/-! ## Step 1: starting point (lines 78-96) -/

/-- The two locals of the starting-point scan. -/
structure StartState where
  start_index : Nat
  lowest_y : ℚ
deriving DecidableEq

/-- One iteration of the loop of lines 81-91, for the loop index `i`. -/
def startStep (pointPos : List Point) (st : StartState) (i : Nat) : StartState :=
  if Y pointPos i > st.lowest_y then
    st
  else if Y pointPos i < st.lowest_y then
    { start_index := i, lowest_y := Y pointPos i }
  else if Y pointPos i = st.lowest_y ∧ X pointPos i > X pointPos st.start_index then
    { st with start_index := i }
  else
    st

/-- The scan of lines 79-91: `for (int i = 1; i < NUM_POINTS; ++i)` from the
initial `start_index = 0`, `lowest_y = pointPos[0][1]`. -/
def startScan (pointPos : List Point) : StartState :=
  (List.range' 1 (pointPos.length - 1)).foldl (startStep pointPos)
    { start_index := 0, lowest_y := Y pointPos 0 }

/-- The `start_index` left by the scan. -/
def findStartIndex (pointPos : List Point) : Nat := (startScan pointPos).start_index

/-- The array initialisation `hullVertIndices[i] = i` of line 71. -/
def initIndices (numPoints : Nat) : List Nat := List.range numPoints

/-- The pivot placement of lines 93 and 96:
`hullVertIndices[0] = start_index; hullVertIndices[start_index] = 0;`. -/
def placePivot (hullVertIndices : List Nat) (start_index : Nat) : List Nat :=
  (hullVertIndices.set 0 start_index).set start_index 0

/-! ## Step 2: `SortPointsByPolarAngle` (lines 329-414) -/

/-- The value `neg_recip_slope_a` that the lambda `cmp` computes for the index
`a` (lines 335-352; lines 355-371 repeat it for `b`). -/
def negRecipSlope (pointPos : List Point) (basePoint a : Nat) : ℚ :=
  let delta_y := fsub (Y pointPos a) (Y pointPos basePoint)
  let delta_x := fsub (X pointPos a) (X pointPos basePoint)
  let slope := if delta_x = 0 then FLT_MAX else fdiv delta_y delta_x
  if slope = 0 then -FLT_MAX else fdiv (-1) slope

/-- The lambda `cmp` of lines 333-374. -/
def cmp (pointPos : List Point) (basePoint a b : Nat) : Bool :=
  decide (negRecipSlope pointPos basePoint a < negRecipSlope pointPos basePoint b)

/-- The locals of one merge (lines 382-384) together with the scratch buffer. -/
structure MergeState where
  index : Nat
  firstHalf : Nat
  secondHalf : Nat
  temp : List Nat
deriving DecidableEq

/-- The loop of lines 386-394: both halves have elements. -/
def mergeBoth (lt : Nat → Nat → Bool) (hullVertIndices : List Nat) (numPoints stride i : Nat)
    (s : MergeState) : MergeState :=
  if s.firstHalf < i + stride ∧ s.firstHalf < numPoints ∧
      s.secondHalf < i + 2 * stride ∧ s.secondHalf < numPoints then
    if lt (hullVertIndices.getD s.firstHalf 0) (hullVertIndices.getD s.secondHalf 0) then
      mergeBoth lt hullVertIndices numPoints stride i
        { s with index := s.index + 1, firstHalf := s.firstHalf + 1,
                 temp := s.temp.set s.index (hullVertIndices.getD s.firstHalf 0) }
    else
      mergeBoth lt hullVertIndices numPoints stride i
        { s with index := s.index + 1, secondHalf := s.secondHalf + 1,
                 temp := s.temp.set s.index (hullVertIndices.getD s.secondHalf 0) }
  else
    s
termination_by (numPoints - s.firstHalf) + (numPoints - s.secondHalf)
decreasing_by
  all_goals simp_wf
  all_goals omega

/-- The loop of lines 397-399: the rest of the first half. -/
def dumpFirst (hullVertIndices : List Nat) (numPoints stride i : Nat)
    (s : MergeState) : MergeState :=
  if s.firstHalf < i + stride ∧ s.firstHalf < numPoints then
    dumpFirst hullVertIndices numPoints stride i
      { s with index := s.index + 1, firstHalf := s.firstHalf + 1,
               temp := s.temp.set s.index (hullVertIndices.getD s.firstHalf 0) }
  else
    s
termination_by numPoints - s.firstHalf
decreasing_by
  simp_wf
  omega

/-- The loop of lines 401-403: the rest of the second half. -/
def dumpSecond (hullVertIndices : List Nat) (numPoints stride i : Nat)
    (s : MergeState) : MergeState :=
  if s.secondHalf < i + 2 * stride ∧ s.secondHalf < numPoints then
    dumpSecond hullVertIndices numPoints stride i
      { s with index := s.index + 1, secondHalf := s.secondHalf + 1,
               temp := s.temp.set s.index (hullVertIndices.getD s.secondHalf 0) }
  else
    s
termination_by numPoints - s.secondHalf
decreasing_by
  simp_wf
  omega

/-- The loop of lines 406-408: copy `temp[j]` back for `j` from `i` on. -/
def copyBack (temp : List Nat) (numPoints stride i : Nat) (j : Nat)
    (hullVertIndices : List Nat) : List Nat :=
  if j < i + 2 * stride ∧ j < numPoints then
    copyBack temp numPoints stride i (j + 1) (hullVertIndices.set j (temp.getD j 0))
  else
    hullVertIndices
termination_by numPoints - j
decreasing_by
  simp_wf
  omega

/-- The body of the `for` loop (lines 382-408) for one block start `i`:
returns the index array and the scratch buffer. -/
def mergeBlock (lt : Nat → Nat → Bool) (numPoints stride i : Nat)
    (hullVertIndices temp : List Nat) : List Nat × List Nat :=
  let s0 : MergeState := { index := i, firstHalf := i, secondHalf := i + stride, temp := temp }
  let s1 := mergeBoth lt hullVertIndices numPoints stride i s0
  let s2 := dumpFirst hullVertIndices numPoints stride i s1
  let s3 := dumpSecond hullVertIndices numPoints stride i s2
  (copyBack s3.temp numPoints stride i i hullVertIndices, s3.temp)

/-- The loop `for (size_t i = 1; i < numPoints; i += 2 * stride)` of line 381. -/
def sortPass (lt : Nat → Nat → Bool) (numPoints stride : Nat) (hs : 0 < stride) (i : Nat)
    (hullVertIndices temp : List Nat) : List Nat × List Nat :=
  if i < numPoints then
    sortPass lt numPoints stride hs (i + 2 * stride)
      (mergeBlock lt numPoints stride i hullVertIndices temp).1
      (mergeBlock lt numPoints stride i hullVertIndices temp).2
  else
    (hullVertIndices, temp)
termination_by numPoints - i
decreasing_by
  simp_wf
  omega

/-- The loop `while (stride < numPoints)` of lines 380-411; `stride` starts at
`1` and doubles, so it is positive throughout. -/
def sortLoop (lt : Nat → Nat → Bool) (numPoints stride : Nat) (hs : 0 < stride)
    (hullVertIndices temp : List Nat) : List Nat :=
  if stride < numPoints then
    sortLoop lt numPoints (stride * 2) (by omega)
      (sortPass lt numPoints stride hs 1 hullVertIndices temp).1
      (sortPass lt numPoints stride hs 1 hullVertIndices temp).2
  else
    hullVertIndices
termination_by numPoints - stride
decreasing_by
  simp_wf
  omega

/-- The function `SortPointsByPolarAngle(pointPos, hullVertIndices, numPoints)`:
`basePoint = hullVertIndices[0]`, a scratch buffer of `numPoints` cells, and
the merge sort from `stride = 1`.  Returns the array `hullVertIndices`. -/
def SortPointsByPolarAngle (pointPos : List Point) (hullVertIndices : List Nat)
    (numPoints : Nat) : List Nat :=
  let basePoint := hullVertIndices.getD 0 0
  sortLoop (cmp pointPos basePoint) numPoints 1 (by decide) hullVertIndices
    (List.replicate numPoints 0)

/-! ## Step 3: the hull scan (lines 107-144) -/

/-- The expression `cross_product` of lines 119-121, with the grouping of the
source: `((px*qy - py*qx) - (px*ry - rx*py) + qx*ry) - rx*qy`, every product,
difference and sum rounded. -/
def cross_product (pointPos : List Point) (p q r : Nat) : ℚ :=
  fsub
    (fadd
      (fsub
        (fsub (fmul (X pointPos p) (Y pointPos q)) (fmul (Y pointPos p) (X pointPos q)))
        (fsub (fmul (X pointPos p) (Y pointPos r)) (fmul (X pointPos r) (Y pointPos p))))
      (fmul (X pointPos q) (Y pointPos r)))
    (fmul (X pointPos r) (Y pointPos q))

/-- The body of the loop of lines 114-137 on the state `(i, convex_hull_vec)`;
the first component of the result is the loop index after the `++i` of the loop
header.  `pop_back` is `dropLast`, `push_back(r)` is `++ [r]`; in the branch
`--i; continue;` the index comes out unchanged. -/
def hullStep (pointPos : List Point) (hullVertIndices : List Nat)
    (i : Nat) (convex_hull_vec : List Nat) : Nat × List Nat :=
  let p := convex_hull_vec.getD (convex_hull_vec.length - 2) 0
  let q := convex_hull_vec.getD (convex_hull_vec.length - 1) 0
  let r := hullVertIndices.getD i 0
  if cross_product pointPos p q r < 0 then
    if convex_hull_vec.dropLast.length = 1 then
      (i + 1, convex_hull_vec.dropLast ++ [r])
    else
      (i, convex_hull_vec.dropLast)
  else
    (i + 1, convex_hull_vec ++ [r])

/-- The loop `for (int i = 2; i < NUM_POINTS; ++i)` of lines 114-137: the body
is repeated while `i < NUM_POINTS`.  The vector holds at least two entries
whenever the loop head is reached (`hsize`, established again after each
iteration), and `2 * (NUM_POINTS - i) + size` decreases with each iteration. -/
def hullLoop (pointPos : List Point) (hullVertIndices : List Nat) (numPoints : Nat)
    (i : Nat) (convex_hull_vec : List Nat) (hsize : 2 ≤ convex_hull_vec.length) : List Nat :=
  if i < numPoints then
    hullLoop pointPos hullVertIndices numPoints
      (hullStep pointPos hullVertIndices i convex_hull_vec).1
      (hullStep pointPos hullVertIndices i convex_hull_vec).2
      (by
        unfold hullStep
        dsimp only
        split_ifs with _ h1
        · simp only [List.length_append, List.length_singleton, h1]
          omega
        · simp only [List.length_dropLast] at h1 ⊢
          omega
        · simp only [List.length_append, List.length_singleton]
          omega)
  else
    convex_hull_vec
termination_by 2 * (numPoints - i) + convex_hull_vec.length
decreasing_by
  simp_wf
  unfold hullStep
  dsimp only
  split_ifs with _ h1
  · simp only [List.length_append, List.length_singleton, h1]
    omega
  · simp only [List.length_dropLast] at h1 ⊢
    omega
  · simp only [List.length_append, List.length_singleton]
    omega

/-- Lines 107-137: the vector starts as `[hullVertIndices[0], hullVertIndices[1]]`
and the loop runs from `i = 2`.  Returns `convex_hull_vec`. -/
def hullScan (pointPos : List Point) (hullVertIndices : List Nat) (numPoints : Nat) : List Nat :=
  hullLoop pointPos hullVertIndices numPoints 2
    [hullVertIndices.getD 0 0, hullVertIndices.getD 1 0] (Nat.le_refl 2)

/-- The whole block of lines 75-148 from the identity index array: the
resulting `convex_hull_vec`, that is, `hullVertIndices[0..numHullVerts)`. -/
def grahamHull (pointPos : List Point) : List Nat :=
  let numPoints := pointPos.length
  let start_index := findStartIndex pointPos
  let placed := placePivot (initIndices numPoints) start_index
  let sorted := SortPointsByPolarAngle pointPos placed numPoints
  hullScan pointPos sorted numPoints

/-! ## Furthest pair (lines 162-178) -/

/-- The locals of the furthest-pair search (lines 162-164). -/
structure FurthestState where
  furthestStart : Nat
  furthestEnd : Nat
  max_dst : ℚ
deriving DecidableEq

/-- The value `dst` of lines 168-170 for the positions `i`, `j` of
`hullVertIndices`. -/
def dst (pointPos : List Point) (hullVertIndices : List Nat) (i j : Nat) : ℚ :=
  let delta_y := fsub (Y pointPos (hullVertIndices.getD i 0)) (Y pointPos (hullVertIndices.getD j 0))
  let delta_x := fsub (X pointPos (hullVertIndices.getD i 0)) (X pointPos (hullVertIndices.getD j 0))
  fsqrt (fadd (fmul delta_x delta_x) (fmul delta_y delta_y))

/-- The body of the inner loop (lines 168-176). -/
def furthestStep (pointPos : List Point) (hullVertIndices : List Nat) (i : Nat)
    (st : FurthestState) (j : Nat) : FurthestState :=
  if dst pointPos hullVertIndices i j > st.max_dst then
    { furthestStart := i, furthestEnd := j, max_dst := dst pointPos hullVertIndices i j }
  else
    st

/-- The inner loop `for (int j = i; j < numHullVerts; ++j)`. -/
def furthestRow (pointPos : List Point) (hullVertIndices : List Nat) (numHullVerts : Nat)
    (st : FurthestState) (i : Nat) : FurthestState :=
  (List.range' i (numHullVerts - i)).foldl (furthestStep pointPos hullVertIndices i) st

/-- The search of lines 162-178: `furthestStart = 0`, `furthestEnd = 1`,
`max_dst = 0.0f`, then `for (int i = 0; i < numHullVerts; ++i)`. -/
def furthestSearch (pointPos : List Point) (hullVertIndices : List Nat)
    (numHullVerts : Nat) : FurthestState :=
  (List.range numHullVerts).foldl (furthestRow pointPos hullVertIndices numHullVerts)
    { furthestStart := 0, furthestEnd := 1, max_dst := 0 }

/-! ## Auxiliary definitions for the proofs -/

/-- The invariant of the starting-point scan after the indices below `k` have
been visited. -/
def StartInv (pointPos : List Point) (k : Nat) (st : StartState) : Prop :=
  st.start_index < k ∧ st.lowest_y = Y pointPos st.start_index ∧
  (∀ i, i < k → Y pointPos st.start_index ≤ Y pointPos i) ∧
  (∀ i, i < k → Y pointPos i = Y pointPos st.start_index →
    X pointPos i ≤ X pointPos st.start_index) ∧
  (∀ i, i < k → X pointPos i = X pointPos st.start_index →
    Y pointPos i = Y pointPos st.start_index → st.start_index ≤ i)

/-- The cross product of `q - p` and `r - p` in the factored form
`(qx-px)(ry-py) - (rx-px)(qy-py)`, for three indices into the point array. -/
def turn (pointPos : List Point) (p q r : Nat) : ℚ :=
  (X pointPos q - X pointPos p) * (Y pointPos r - Y pointPos p)
    - (X pointPos r - X pointPos p) * (Y pointPos q - Y pointPos p)

/-- The square with corners `(0,0)`, `(4,0)`, `(4,4)`, `(0,4)`, counter-clockwise
from the origin. -/
def squareCorners : List Point := [(0, 0), (4, 0), (4, 4), (0, 4)]

/-- The square of the Euclidean distance between the points at the positions
`i`, `j` of `hullVertIndices`, in exact arithmetic: the quantity
`delta_x * delta_x + delta_y * delta_y` of lines 168-170 without any rounding. -/
def dst2 (pointPos : List Point) (hullVertIndices : List Nat) (i j : Nat) : ℚ :=
  let delta_y := Y pointPos (hullVertIndices.getD i 0) - Y pointPos (hullVertIndices.getD j 0)
  let delta_x := X pointPos (hullVertIndices.getD i 0) - X pointPos (hullVertIndices.getD j 0)
  delta_x * delta_x + delta_y * delta_y

/-- The key in exact arithmetic, as C4 and C19 word it: `-1 / slope` with
`slope = dy / dx`, `slope = FLT_MAX` when `dx = 0` and the key `-FLT_MAX` when
`slope = 0`, nothing rounded. -/
def exactKey (pointPos : List Point) (basePoint a : Nat) : ℚ :=
  let delta_y := Y pointPos a - Y pointPos basePoint
  let delta_x := X pointPos a - X pointPos basePoint
  let slope := if delta_x = 0 then FLT_MAX else delta_y / delta_x
  if slope = 0 then -FLT_MAX else -1 / slope

/-- The invariant of the furthest-pair search: the recorded positions are below
`M`, the recorded value does not exceed the value `dst` of the recorded pair,
and every pair already visited (`done`) is at most the recorded value. -/
def FurthestInv (pointPos : List Point) (hullVertIndices : List Nat) (M : Nat)
    (done : Nat → Nat → Prop) (st : FurthestState) : Prop :=
  st.furthestStart < M ∧ st.furthestEnd < M ∧
  st.max_dst ≤ dst pointPos hullVertIndices st.furthestStart st.furthestEnd ∧
  ∀ a b, done a b → dst pointPos hullVertIndices a b ≤ st.max_dst

/-- The entries of `A` at the positions `a`, `a + 1`, ... that are below `b` and
below the length of `A`. -/
def seg (A : List Nat) (a b : Nat) : List Nat := (A.drop a).take (b - a)

/-- One pass of the bottom-up merge sort, on the list `R` of the cells from the
current block start on: `R` is cut into blocks of `2 * stride` cells and each
block is replaced by the merge of its two halves of `stride` cells. -/
def passL (lt : Nat → Nat → Bool) (stride : Nat) (R : List Nat) : List Nat :=
  if R = [] ∨ stride = 0 then
    R
  else
    List.merge (R.take stride) ((R.drop stride).take stride) lt
      ++ passL lt stride (R.drop (2 * stride))
termination_by R.length
decreasing_by
  simp_wf
  rename_i h
  have : 0 < R.length := List.length_pos.mpr (fun hc => h (Or.inl hc))
  omega

/-- The passes of the bottom-up merge sort on the list `R` of the cells
`1 .. numPoints`, with `stride` doubling while it is below `numPoints`. -/
def loopL (lt : Nat → Nat → Bool) (numPoints stride : Nat) (hs : 0 < stride)
    (R : List Nat) : List Nat :=
  if stride < numPoints then
    loopL lt numPoints (stride * 2) (by omega) (passL lt stride R)
  else
    R
termination_by numPoints - stride
decreasing_by
  simp_wf
  omega

/-- Every block of `stride` consecutive cells of `R` (the last one possibly
shorter) is in non-decreasing order of `key`. -/
def BlocksSorted (key : Nat → ℚ) (stride : Nat) (R : List Nat) : Prop :=
  ∀ k, ((R.drop (k * stride)).take stride).Pairwise (fun a b => key a ≤ key b)

/-- Containment as the spec states it: every point of the array is on or to the
left of every edge of the closed polygon `hull` (the edge from position `k` to
position `k + 1`, the last one back to position 0). -/
def hullContains (pointPos : List Point) (hull : List Nat) : Prop :=
  ∀ x, x < pointPos.length → ∀ k, k < hull.length →
    0 ≤ turn pointPos (hull.getD k 0) (hull.getD ((k + 1) % hull.length) 0) x

/-- Counter-clockwise closed loop: every three cyclically consecutive entries of
`hull`, the two wrap-around triples included, make a non-negative cross
product. -/
def ccwLoop (pointPos : List Point) (hull : List Nat) : Prop :=
  ∀ k, k < hull.length →
    0 ≤ turn pointPos (hull.getD k 0) (hull.getD ((k + 1) % hull.length) 0)
      (hull.getD ((k + 2) % hull.length) 0)

/-- The square `(0,0)`, `(4,0)`, `(4,4)`, `(0,4)` with its centre `(2,2)`. -/
def squareWithCentre : List Point := [(0, 0), (4, 0), (4, 4), (0, 4), (2, 2)]

/-- Three points on the line `y = 0`, the rightmost first, and `(4,4)`. -/
def bottomRowAndTop : List Point := [(4, 0), (2, 0), (0, 0), (4, 4)]

/-! ## The write-back and the furthest-pair search as `main` runs them -/

/-- The index array that the hull scan receives: the identity array after the
pivot placement and `SortPointsByPolarAngle` (lines 71-100). -/
def grahamSorted (pointPos : List Point) : List Nat :=
  SortPointsByPolarAngle pointPos
    (placePivot (initIndices pointPos.length) (findStartIndex pointPos)) pointPos.length

/-- The write-back of lines 140-144:
`for (i = 0; i < numHullVerts; ++i) hullVertIndices[i] = convex_hull_vec[i];`
with `numHullVerts = convex_hull_vec.size()`. -/
def writeBack (convex_hull_vec hullVertIndices : List Nat) : List Nat :=
  (List.range convex_hull_vec.length).foldl
    (fun arr i => arr.set i (convex_hull_vec.getD i 0)) hullVertIndices

/-- The array `hullVertIndices` at the end of the block of lines 75-148. -/
def grahamIndices (pointPos : List Point) : List Nat :=
  writeBack (grahamHull pointPos) (grahamSorted pointPos)

/-- The furthest-pair search as `main` runs it (lines 159-178): on the array
left by the write-back, with `numHullVerts` the size of the hull vector. -/
def furthestPair (pointPos : List Point) : FurthestState :=
  furthestSearch pointPos (grahamIndices pointPos) (grahamHull pointPos).length

/-! ## Rows of the point array -/

/-- The point of index `i`: the row `pointPos[i]`. -/
def pt (pointPos : List Point) (i : Nat) : Point := pointPos.getD i (0, 0)

/-- The key of `cmp` as a function of the base point `B` and the point `P`. -/
def keyP (B P : Point) : ℚ :=
  let delta_y := fsub P.2 B.2
  let delta_x := fsub P.1 B.1
  let slope := if delta_x = 0 then FLT_MAX else fdiv delta_y delta_x
  if slope = 0 then -FLT_MAX else fdiv (-1) slope

/-! ## Further auxiliary definitions for the proofs -/

/-- The state `(i, convex_hull_vec)` of the hull loop after at most `n`
iterations of its body from the state `st`: an iteration is made only while
`i < NUM_POINTS`. -/
def hullIter (pointPos : List Point) (hullVertIndices : List Nat) (numPoints : Nat) :
    Nat → Nat × List Nat → Nat × List Nat
  | 0, st => st
  | n + 1, st =>
    if st.1 < numPoints then
      hullIter pointPos hullVertIndices numPoints n
        (hullStep pointPos hullVertIndices st.1 st.2)
    else
      st

/-- The invariant of the furthest-pair search when the pair `(i, j)` is about
to be visited: the recorded pair is a proper pair below `M`; the recorded value
is non-negative and at most the value `dst` of the recorded pair; every
pair visited so far (the pairs `a ≤ b` before `(i, j)` in the order of the two
loops) is at most the recorded value; and every proper pair before the recorded
pair is strictly closer than the recorded pair. -/
def FirstMaxInv (pointPos : List Point) (hullVertIndices : List Nat) (M i j : Nat)
    (st : FurthestState) : Prop :=
  st.furthestStart < st.furthestEnd ∧ st.furthestEnd < M ∧
  0 ≤ st.max_dst ∧
  st.max_dst ≤ dst pointPos hullVertIndices st.furthestStart st.furthestEnd ∧
  (∀ a b, a ≤ b → b < M → (a < i ∨ (a = i ∧ b < j)) →
    dst pointPos hullVertIndices a b ≤ st.max_dst) ∧
  (∀ a b, a < b → b < M → (a < st.furthestStart ∨ (a = st.furthestStart ∧ b < st.furthestEnd)) →
    dst pointPos hullVertIndices a b
      < dst pointPos hullVertIndices st.furthestStart st.furthestEnd)

/-- The block number `b` of `stride` consecutive cells of `R`. -/
def blk (stride b : Nat) (R : List Nat) : List Nat := (R.drop (b * stride)).take stride

/-- The entries of `l` whose key is `k`, in their order in `l`. -/
def withKey (key : Nat → ℚ) (k : ℚ) (l : List Nat) : List Nat :=
  l.filter (fun x => decide (key x = k))

/-! ## Point sets of the examples -/

/-- The four points `(0,0)`, `(4,0)`, `(4,1)`, `(3,1)`. -/
def wedgePoints : List Point := [(0, 0), (4, 0), (4, 1), (3, 1)]

/-- Three points on the line `y = x`. -/
def collinearThree : List Point := [(0, 0), (1, 1), (2, 2)]

/-- The three points `(1,1)`, `(2,2)`, `(0,0)`: the lowest point has the last
index. -/
def diagonalPivotLast : List Point := [(1, 1), (2, 2), (0, 0)]

/-- The four points `(0,0)`, `(1,1)`, `(2,2)`, `(0,3)`. -/
def diagonalAndTop : List Point := [(0, 0), (1, 1), (2, 2), (0, 3)]

/-- The points of `diagonalAndTop` with the indices 1 and 2 exchanged. -/
def diagonalAndTopSwapped : List Point := [(0, 0), (2, 2), (1, 1), (0, 3)]

/-- Four points in convex position with a single lowest point and no two of
the others in line with it: `(0,0)`, `(4,1)`, `(4,4)`, `(0,4)`. -/
def squareCornersSkew : List Point := [(0, 0), (4, 1), (4, 4), (0, 4)]


/-- The three points `(0,0)`, `(1 + 2^-23, 1)`, `(1, 1 - 2^-24)`, all binary32
values: the product `(1 + 2^-23) * (1 - 2^-24) = 1 + 2^-24 - 2^-47` rounds to
`1`. -/
def roundedTurnPoints : List Point := [(0, 0), (1 + 1 / 2 ^ 23, 1), (1, 1 - 1 / 2 ^ 24)]

/-- The three points `(0,0)`, `(2 + 2^-22, 6 + 2^-21)`, `(1, 3)`, all binary32
values: the two quotients `dy / dx` differ and round to different binary32
values, whose negated reciprocals round to the same one. -/
def roundedKeyPoints : List Point := [(0, 0), (2 + 1 / 2 ^ 22, 6 + 1 / 2 ^ 21), (1, 3)]

/-- The three points `(0,0)`, `(1,0)`, `(1, 2^-13)`, all binary32 values: the
sum `1 + 2^-26` of the squares of the differences of the first and the third
rounds to `1`. -/
def roundedSumPoints : List Point := [(0, 0), (1, 0), (1, 1 / 2 ^ 13)]

/-- The point array `pointPos` read in the index order `p`: the row `k` of the
result is the row `p[k]` of `pointPos`. -/
def reindexed (pointPos : List Point) (p : List Nat) : List Point :=
  p.map (fun k => pointPos.getD k (0, 0))
/-! ## The pipeline with checked array accesses

The same code once more, with every array access checked against the length of
the array: a read or write at an index that is not below the length makes the
whole run `none`.  The arrays `pointPos`, `hullVertIndices`, `temp` and
`pointColor` have `NUM_POINTS` cells; the vector `convex_hull_vec` has its
current size. -/

/-- A checked read `a[i]`. -/
def rd {α : Type} (a : List α) (i : Nat) : Option α := a[i]?

/-- A checked write `a[i] = v`. -/
def wr {α : Type} (a : List α) (i : Nat) (v : α) : Option (List α) :=
  if i < a.length then some (a.set i v) else none

/-- One iteration of the loop of lines 81-91 with checked reads of
`pointPos[i]` and, when the third condition is evaluated, of
`pointPos[start_index]`. -/
def startStepC (pointPos : List Point) (st : StartState) (i : Nat) : Option StartState :=
  match rd pointPos i with
  | none => none
  | some p =>
    if p.2 > st.lowest_y then
      some st
    else if p.2 < st.lowest_y then
      some { start_index := i, lowest_y := p.2 }
    else
      match rd pointPos st.start_index with
      | none => none
      | some ps =>
        if p.2 = st.lowest_y ∧ p.1 > ps.1 then
          some { st with start_index := i }
        else
          some st

/-- The scan of lines 79-91 with checked reads; the first read is
`pointPos[0][1]`. -/
def startScanC (pointPos : List Point) : Option StartState :=
  match rd pointPos 0 with
  | none => none
  | some p0 =>
    (List.range' 1 (pointPos.length - 1)).foldlM (startStepC pointPos)
      { start_index := 0, lowest_y := p0.2 }

/-- The two writes of lines 93 and 96, checked. -/
def placePivotC (hullVertIndices : List Nat) (start_index : Nat) : Option (List Nat) :=
  match wr hullVertIndices 0 start_index with
  | none => none
  | some a => wr a start_index 0

/-- The lambda `cmp` with checked reads of `pointPos[a]`, `pointPos[basePoint]`
and `pointPos[b]`. -/
def cmpC (pointPos : List Point) (basePoint a b : Nat) : Option Bool :=
  match rd pointPos a, rd pointPos basePoint, rd pointPos b with
  | some pa, some pbase, some pb => some (decide (keyP pbase pa < keyP pbase pb))
  | _, _, _ => none

/-- The loop of lines 386-394 with checked reads of `hullVertIndices` and
checked writes of `temp`. -/
def mergeBothC (ltC : Nat → Nat → Option Bool) (hullVertIndices : List Nat)
    (numPoints stride i : Nat) (s : MergeState) : Option MergeState :=
  if s.firstHalf < i + stride ∧ s.firstHalf < numPoints ∧
      s.secondHalf < i + 2 * stride ∧ s.secondHalf < numPoints then
    match rd hullVertIndices s.firstHalf, rd hullVertIndices s.secondHalf with
    | some a, some b =>
      match ltC a b with
      | none => none
      | some true =>
        match wr s.temp s.index a with
        | none => none
        | some t =>
          mergeBothC ltC hullVertIndices numPoints stride i
            { s with index := s.index + 1, firstHalf := s.firstHalf + 1, temp := t }
      | some false =>
        match wr s.temp s.index b with
        | none => none
        | some t =>
          mergeBothC ltC hullVertIndices numPoints stride i
            { s with index := s.index + 1, secondHalf := s.secondHalf + 1, temp := t }
    | _, _ => none
  else
    some s
termination_by (numPoints - s.firstHalf) + (numPoints - s.secondHalf)
decreasing_by
  all_goals simp_wf
  all_goals omega

/-- The loop of lines 397-399, checked. -/
def dumpFirstC (hullVertIndices : List Nat) (numPoints stride i : Nat)
    (s : MergeState) : Option MergeState :=
  if s.firstHalf < i + stride ∧ s.firstHalf < numPoints then
    match rd hullVertIndices s.firstHalf with
    | none => none
    | some a =>
      match wr s.temp s.index a with
      | none => none
      | some t =>
        dumpFirstC hullVertIndices numPoints stride i
          { s with index := s.index + 1, firstHalf := s.firstHalf + 1, temp := t }
  else
    some s
termination_by numPoints - s.firstHalf
decreasing_by
  simp_wf
  omega

/-- The loop of lines 401-403, checked. -/
def dumpSecondC (hullVertIndices : List Nat) (numPoints stride i : Nat)
    (s : MergeState) : Option MergeState :=
  if s.secondHalf < i + 2 * stride ∧ s.secondHalf < numPoints then
    match rd hullVertIndices s.secondHalf with
    | none => none
    | some b =>
      match wr s.temp s.index b with
      | none => none
      | some t =>
        dumpSecondC hullVertIndices numPoints stride i
          { s with index := s.index + 1, secondHalf := s.secondHalf + 1, temp := t }
  else
    some s
termination_by numPoints - s.secondHalf
decreasing_by
  simp_wf
  omega

/-- The loop of lines 406-408, checked. -/
def copyBackC (temp : List Nat) (numPoints stride i : Nat) (j : Nat)
    (hullVertIndices : List Nat) : Option (List Nat) :=
  if j < i + 2 * stride ∧ j < numPoints then
    match rd temp j with
    | none => none
    | some v =>
      match wr hullVertIndices j v with
      | none => none
      | some a => copyBackC temp numPoints stride i (j + 1) a
  else
    some hullVertIndices
termination_by numPoints - j
decreasing_by
  simp_wf
  omega

/-- The body of the `for` loop (lines 382-408), checked. -/
def mergeBlockC (ltC : Nat → Nat → Option Bool) (numPoints stride i : Nat)
    (hullVertIndices temp : List Nat) : Option (List Nat × List Nat) :=
  match mergeBothC ltC hullVertIndices numPoints stride i
      { index := i, firstHalf := i, secondHalf := i + stride, temp := temp } with
  | none => none
  | some s1 =>
    match dumpFirstC hullVertIndices numPoints stride i s1 with
    | none => none
    | some s2 =>
      match dumpSecondC hullVertIndices numPoints stride i s2 with
      | none => none
      | some s3 =>
        match copyBackC s3.temp numPoints stride i i hullVertIndices with
        | none => none
        | some a => some (a, s3.temp)

/-- The loop of line 381, checked. -/
def sortPassC (ltC : Nat → Nat → Option Bool) (numPoints stride : Nat) (hs : 0 < stride)
    (i : Nat) (hullVertIndices temp : List Nat) : Option (List Nat × List Nat) :=
  if i < numPoints then
    match mergeBlockC ltC numPoints stride i hullVertIndices temp with
    | none => none
    | some r => sortPassC ltC numPoints stride hs (i + 2 * stride) r.1 r.2
  else
    some (hullVertIndices, temp)
termination_by numPoints - i
decreasing_by
  simp_wf
  omega

/-- The loop of lines 380-411, checked. -/
def sortLoopC (ltC : Nat → Nat → Option Bool) (numPoints stride : Nat) (hs : 0 < stride)
    (hullVertIndices temp : List Nat) : Option (List Nat) :=
  if stride < numPoints then
    match sortPassC ltC numPoints stride hs 1 hullVertIndices temp with
    | none => none
    | some r => sortLoopC ltC numPoints (stride * 2) (by omega) r.1 r.2
  else
    some hullVertIndices
termination_by numPoints - stride
decreasing_by
  simp_wf
  omega

/-- The function `SortPointsByPolarAngle`, checked: the first access is the read
`hullVertIndices[0]` of line 330. -/
def SortPointsByPolarAngleC (pointPos : List Point) (hullVertIndices : List Nat)
    (numPoints : Nat) : Option (List Nat) :=
  match rd hullVertIndices 0 with
  | none => none
  | some basePoint =>
    sortLoopC (cmpC pointPos basePoint) numPoints 1 (by decide) hullVertIndices
      (List.replicate numPoints 0)

/-- The expression `cross_product` of lines 119-121 on three rows of the point
array. -/
def crossP (P Q R : Point) : ℚ :=
  fsub
    (fadd
      (fsub
        (fsub (fmul P.1 Q.2) (fmul P.2 Q.1))
        (fsub (fmul P.1 R.2) (fmul R.1 P.2)))
      (fmul Q.1 R.2))
    (fmul R.1 Q.2)

/-- The body of the hull loop with checked accesses: the reads
`convex_hull_vec[size - 2]` and `convex_hull_vec[size - 1]` (out of bounds
when the size is below 2), the read `hullVertIndices[i]`, and the reads of the
three rows of `pointPos`. -/
def hullStepC (pointPos : List Point) (hullVertIndices : List Nat)
    (i : Nat) (convex_hull_vec : List Nat) : Option (Nat × List Nat) :=
  if 2 ≤ convex_hull_vec.length then
    match rd convex_hull_vec (convex_hull_vec.length - 2),
        rd convex_hull_vec (convex_hull_vec.length - 1), rd hullVertIndices i with
    | some p, some q, some r =>
      match rd pointPos p, rd pointPos q, rd pointPos r with
      | some P, some Q, some R =>
        if crossP P Q R < 0 then
          if convex_hull_vec.dropLast.length = 1 then
            some (i + 1, convex_hull_vec.dropLast ++ [r])
          else
            some (i, convex_hull_vec.dropLast)
        else
          some (i + 1, convex_hull_vec ++ [r])
      | _, _, _ => none
    | _, _, _ => none
  else
    none

/-- The hull loop of lines 114-137 with checked accesses. -/
def hullLoopC (pointPos : List Point) (hullVertIndices : List Nat) (numPoints : Nat)
    (i : Nat) (convex_hull_vec : List Nat) : Option (List Nat) :=
  if i < numPoints then
    match h : hullStepC pointPos hullVertIndices i convex_hull_vec with
    | none => none
    | some st => hullLoopC pointPos hullVertIndices numPoints st.1 st.2
  else
    some convex_hull_vec
termination_by 2 * (numPoints - i) + convex_hull_vec.length
decreasing_by
  simp_wf
  unfold hullStepC at h
  split at h
  · split at h
    · split at h
      · split_ifs at h with c1 c2
        · cases h
          simp only [List.length_append, List.length_singleton, c2]
          omega
        · cases h
          simp only [List.length_dropLast]
          omega
        · cases h
          simp only [List.length_append, List.length_singleton]
          omega
      · cases h
    · cases h
  · cases h

/-- Lines 110-137 with checked accesses: the reads `hullVertIndices[0]` and
`hullVertIndices[1]` initialise the vector. -/
def hullScanC (pointPos : List Point) (hullVertIndices : List Nat) (numPoints : Nat) :
    Option (List Nat) :=
  match rd hullVertIndices 0, rd hullVertIndices 1 with
  | some a, some b => hullLoopC pointPos hullVertIndices numPoints 2 [a, b]
  | _, _ => none

/-- The write-back of lines 140-144 with checked accesses. -/
def writeBackC (convex_hull_vec hullVertIndices : List Nat) : Option (List Nat) :=
  (List.range convex_hull_vec.length).foldlM
    (fun arr i =>
      match rd convex_hull_vec i with
      | none => none
      | some v => wr arr i v) hullVertIndices

/-- The value `dst` of lines 168-170 on two rows of the point array. -/
def dstP (P Q : Point) : ℚ :=
  let delta_y := fsub P.2 Q.2
  let delta_x := fsub P.1 Q.1
  fsqrt (fadd (fmul delta_x delta_x) (fmul delta_y delta_y))

/-- The body of the inner loop (lines 168-176) with checked reads of
`hullVertIndices[i]`, `hullVertIndices[j]` and of the two rows of `pointPos`. -/
def furthestStepC (pointPos : List Point) (hullVertIndices : List Nat) (i : Nat)
    (st : FurthestState) (j : Nat) : Option FurthestState :=
  match rd hullVertIndices i, rd hullVertIndices j with
  | some a, some b =>
    match rd pointPos a, rd pointPos b with
    | some P, some Q =>
      if dstP P Q > st.max_dst then
        some { furthestStart := i, furthestEnd := j, max_dst := dstP P Q }
      else
        some st
    | _, _ => none
  | _, _ => none

/-- The inner loop of line 167, checked. -/
def furthestRowC (pointPos : List Point) (hullVertIndices : List Nat) (numHullVerts : Nat)
    (st : FurthestState) (i : Nat) : Option FurthestState :=
  (List.range' i (numHullVerts - i)).foldlM (furthestStepC pointPos hullVertIndices i) st

/-- The search of lines 162-178, checked. -/
def furthestSearchC (pointPos : List Point) (hullVertIndices : List Nat)
    (numHullVerts : Nat) : Option FurthestState :=
  (List.range numHullVerts).foldlM (furthestRowC pointPos hullVertIndices numHullVerts)
    { furthestStart := 0, furthestEnd := 1, max_dst := 0 }

/-- The accesses of lines 183-186: the reads `hullVertIndices[furthestStart]`
and `hullVertIndices[furthestEnd]`, whose values index the `numPoints` rows of
`pointColor`. -/
def colourFurthestC (numPoints : Nat) (hullVertIndices : List Nat) (st : FurthestState) :
    Option Unit :=
  match rd hullVertIndices st.furthestStart, rd hullVertIndices st.furthestEnd with
  | some a, some b => if a < numPoints ∧ b < numPoints then some () else none
  | _, _ => none

/-- The whole computation of lines 75-187 with checked accesses, from the
identity index array: the final `hullVertIndices` and the result of the
furthest-pair search, or `none` if some access is out of bounds. -/
def pipelineC (pointPos : List Point) : Option (List Nat × FurthestState) :=
  (startScanC pointPos).bind fun st =>
  (placePivotC (initIndices pointPos.length) st.start_index).bind fun placed =>
  (SortPointsByPolarAngleC pointPos placed pointPos.length).bind fun sorted =>
  (hullScanC pointPos sorted pointPos.length).bind fun vec =>
  (writeBackC vec sorted).bind fun arr =>
  (furthestSearchC pointPos arr vec.length).bind fun fst =>
  (colourFurthestC pointPos.length arr fst).bind fun _ =>
  some (arr, fst)

/-! ## Properties of the rounding -/

theorem log2Fuel_spec (fuel n : Nat) (hn : 1 ≤ n) (hf : n ≤ fuel) :
    2 ^ log2Fuel fuel n ≤ n ∧ n < 2 ^ (log2Fuel fuel n + 1) := by
  induction fuel generalizing n with
  | zero => omega
  | succ f ih =>
    unfold log2Fuel
    split_ifs with h
    · have h1 := ih (n / 2) (by omega) (by omega)
      obtain ⟨ha, hb⟩ := h1
      constructor
      · rw [pow_succ]
        omega
      · rw [pow_succ]
        omega
    · simp
      omega

theorem floorLog2_spec (n : Nat) (hn : 1 ≤ n) :
    2 ^ floorLog2 n ≤ n ∧ n < 2 ^ (floorLog2 n + 1) :=
  log2Fuel_spec n n hn (Nat.le_refl n)

theorem binExp_spec (a : ℚ) (ha : 0 < a) :
    (2 : ℚ) ^ binExp a ≤ a ∧ a < (2 : ℚ) ^ (binExp a + 1) := by
  have hnum : 0 < a.num := Rat.num_pos.mpr ha
  have hden : 0 < a.den := a.den_pos
  obtain ⟨hk1, hk2⟩ := floorLog2_spec a.num.natAbs (by omega)
  obtain ⟨hl1, hl2⟩ := floorLog2_spec a.den (by omega)
  unfold binExp
  generalize floorLog2 a.num.natAbs = k at hk1 hk2 ⊢
  generalize floorLog2 a.den = l at hl1 hl2 ⊢
  have hnq : (a.num.natAbs : ℚ) = (a.num : ℚ) := by
    rw [← Int.cast_natCast, Int.natAbs_of_nonneg (le_of_lt hnum)]
  have haeq : a = (a.num.natAbs : ℚ) / (a.den : ℚ) := by
    rw [hnq]
    exact (Rat.num_div_den a).symm
  have hdq : (0 : ℚ) < (a.den : ℚ) := by exact_mod_cast hden
  have hk1q : (2 : ℚ) ^ (k : ℤ) ≤ (a.num.natAbs : ℚ) := by
    rw [zpow_natCast]
    exact_mod_cast hk1
  have hk2q : (a.num.natAbs : ℚ) < (2 : ℚ) ^ ((k : ℤ) + 1) := by
    rw [show ((k : ℤ) + 1) = ((k + 1 : ℕ) : ℤ) by push_cast; rfl, zpow_natCast]
    exact_mod_cast hk2
  have hl1q : (2 : ℚ) ^ (l : ℤ) ≤ (a.den : ℚ) := by
    rw [zpow_natCast]
    exact_mod_cast hl1
  have hl2q : (a.den : ℚ) < (2 : ℚ) ^ ((l : ℤ) + 1) := by
    rw [show ((l : ℤ) + 1) = ((l + 1 : ℕ) : ℤ) by push_cast; rfl, zpow_natCast]
    exact_mod_cast hl2
  have h2 : (0 : ℚ) < 2 := by norm_num
  have hlo : (2 : ℚ) ^ ((k : ℤ) - l - 1) ≤ a := by
    rw [haeq, le_div_iff₀ hdq]
    calc (2 : ℚ) ^ ((k : ℤ) - l - 1) * (a.den : ℚ)
        ≤ (2 : ℚ) ^ ((k : ℤ) - l - 1) * (2 : ℚ) ^ ((l : ℤ) + 1) :=
          mul_le_mul_of_nonneg_left (le_of_lt hl2q) (le_of_lt (zpow_pos h2 _))
      _ = (2 : ℚ) ^ (k : ℤ) := by
          rw [← zpow_add₀ (by norm_num : (2 : ℚ) ≠ 0)]
          congr 1
          ring
      _ ≤ _ := hk1q
  have hhi : a < (2 : ℚ) ^ ((k : ℤ) - l + 1) := by
    rw [haeq, div_lt_iff₀ hdq]
    calc (a.num.natAbs : ℚ) < (2 : ℚ) ^ ((k : ℤ) + 1) := hk2q
      _ = (2 : ℚ) ^ ((k : ℤ) - l + 1) * (2 : ℚ) ^ (l : ℤ) := by
          rw [← zpow_add₀ (by norm_num : (2 : ℚ) ≠ 0)]
          congr 1
          ring
      _ ≤ (2 : ℚ) ^ ((k : ℤ) - l + 1) * (a.den : ℚ) :=
          mul_le_mul_of_nonneg_left hl1q (le_of_lt (zpow_pos h2 _))
  split_ifs with h
  · exact ⟨h, hhi⟩
  · refine ⟨hlo, ?_⟩
    rw [show (k : ℤ) - l - 1 + 1 = (k : ℤ) - l by ring]
    exact not_le.mp h

theorem roundHalfEven_floor_le (r : ℚ) : ⌊r⌋ ≤ roundHalfEven r := by
  unfold roundHalfEven
  split_ifs <;> omega

theorem roundHalfEven_le_floor_succ (r : ℚ) : roundHalfEven r ≤ ⌊r⌋ + 1 := by
  unfold roundHalfEven
  split_ifs <;> omega

theorem roundHalfEven_intCast (n : ℤ) : roundHalfEven (n : ℚ) = n := by
  unfold roundHalfEven
  rw [Int.floor_intCast, sub_self, if_pos (by norm_num)]

theorem roundHalfEven_mono (r s : ℚ) (h : r ≤ s) : roundHalfEven r ≤ roundHalfEven s := by
  have hfl : ⌊r⌋ ≤ ⌊s⌋ := Int.floor_le_floor h
  rcases lt_or_eq_of_le hfl with hlt | heq
  · calc roundHalfEven r ≤ ⌊r⌋ + 1 := roundHalfEven_le_floor_succ r
      _ ≤ ⌊s⌋ := hlt
      _ ≤ roundHalfEven s := roundHalfEven_floor_le s
  · have hfr : r - ⌊r⌋ ≤ s - ⌊s⌋ := by
      rw [heq]
      linarith
    unfold roundHalfEven
    rw [heq] at hfr ⊢
    split_ifs <;> first | omega | (exfalso; linarith)

theorem ulp32_pos (a : ℚ) : 0 < ulp32 a := zpow_pos (by norm_num) _

theorem roundHalfEven_nonneg (r : ℚ) (h : 0 ≤ r) : 0 ≤ roundHalfEven r :=
  le_trans (Int.floor_nonneg.mpr h) (roundHalfEven_floor_le r)

theorem roundAbs_nonneg (a : ℚ) (h : 0 ≤ a) : 0 ≤ roundAbs a := by
  unfold roundAbs
  split_ifs
  · unfold INF32
    positivity
  · apply mul_nonneg _ (le_of_lt (ulp32_pos a))
    exact_mod_cast roundHalfEven_nonneg _ (div_nonneg h (le_of_lt (ulp32_pos a)))

theorem roundAbs_zero : roundAbs 0 = 0 := by decide!

theorem fl32_zero : fl32 0 = 0 := by decide!

theorem fl32_neg (q : ℚ) : fl32 (-q) = -fl32 q := by
  unfold fl32
  rcases lt_trichotomy q 0 with h | h | h
  · rw [if_neg (by linarith), if_pos h, neg_neg]
  · subst h
    simp [roundAbs_zero]
  · rw [if_pos (by linarith), if_neg (by linarith), neg_neg]

theorem fl32_nonneg (q : ℚ) (h : 0 ≤ q) : 0 ≤ fl32 q := by
  unfold fl32
  rw [if_neg (not_lt.mpr h)]
  exact roundAbs_nonneg q h

theorem fl32_nonpos (q : ℚ) (h : q ≤ 0) : fl32 q ≤ 0 := by
  have := fl32_nonneg (-q) (by linarith)
  rw [fl32_neg] at this
  linarith

theorem fsqrt_nonneg (s : ℚ) : 0 ≤ fsqrt s := by
  unfold fsqrt
  split_ifs
  · exact le_refl 0
  · apply fl32_nonneg
    positivity
  · apply fl32_nonneg
    positivity

theorem fsqrt_zero : fsqrt 0 = 0 := by
  unfold fsqrt
  rw [if_pos (le_refl 0)]

theorem binExp_mono (x y : ℚ) (hx : 0 < x) (hxy : x ≤ y) : binExp x ≤ binExp y := by
  by_contra hc
  have hc1 : binExp y + 1 ≤ binExp x := by omega
  have h1 := (binExp_spec y (lt_of_lt_of_le hx hxy)).2
  have h2 := (binExp_spec x hx).1
  have h3 : (2 : ℚ) ^ (binExp y + 1) ≤ (2 : ℚ) ^ binExp x :=
    zpow_le_zpow_right₀ (by norm_num) hc1
  linarith

/-- The value of `roundAbs` before the test for overflow is monotone. -/
theorem roundCore_mono (x y : ℚ) (hx : 0 < x) (hxy : x ≤ y) :
    (roundHalfEven (x / ulp32 x) : ℚ) * ulp32 x ≤ (roundHalfEven (y / ulp32 y) : ℚ) * ulp32 y := by
  have hy : 0 < y := lt_of_lt_of_le hx hxy
  have h20 : (2 : ℚ) ≠ 0 := by norm_num
  have hE : max (binExp x) (-126) ≤ max (binExp y) (-126) :=
    max_le_max (binExp_mono x y hx hxy) (le_refl _)
  rcases eq_or_lt_of_le hE with heq | hlt
  · have hu : ulp32 y = ulp32 x := by
      unfold ulp32
      rw [heq]
    rw [hu]
    apply mul_le_mul_of_nonneg_right _ (le_of_lt (ulp32_pos x))
    have := roundHalfEven_mono (x / ulp32 x) (y / ulp32 x)
      (div_le_div_of_nonneg_right hxy (le_of_lt (ulp32_pos x)))
    exact_mod_cast this
  · have hEy : max (binExp y) (-126) = binExp y := by
      apply max_eq_left
      have : -126 ≤ max (binExp x) (-126) := le_max_right _ _
      by_contra hcon
      have : max (binExp y) (-126) = -126 := max_eq_right (by omega)
      omega
    have hxle : x ≤ (2 : ℚ) ^ (max (binExp x) (-126) + 1) := by
      have h1 := (binExp_spec x hx).2
      have h2 : (2 : ℚ) ^ (binExp x + 1) ≤ (2 : ℚ) ^ (max (binExp x) (-126) + 1) :=
        zpow_le_zpow_right₀ (by norm_num) (by have := le_max_left (binExp x) (-126); omega)
      linarith
    have hyge : (2 : ℚ) ^ (max (binExp y) (-126)) ≤ y := by
      rw [hEy]
      exact (binExp_spec y hy).1
    generalize hex : max (binExp x) (-126) = ex at hlt hxle
    generalize hey : max (binExp y) (-126) = ey at hlt hyge
    have hux : ulp32 x = (2 : ℚ) ^ (ex - 23) := by
      unfold ulp32
      rw [hex]
    have huy : ulp32 y = (2 : ℚ) ^ (ey - 23) := by
      unfold ulp32
      rw [hey]
    rw [hux, huy]
    have hpx : (0 : ℚ) < (2 : ℚ) ^ (ex - 23) := zpow_pos (by norm_num) _
    have hpy : (0 : ℚ) < (2 : ℚ) ^ (ey - 23) := zpow_pos (by norm_num) _
    have hsx : (2 : ℚ) ^ (ex + 1) = ((2 ^ 24 : ℤ) : ℚ) * (2 : ℚ) ^ (ex - 23) := by
      rw [show ex + 1 = 24 + (ex - 23) by ring, zpow_add₀ h20]
      norm_num
    have hsy : (2 : ℚ) ^ ey = ((2 ^ 23 : ℤ) : ℚ) * (2 : ℚ) ^ (ey - 23) := by
      rw [show ey = 23 + (ey - 23) by ring, zpow_add₀ h20]
      norm_num
    have hA : roundHalfEven (x / (2 : ℚ) ^ (ex - 23)) ≤ 2 ^ 24 := by
      have h1 : x / (2 : ℚ) ^ (ex - 23) ≤ ((2 ^ 24 : ℤ) : ℚ) := by
        rw [div_le_iff₀ hpx, ← hsx]
        exact hxle
      have := roundHalfEven_mono _ _ h1
      rwa [roundHalfEven_intCast] at this
    have hB : 2 ^ 23 ≤ roundHalfEven (y / (2 : ℚ) ^ (ey - 23)) := by
      have h1 : ((2 ^ 23 : ℤ) : ℚ) ≤ y / (2 : ℚ) ^ (ey - 23) := by
        rw [le_div_iff₀ hpy, ← hsy]
        exact hyge
      have := roundHalfEven_mono _ _ h1
      rwa [roundHalfEven_intCast] at this
    have hAq : (roundHalfEven (x / (2 : ℚ) ^ (ex - 23)) : ℚ) ≤ ((2 ^ 24 : ℤ) : ℚ) := by
      exact_mod_cast hA
    have hBq : ((2 ^ 23 : ℤ) : ℚ) ≤ (roundHalfEven (y / (2 : ℚ) ^ (ey - 23)) : ℚ) := by
      exact_mod_cast hB
    calc (roundHalfEven (x / (2 : ℚ) ^ (ex - 23)) : ℚ) * (2 : ℚ) ^ (ex - 23)
        ≤ ((2 ^ 24 : ℤ) : ℚ) * (2 : ℚ) ^ (ex - 23) :=
          mul_le_mul_of_nonneg_right hAq (le_of_lt hpx)
      _ = (2 : ℚ) ^ (ex + 1) := hsx.symm
      _ ≤ (2 : ℚ) ^ ey := zpow_le_zpow_right₀ (by norm_num) (by omega)
      _ = ((2 ^ 23 : ℤ) : ℚ) * (2 : ℚ) ^ (ey - 23) := hsy
      _ ≤ _ := mul_le_mul_of_nonneg_right hBq (le_of_lt hpy)

theorem roundAbs_mono (x y : ℚ) (hx : 0 ≤ x) (hxy : x ≤ y) : roundAbs x ≤ roundAbs y := by
  rcases eq_or_lt_of_le hx with h0 | hpos
  · rw [← h0, roundAbs_zero]
    exact roundAbs_nonneg y (le_trans hx hxy)
  · have hc := roundCore_mono x y hpos hxy
    have hinf : FLT_MAX < INF32 := by decide!
    unfold roundAbs
    split_ifs with h1 h2 h2
    · exact le_refl _
    · exact absurd (lt_of_lt_of_le h1 hc) h2
    · exact le_trans (not_lt.mp h1) (le_of_lt hinf)
    · exact hc

/-- The rounding is monotone. -/
theorem fl32_mono (x y : ℚ) (hxy : x ≤ y) : fl32 x ≤ fl32 y := by
  rcases lt_or_le x 0 with hx | hx
  · rcases lt_or_le y 0 with hy | hy
    · unfold fl32
      rw [if_pos hx, if_pos hy]
      have := roundAbs_mono (-y) (-x) (by linarith) (by linarith)
      linarith
    · exact le_trans (fl32_nonpos x (le_of_lt hx)) (fl32_nonneg y hy)
  · unfold fl32
    rw [if_neg (not_lt.mpr hx), if_neg (not_lt.mpr (le_trans hx hxy))]
    exact roundAbs_mono x y hx hxy

/-- A strict order between two rounded values is the order of the exact ones. -/
theorem lt_of_fl32_lt (x y : ℚ) (h : fl32 x < fl32 y) : x < y := by
  by_contra hc
  exact absurd (fl32_mono y x (not_lt.mp hc)) (not_le.mpr h)
/-- The rounding to an integer moves its argument by at most one half. -/
theorem roundHalfEven_near (r : ℚ) : |(roundHalfEven r : ℚ) - r| ≤ 1 / 2 := by
  have h1 : (⌊r⌋ : ℚ) ≤ r := Int.floor_le r
  have h2 : r < (⌊r⌋ : ℚ) + 1 := Int.lt_floor_add_one r
  unfold roundHalfEven
  rw [abs_le]
  split_ifs with c1 c2 c3 <;> push_cast <;> constructor <;> linarith

/-- The rounding of a magnitude is the infinity or moves its argument by at
most half the distance between neighbouring binary32 values. -/
theorem roundAbs_near (a : ℚ) : roundAbs a = INF32 ∨ |roundAbs a - a| ≤ ulp32 a / 2 := by
  unfold roundAbs
  split_ifs with h
  · exact Or.inl rfl
  · right
    have hu := ulp32_pos a
    have hn := roundHalfEven_near (a / ulp32 a)
    have e : (roundHalfEven (a / ulp32 a) : ℚ) * ulp32 a - a
        = ((roundHalfEven (a / ulp32 a) : ℚ) - a / ulp32 a) * ulp32 a := by
      field_simp
    rw [e, abs_mul, abs_of_pos hu]
    calc |(roundHalfEven (a / ulp32 a) : ℚ) - a / ulp32 a| * ulp32 a
        ≤ 1 / 2 * ulp32 a := mul_le_mul_of_nonneg_right hn (le_of_lt hu)
      _ = ulp32 a / 2 := by ring

theorem sqrtBits_spec (n : Nat) (b acc : Nat) (h1 : acc * acc ≤ n)
    (h2 : n < (acc + 2 ^ b) * (acc + 2 ^ b)) :
    sqrtBits n b acc * sqrtBits n b acc ≤ n ∧
    n < (sqrtBits n b acc + 1) * (sqrtBits n b acc + 1) := by
  induction b generalizing acc with
  | zero =>
    unfold sqrtBits
    rw [pow_zero] at h2
    exact ⟨h1, h2⟩
  | succ b ih =>
    unfold sqrtBits
    split_ifs with c
    · apply ih _ c
      rw [pow_succ] at h2
      rw [show acc + 2 ^ b + 2 ^ b = acc + 2 ^ b * 2 by ring]
      exact h2
    · exact ih _ h1 (not_le.mp c)

/-- The integer square root: `isqrt n` is the largest `r` with `r * r ≤ n`. -/
theorem isqrt_spec (n : Nat) :
    isqrt n * isqrt n ≤ n ∧ n < (isqrt n + 1) * (isqrt n + 1) := by
  unfold isqrt
  apply sqrtBits_spec n _ 0 (Nat.zero_le _)
  rw [Nat.zero_add, ← pow_add]
  rcases Nat.eq_zero_or_pos n with h0 | hpos
  · rw [h0]
    exact Nat.pow_pos (by decide)
  · have h := (floorLog2_spec n hpos).2
    refine lt_of_lt_of_le h (Nat.pow_le_pow_right (by decide) ?_)
    omega

/-- The exact square root of `s > 0` lies between the two neighbouring multiples
of `2^(-128)` that `fsqrt` locates: with `r = isqrt ⌊s * 4^128⌋`,
`(r / 2^128)^2 ≤ s < ((r + 1) / 2^128)^2`, and the first is an equality exactly
in the case where `fsqrt` rounds `r / 2^128` itself. -/
theorem fsqrt_bracket (s : ℚ) (hs : 0 < s) :
    ((isqrt ⌊s * 4 ^ 128⌋₊ : ℚ) / 2 ^ 128) * ((isqrt ⌊s * 4 ^ 128⌋₊ : ℚ) / 2 ^ 128) ≤ s ∧
    s < (((isqrt ⌊s * 4 ^ 128⌋₊ : ℚ) + 1) / 2 ^ 128)
      * (((isqrt ⌊s * 4 ^ 128⌋₊ : ℚ) + 1) / 2 ^ 128) ∧
    (((isqrt ⌊s * 4 ^ 128⌋₊ : ℚ) / 2 ^ 128) * ((isqrt ⌊s * 4 ^ 128⌋₊ : ℚ) / 2 ^ 128) = s ↔
      (isqrt ⌊s * 4 ^ 128⌋₊ : ℚ) * (isqrt ⌊s * 4 ^ 128⌋₊ : ℚ) = s * 4 ^ 128) := by
  have hpos : (0 : ℚ) ≤ s * 4 ^ 128 := by positivity
  obtain ⟨h1, h2⟩ := isqrt_spec ⌊s * 4 ^ 128⌋₊
  generalize isqrt ⌊s * 4 ^ 128⌋₊ = r at h1 h2
  have hfl : ((⌊s * 4 ^ 128⌋₊ : ℕ) : ℚ) ≤ s * 4 ^ 128 := Nat.floor_le hpos
  have hfl2 : s * 4 ^ 128 < ((⌊s * 4 ^ 128⌋₊ : ℕ) : ℚ) + 1 := Nat.lt_floor_add_one _
  have h1q : (r : ℚ) * r ≤ ((⌊s * 4 ^ 128⌋₊ : ℕ) : ℚ) := by exact_mod_cast h1
  have h2q : ((⌊s * 4 ^ 128⌋₊ : ℕ) : ℚ) + 1 ≤ ((r : ℚ) + 1) * ((r : ℚ) + 1) := by
    exact_mod_cast h2
  have e4 : (4 : ℚ) ^ 128 = 2 ^ 128 * 2 ^ 128 := by norm_num
  have hp : (0 : ℚ) < 2 ^ 128 := by positivity
  refine ⟨?_, ?_, ?_⟩
  · rw [div_mul_div_comm, div_le_iff₀ (mul_pos hp hp), ← e4]
    linarith
  · rw [div_mul_div_comm, lt_div_iff₀ (mul_pos hp hp), ← e4]
    linarith
  · rw [div_mul_div_comm, div_eq_iff (ne_of_gt (mul_pos hp hp)), ← e4]

theorem roundAbs_le_INF32 (a : ℚ) : roundAbs a ≤ INF32 := by
  have hinf : FLT_MAX < INF32 := by decide!
  unfold roundAbs
  split_ifs with h
  · exact le_refl _
  · exact le_trans (not_lt.mp h) (le_of_lt hinf)

theorem fl32_le_INF32 (q : ℚ) : fl32 q ≤ INF32 := by
  rcases lt_or_le q 0 with h | h
  · have hpos : (0 : ℚ) ≤ INF32 := by decide!
    exact le_trans (fl32_nonpos q (le_of_lt h)) hpos
  · unfold fl32
    rw [if_neg (not_lt.mpr h)]
    exact roundAbs_le_INF32 q

theorem neg_INF32_le_fl32 (q : ℚ) : -INF32 ≤ fl32 q := by
  have := fl32_le_INF32 (-q)
  rw [fl32_neg] at this
  linarith

/-- The quotient `-1.0f / s` is not positive for a positive `s`. -/
theorem fdiv_neg_one_nonpos (s : ℚ) (hs : 0 < s) : fdiv (-1) s ≤ 0 := by
  unfold fdiv
  split_ifs
  · exact le_refl 0
  · exact fl32_nonpos _ (le_of_lt (div_neg_of_neg_of_pos (by norm_num) hs))

/-- The quotient `-1.0f / s` is not negative for a negative `s`. -/
theorem fdiv_neg_one_nonneg (s : ℚ) (hs : s < 0) : 0 ≤ fdiv (-1) s := by
  unfold fdiv
  split_ifs
  · exact le_refl 0
  · exact fl32_nonneg _ (le_of_lt (div_pos_of_neg_of_neg (by norm_num) hs))

/-- The quotient `-1.0f / s` does not decrease when a positive `s` grows, the
infinity included. -/
theorem fdiv_neg_one_mono_pos (s t : ℚ) (hs : 0 < s) (hst : s ≤ t) (ht : t ≤ INF32) :
    fdiv (-1) s ≤ fdiv (-1) t := by
  have htpos : 0 < t := lt_of_lt_of_le hs hst
  by_cases hti : |t| = INF32
  · have : fdiv (-1) t = 0 := by
      unfold fdiv
      rw [if_pos hti]
    rw [this]
    exact fdiv_neg_one_nonpos s hs
  · have hsi : |s| ≠ INF32 := by
      intro hc
      rw [abs_of_pos hs] at hc
      rw [abs_of_pos htpos] at hti
      exact hti (le_antisymm ht (hc ▸ hst))
    unfold fdiv
    rw [if_neg hsi, if_neg hti]
    apply fl32_mono
    rw [neg_div, neg_div, neg_le_neg_iff]
    exact one_div_le_one_div_of_le hs hst

/-- The quotient `-1.0f / s` does not decrease when a negative `s` grows, the
infinity included. -/
theorem fdiv_neg_one_mono_neg (s t : ℚ) (ht : t < 0) (hst : s ≤ t) (hs : -INF32 ≤ s) :
    fdiv (-1) s ≤ fdiv (-1) t := by
  have hsneg : s < 0 := lt_of_le_of_lt hst ht
  by_cases hsi : |s| = INF32
  · have : fdiv (-1) s = 0 := by
      unfold fdiv
      rw [if_pos hsi]
    rw [this]
    exact fdiv_neg_one_nonneg t ht
  · have hti : |t| ≠ INF32 := by
      intro hc
      rw [abs_of_neg ht] at hc
      rw [abs_of_neg hsneg] at hsi
      apply hsi
      linarith
    unfold fdiv
    rw [if_neg hsi, if_neg hti]
    apply fl32_mono
    rw [neg_div, neg_div, neg_le_neg_iff]
    exact one_div_le_one_div_of_neg_of_le ht hst

/-! ## C3: the starting point -/

theorem startStep_inv (pointPos : List Point) (k : Nat) (st : StartState)
    (h : StartInv pointPos k st) : StartInv pointPos (k + 1) (startStep pointPos st k) := by
  obtain ⟨h1, h2, h3, h4, h5⟩ := h
  unfold startStep
  split_ifs with c1 c2 c3
  · -- the new point is strictly higher
    rw [h2] at c1
    refine ⟨by omega, h2, ?_, ?_, ?_⟩
    · intro i hi
      rcases Nat.lt_succ_iff_lt_or_eq.mp hi with hlt | rfl
      · exact h3 i hlt
      · exact le_of_lt c1
    · intro i hi hy
      rcases Nat.lt_succ_iff_lt_or_eq.mp hi with hlt | rfl
      · exact h4 i hlt hy
      · exact absurd hy (ne_of_gt c1)
    · intro i hi hx hy
      rcases Nat.lt_succ_iff_lt_or_eq.mp hi with hlt | rfl
      · exact h5 i hlt hx hy
      · exact absurd hy (ne_of_gt c1)
  · -- the new point is strictly lower
    rw [h2] at c2
    refine ⟨Nat.lt_succ_self k, rfl, ?_, ?_, ?_⟩
    · intro i hi
      rcases Nat.lt_succ_iff_lt_or_eq.mp hi with hlt | rfl
      · exact le_trans (le_of_lt c2) (h3 i hlt)
      · exact le_refl _
    · intro i hi hy
      rcases Nat.lt_succ_iff_lt_or_eq.mp hi with hlt | rfl
      · exact absurd (hy ▸ h3 i hlt) (not_le_of_lt c2)
      · exact le_refl _
    · intro i hi _ hy
      rcases Nat.lt_succ_iff_lt_or_eq.mp hi with hlt | rfl
      · exact absurd (hy ▸ h3 i hlt) (not_le_of_lt c2)
      · exact le_refl _
  · -- same height, strictly further right
    obtain ⟨c3y, c3x⟩ := c3
    rw [h2] at c3y
    refine ⟨Nat.lt_succ_self k, by rw [h2, c3y], ?_, ?_, ?_⟩
    · intro i hi
      rcases Nat.lt_succ_iff_lt_or_eq.mp hi with hlt | rfl
      · exact c3y ▸ h3 i hlt
      · exact le_refl _
    · intro i hi hy
      rcases Nat.lt_succ_iff_lt_or_eq.mp hi with hlt | rfl
      · exact le_trans (h4 i hlt (hy.trans c3y)) (le_of_lt c3x)
      · exact le_refl _
    · intro i hi hx hy
      rcases Nat.lt_succ_iff_lt_or_eq.mp hi with hlt | rfl
      · have := h4 i hlt (hy.trans c3y)
        rw [hx] at this
        exact absurd this (not_le_of_lt c3x)
      · exact le_refl _
  · -- same height, not further right
    rw [h2] at c1 c2
    have hy : Y pointPos k = Y pointPos st.start_index :=
      le_antisymm (not_lt.mp c1) (not_lt.mp c2)
    have hx : X pointPos k ≤ X pointPos st.start_index := by
      by_contra hc
      exact c3 ⟨by rw [h2]; exact hy, not_le.mp hc⟩
    refine ⟨by omega, h2, ?_, ?_, ?_⟩
    · intro i hi
      rcases Nat.lt_succ_iff_lt_or_eq.mp hi with hlt | rfl
      · exact h3 i hlt
      · exact le_of_eq hy.symm
    · intro i hi hyi
      rcases Nat.lt_succ_iff_lt_or_eq.mp hi with hlt | rfl
      · exact h4 i hlt hyi
      · exact hx
    · intro i hi hxi hyi
      rcases Nat.lt_succ_iff_lt_or_eq.mp hi with hlt | rfl
      · exact h5 i hlt hxi hyi
      · omega

theorem startFold_inv (pointPos : List Point) (k : Nat) :
    StartInv pointPos (k + 1)
      ((List.range' 1 k).foldl (startStep pointPos)
        { start_index := 0, lowest_y := Y pointPos 0 }) := by
  induction k with
  | zero =>
    refine ⟨Nat.zero_lt_one, rfl, ?_, ?_, ?_⟩
    · intro i hi
      have : i = 0 := by omega
      subst this
      exact le_refl _
    · intro i hi _
      have : i = 0 := by omega
      subst this
      exact le_refl _
    · intro i _ _ _
      exact Nat.zero_le i
  | succ k ih =>
    rw [List.range'_1_concat, List.foldl_append]
    simp only [List.foldl_cons, List.foldl_nil]
    have := startStep_inv pointPos (k + 1) _ ih
    rwa [Nat.add_comm 1 k]

/-- C3: for a non-empty point array the scan returns `s` below `N` whose point
has the lowest `y`, among the points of that `y` the highest `x`, and `s` is the
least index whose point has those coordinates; so `s = 0` when all points are
identical. -/
theorem findStartIndex_spec (pointPos : List Point) (hN : 0 < pointPos.length) :
    findStartIndex pointPos < pointPos.length ∧
    (∀ i, i < pointPos.length →
      Y pointPos (findStartIndex pointPos) ≤ Y pointPos i) ∧
    (∀ i, i < pointPos.length → Y pointPos i = Y pointPos (findStartIndex pointPos) →
      X pointPos i ≤ X pointPos (findStartIndex pointPos)) ∧
    (∀ i, i < pointPos.length → X pointPos i = X pointPos (findStartIndex pointPos) →
      Y pointPos i = Y pointPos (findStartIndex pointPos) → findStartIndex pointPos ≤ i) ∧
    ((∀ i, i < pointPos.length → pointPos.getD i (0, 0) = pointPos.getD 0 (0, 0)) →
      findStartIndex pointPos = 0) := by
  have h := startFold_inv pointPos (pointPos.length - 1)
  have hlen : pointPos.length - 1 + 1 = pointPos.length := by omega
  rw [hlen] at h
  obtain ⟨h1, _, h3, h4, h5⟩ := h
  refine ⟨h1, h3, h4, h5, ?_⟩
  intro hall
  have hs := hall _ h1
  have h0 := h5 0 hN (congrArg Prod.fst hs).symm (congrArg Prod.snd hs).symm
  exact Nat.le_zero.mp h0

theorem findStartIndex_spec_witness :
    0 < squareCorners.length ∧ findStartIndex squareCorners < squareCorners.length :=
  ⟨by decide, (findStartIndex_spec squareCorners (by decide)).1⟩

/-! ## The merge sort of `SortPointsByPolarAngle`: C4, C9 -/

theorem take_succ_drop_eq_cons (A : List Nat) (a n : Nat) (h : a < A.length) :
    (A.drop a).take (n + 1) = A.getD a 0 :: (A.drop (a + 1)).take n := by
  rw [List.drop_eq_getElem_cons h, List.take_succ_cons, List.getD_eq_getElem?_getD,
    List.getElem?_eq_getElem h]
  rfl

theorem take_drop_eq_nil_of_le (A : List Nat) (a n : Nat) (h : n = 0 ∨ A.length ≤ a) :
    (A.drop a).take n = [] := by
  rcases h with rfl | h
  · rfl
  · rw [List.drop_eq_nil_of_le h, List.take_nil]

theorem exists_split_at (T : List Nat) (k : Nat) (h : k < T.length) :
    ∃ T1 x T2, T = T1 ++ x :: T2 ∧ T1.length = k := by
  refine ⟨T.take k, T[k], T.drop (k + 1), ?_, ?_⟩
  · rw [← List.drop_eq_getElem_cons h, List.take_append_drop]
  · rw [List.length_take]
    omega

/-- Writing `v` at position `k` and then a block `L` from `k + 1` on is writing
the block `v :: L` from `k` on. -/
theorem write_cons (T L : List Nat) (k v : Nat) (h : k < T.length) :
    (T.set k v).take (k + 1) ++ L ++ (T.set k v).drop (k + 1 + L.length) =
      T.take k ++ (v :: L) ++ T.drop (k + (L.length + 1)) := by
  obtain ⟨T1, x, T2, rfl, rfl⟩ := exists_split_at T k h
  have e1 : (T1 ++ x :: T2).set T1.length v = T1 ++ v :: T2 := by
    rw [List.set_append_right _ _ (Nat.le_refl _)]
    simp
  have e2 : (T1 ++ v :: T2).take (T1.length + 1) = T1 ++ [v] := by
    rw [List.take_append]
    simp
  have e3 : (T1 ++ v :: T2).drop (T1.length + 1 + L.length) = T2.drop L.length := by
    rw [Nat.add_assoc, List.drop_append]
    simp [Nat.add_comm]
  have e4 : (T1 ++ x :: T2).take T1.length = T1 := by
    simp
  have e5 : (T1 ++ x :: T2).drop (T1.length + (L.length + 1)) = T2.drop L.length := by
    rw [List.drop_append]
    simp
  rw [e1, e2, e3, e4, e5]
  simp

theorem seg_cons (A : List Nat) (a b : Nat) (hb : a < b) (hA : a < A.length) :
    seg A a b = A.getD a 0 :: seg A (a + 1) b := by
  unfold seg
  have e : b - a = (b - (a + 1)) + 1 := by omega
  rw [e, take_succ_drop_eq_cons A a _ hA]

theorem seg_nil (A : List Nat) (a b : Nat) (h : ¬ (a < b ∧ a < A.length)) :
    seg A a b = [] := by
  unfold seg
  apply take_drop_eq_nil_of_le
  omega

/-- The loop of lines 397-399 writes the rest of the first half into `temp`
from position `index` on. -/
theorem dumpFirst_spec (A : List Nat) (N stride i : Nat) (hA : A.length = N) (s : MergeState)
    (hT : s.index + (seg A s.firstHalf (i + stride)).length ≤ s.temp.length) :
    (dumpFirst A N stride i s).temp =
        s.temp.take s.index ++ seg A s.firstHalf (i + stride)
          ++ s.temp.drop (s.index + (seg A s.firstHalf (i + stride)).length) ∧
    (dumpFirst A N stride i s).index = s.index + (seg A s.firstHalf (i + stride)).length ∧
    (dumpFirst A N stride i s).secondHalf = s.secondHalf := by
  induction s using dumpFirst.induct A N stride i with
  | case1 s hc ih =>
    have hseg := seg_cons A s.firstHalf (i + stride) hc.1 (by omega)
    rw [hseg] at hT ⊢
    simp only [List.length_cons] at hT ⊢
    rw [dumpFirst, if_pos hc]
    have ih0 := ih (by
      dsimp only
      rw [List.length_set]
      omega)
    dsimp only at ih0
    obtain ⟨ih1, ih2, ih3⟩ := ih0
    refine ⟨?_, ?_, ?_⟩
    · rw [ih1]
      exact write_cons s.temp _ s.index _ (by omega)
    · rw [ih2]
      omega
    · rw [ih3]
  | case2 s hc =>
    rw [dumpFirst, if_neg hc, seg_nil A _ _ (by omega)]
    simp

/-- The loop of lines 401-403 writes the rest of the second half into `temp`
from position `index` on. -/
theorem dumpSecond_spec (A : List Nat) (N stride i : Nat) (hA : A.length = N) (s : MergeState)
    (hT : s.index + (seg A s.secondHalf (i + 2 * stride)).length ≤ s.temp.length) :
    (dumpSecond A N stride i s).temp =
        s.temp.take s.index ++ seg A s.secondHalf (i + 2 * stride)
          ++ s.temp.drop (s.index + (seg A s.secondHalf (i + 2 * stride)).length) := by
  induction s using dumpSecond.induct A N stride i with
  | case1 s hc ih =>
    have hseg := seg_cons A s.secondHalf (i + 2 * stride) hc.1 (by omega)
    rw [hseg] at hT ⊢
    simp only [List.length_cons] at hT ⊢
    rw [dumpSecond, if_pos hc]
    have ih0 := ih (by
      dsimp only
      rw [List.length_set]
      omega)
    dsimp only at ih0
    rw [ih0]
    exact write_cons s.temp _ s.index _ (by omega)
  | case2 s hc =>
    rw [dumpSecond, if_neg hc, seg_nil A _ _ (by omega)]
    simp

/-- The three loops of lines 386-403 write into `temp`, from position `index`
on, the merge of what is left of the two halves. -/
theorem mergePhase_spec (lt : Nat → Nat → Bool) (A : List Nat) (N stride i : Nat)
    (hA : A.length = N) (s : MergeState)
    (hT : s.index + (seg A s.firstHalf (i + stride)).length
        + (seg A s.secondHalf (i + 2 * stride)).length ≤ s.temp.length) :
    (dumpSecond A N stride i (dumpFirst A N stride i (mergeBoth lt A N stride i s))).temp =
      s.temp.take s.index
        ++ List.merge (seg A s.firstHalf (i + stride)) (seg A s.secondHalf (i + 2 * stride)) lt
        ++ s.temp.drop (s.index + (seg A s.firstHalf (i + stride)).length
            + (seg A s.secondHalf (i + 2 * stride)).length) := by
  induction s using mergeBoth.induct lt A N stride i with
  | case1 s hc hlt ih =>
    have hseg1 := seg_cons A s.firstHalf (i + stride) hc.1 (by omega)
    have hseg2 := seg_cons A s.secondHalf (i + 2 * stride) hc.2.2.1 (by omega)
    rw [mergeBoth, if_pos hc, if_pos hlt]
    rw [hseg1] at hT
    simp only [List.length_cons] at hT
    have ih0 := ih (by
      dsimp only
      rw [List.length_set]
      omega)
    dsimp only at ih0
    rw [ih0]
    have hm : List.merge (seg A s.firstHalf (i + stride)) (seg A s.secondHalf (i + 2 * stride)) lt
        = A.getD s.firstHalf 0
          :: List.merge (seg A (s.firstHalf + 1) (i + stride))
              (seg A s.secondHalf (i + 2 * stride)) lt := by
      rw [hseg1, hseg2, List.cons_merge_cons_pos lt _ _ hlt]
    rw [hm, hseg1]
    have hw := write_cons s.temp
      (List.merge (seg A (s.firstHalf + 1) (i + stride))
        (seg A s.secondHalf (i + 2 * stride)) lt) s.index (A.getD s.firstHalf 0) (by omega)
    simp only [List.length_merge, List.length_cons] at hw ⊢
    rw [show s.index + 1 + (seg A (s.firstHalf + 1) (i + stride)).length
          + (seg A s.secondHalf (i + 2 * stride)).length
        = s.index + 1 + ((seg A (s.firstHalf + 1) (i + stride)).length
          + (seg A s.secondHalf (i + 2 * stride)).length) by omega, hw]
    congr 2
    omega
  | case2 s hc hlt ih =>
    have hseg1 := seg_cons A s.firstHalf (i + stride) hc.1 (by omega)
    have hseg2 := seg_cons A s.secondHalf (i + 2 * stride) hc.2.2.1 (by omega)
    rw [mergeBoth, if_pos hc, if_neg hlt]
    rw [hseg2] at hT
    simp only [List.length_cons] at hT
    have ih0 := ih (by
      dsimp only
      rw [List.length_set]
      omega)
    dsimp only at ih0
    rw [ih0]
    have hm : List.merge (seg A s.firstHalf (i + stride)) (seg A s.secondHalf (i + 2 * stride)) lt
        = A.getD s.secondHalf 0
          :: List.merge (seg A s.firstHalf (i + stride))
              (seg A (s.secondHalf + 1) (i + 2 * stride)) lt := by
      rw [hseg1, hseg2, List.cons_merge_cons_neg lt _ _ hlt]
    rw [hm, hseg2]
    have hw := write_cons s.temp
      (List.merge (seg A s.firstHalf (i + stride))
        (seg A (s.secondHalf + 1) (i + 2 * stride)) lt) s.index (A.getD s.secondHalf 0) (by omega)
    simp only [List.length_merge, List.length_cons] at hw ⊢
    rw [show s.index + 1 + (seg A s.firstHalf (i + stride)).length
          + (seg A (s.secondHalf + 1) (i + 2 * stride)).length
        = s.index + 1 + ((seg A s.firstHalf (i + stride)).length
          + (seg A (s.secondHalf + 1) (i + 2 * stride)).length) by omega, hw]
    congr 2
    omega
  | case3 s hc =>
    rw [mergeBoth, if_neg hc]
    obtain ⟨d1, d2, d3⟩ := dumpFirst_spec A N stride i hA s (by omega)
    have e := dumpSecond_spec A N stride i hA (dumpFirst A N stride i s) (by
      rw [d1, d2, d3]
      simp only [List.length_append, List.length_take, List.length_drop]
      omega)
    rw [e, d1, d2, d3]
    by_cases h1 : s.firstHalf < i + stride ∧ s.firstHalf < A.length
    · have h2 : seg A s.secondHalf (i + 2 * stride) = [] := by
        apply seg_nil
        omega
      rw [h2]
      simp
    · have h2 : seg A s.firstHalf (i + stride) = [] := seg_nil A _ _ h1
      rw [h2]
      simp

theorem seg_length (A : List Nat) (a b : Nat) :
    (seg A a b).length = min (b - a) (A.length - a) := by
  unfold seg
  rw [List.length_take, List.length_drop]

/-- The loop of lines 406-408 copies the cells of `temp` from `j` up to the end
of the block back into the index array. -/
theorem copyBack_spec (temp : List Nat) (N stride i : Nat) (hT : temp.length = N)
    (j : Nat) (A : List Nat) (hA : A.length = N) :
    copyBack temp N stride i j A =
      A.take j ++ seg temp j (i + 2 * stride)
        ++ A.drop (j + (seg temp j (i + 2 * stride)).length) := by
  induction j, A using copyBack.induct temp N stride i with
  | case1 j A hc ih =>
    rw [copyBack, if_pos hc, ih (by rw [List.length_set]; exact hA),
      seg_cons temp j (i + 2 * stride) hc.1 (by omega)]
    exact write_cons A _ j _ (by omega)
  | case2 j A hc =>
    rw [copyBack, if_neg hc, seg_nil temp _ _ (by omega)]
    simp

theorem seg_of_append (P M Q : List Nat) (i b : Nat) (hP : P.length = i)
    (h : M.length = b - i ∨ (M.length ≤ b - i ∧ Q = [])) :
    seg (P ++ M ++ Q) i b = M := by
  unfold seg
  subst hP
  rw [List.append_assoc, List.drop_left]
  rcases h with h | ⟨h, rfl⟩
  · rw [← h, List.take_left]
  · rw [List.append_nil, List.take_of_length_le h]

/-- One block (lines 382-408): the cells `i .. i + 2 * stride` of the index array
are replaced by the merge of the two halves; the scratch buffer keeps its
length. -/
theorem mergeBlock_spec (lt : Nat → Nat → Bool) (N stride i : Nat) (A temp : List Nat)
    (hA : A.length = N) (hT : temp.length = N) (hi : i < N) :
    (mergeBlock lt N stride i A temp).1 =
      A.take i ++ List.merge (seg A i (i + stride)) (seg A (i + stride) (i + 2 * stride)) lt
        ++ A.drop (i + 2 * stride) ∧
    (mergeBlock lt N stride i A temp).2.length = N := by
  have hlen : (seg A i (i + stride)).length + (seg A (i + stride) (i + 2 * stride)).length
      = min (2 * stride) (N - i) := by
    rw [seg_length, seg_length, hA]
    omega
  have hphase := mergePhase_spec lt A N stride i hA
    { index := i, firstHalf := i, secondHalf := i + stride, temp := temp } (by
      dsimp only
      omega)
  dsimp only at hphase
  have htemp3 : (mergeBlock lt N stride i A temp).2.length = N := by
    unfold mergeBlock
    dsimp only
    rw [hphase]
    simp only [List.length_append, List.length_take, List.length_drop, List.length_merge]
    omega
  refine ⟨?_, htemp3⟩
  unfold mergeBlock at htemp3 ⊢
  dsimp only at htemp3 ⊢
  rw [copyBack_spec _ N stride i htemp3 i A hA, hphase]
  have hseg : seg (temp.take i
        ++ List.merge (seg A i (i + stride)) (seg A (i + stride) (i + 2 * stride)) lt
        ++ temp.drop (i + (seg A i (i + stride)).length
            + (seg A (i + stride) (i + 2 * stride)).length)) i (i + 2 * stride)
      = List.merge (seg A i (i + stride)) (seg A (i + stride) (i + 2 * stride)) lt := by
    apply seg_of_append
    · rw [List.length_take]
      omega
    · rw [List.length_merge]
      rcases Nat.le_total (2 * stride) (N - i) with h | h
      · left
        omega
      · right
        refine ⟨by omega, ?_⟩
        apply List.drop_eq_nil_of_le
        omega
  rw [hseg, List.length_merge]
  congr 1
  rcases Nat.le_total (2 * stride) (N - i) with h | h
  · congr 1
    omega
  · rw [List.drop_eq_nil_of_le (by omega), List.drop_eq_nil_of_le (by omega)]

theorem passL_nil (lt : Nat → Nat → Bool) (stride : Nat) : passL lt stride [] = [] := by
  rw [passL, if_pos (Or.inl rfl)]

theorem passL_length (lt : Nat → Nat → Bool) (stride : Nat) (R : List Nat) :
    (passL lt stride R).length = R.length := by
  induction R using passL.induct lt stride with
  | case1 R h => rw [passL, if_pos h]
  | case2 R h ih =>
    rw [passL, if_neg h, List.length_append, List.length_merge, ih]
    simp only [List.length_take, List.length_drop]
    omega

theorem take_drop_of_append (P Q : List Nat) (n : Nat)
    (h : P.length = n ∨ (P.length ≤ n ∧ Q = [])) :
    (P ++ Q).take n = P ∧ (P ++ Q).drop n = Q := by
  rcases h with rfl | ⟨h, rfl⟩
  · exact ⟨List.take_left _ _, List.drop_left _ _⟩
  · rw [List.append_nil]
    exact ⟨List.take_of_length_le h, List.drop_eq_nil_of_le h⟩

/-- The `for` loop of line 381 from the block start `i` on: the cells below `i`
stay, the cells from `i` on undergo one pass. -/
theorem sortPass_spec (lt : Nat → Nat → Bool) (N stride : Nat) (hs : 0 < stride)
    (i : Nat) (A temp : List Nat) (hA : A.length = N) (hT : temp.length = N) :
    (sortPass lt N stride hs i A temp).1 = A.take i ++ passL lt stride (A.drop i) ∧
    (sortPass lt N stride hs i A temp).2.length = N := by
  induction i, A, temp using sortPass.induct lt N stride hs with
  | case1 i A temp hi ih =>
    obtain ⟨hb1, hb2⟩ := mergeBlock_spec lt N stride i A temp hA hT hi
    have hlen : (seg A i (i + stride)).length + (seg A (i + stride) (i + 2 * stride)).length
        = min (2 * stride) (N - i) := by
      rw [seg_length, seg_length, hA]
      omega
    have hs1 : seg A i (i + stride) = (A.drop i).take stride := by
      unfold seg
      rw [Nat.add_sub_cancel_left]
    have hs2 : seg A (i + stride) (i + 2 * stride) = ((A.drop i).drop stride).take stride := by
      unfold seg
      rw [List.drop_drop, show i + 2 * stride - (i + stride) = stride by omega]
    have hd3 : (A.drop i).drop (2 * stride) = A.drop (i + 2 * stride) := List.drop_drop _ _ _
    have hne : ¬ (A.drop i = [] ∨ stride = 0) := by
      intro hc
      rcases hc with hc | hc
      · have := congrArg List.length hc
        rw [List.length_drop] at this
        simp only [List.length_nil] at this
        omega
      · omega
    rw [passL.eq_1 lt stride (A.drop i), if_neg hne, hd3, ← hs1, ← hs2]
    have hMlen : (List.merge (seg A i (i + stride))
        (seg A (i + stride) (i + 2 * stride)) lt).length = min (2 * stride) (N - i) := by
      rw [List.length_merge]
      exact hlen
    generalize List.merge (seg A i (i + stride)) (seg A (i + stride) (i + 2 * stride)) lt = M
      at hb1 hMlen ⊢
    have hA1 : (mergeBlock lt N stride i A temp).1.length = N := by
      rw [hb1]
      simp only [List.length_append, List.length_take, List.length_drop]
      omega
    obtain ⟨ih1, ih2⟩ := ih hA1 hb2
    rw [sortPass, if_pos hi]
    refine ⟨?_, ih2⟩
    rw [ih1, hb1]
    have hPM : (A.take i ++ M).length = i + min (2 * stride) (N - i) := by
      rw [List.length_append, List.length_take]
      omega
    obtain ⟨e1, e2⟩ := take_drop_of_append (A.take i ++ M) (A.drop (i + 2 * stride))
      (i + 2 * stride) (by
        rcases Nat.le_total (2 * stride) (N - i) with h | h
        · left
          omega
        · right
          exact ⟨by omega, List.drop_eq_nil_of_le (by omega)⟩)
    rw [e1, e2, List.append_assoc]
  | case2 i A temp hi =>
    rw [sortPass, if_neg hi]
    refine ⟨?_, hT⟩
    rw [List.drop_eq_nil_of_le (by omega), passL_nil, List.append_nil,
      List.take_of_length_le (by omega)]

/-- The `while` loop of lines 380-411: cell 0 stays, the cells from 1 on undergo
the passes. -/
theorem sortLoop_spec (lt : Nat → Nat → Bool) (N stride : Nat) (hs : 0 < stride)
    (A temp : List Nat) (hA : A.length = N) (hT : temp.length = N) :
    sortLoop lt N stride hs A temp = A.take 1 ++ loopL lt N stride hs (A.drop 1) := by
  induction stride, hs, A, temp using sortLoop.induct lt N with
  | case1 stride hs A temp hlt ih =>
    obtain ⟨hp1, hp2⟩ := sortPass_spec lt N stride hs 1 A temp hA hT
    have hA1 : (sortPass lt N stride hs 1 A temp).1.length = N := by
      rw [hp1, List.length_append, passL_length, List.length_take, List.length_drop]
      omega
    rw [sortLoop, if_pos hlt, ih hA1 hp2, loopL.eq_1 lt N stride hs, if_pos hlt, hp1]
    have h1 : (A.take 1).length = 1 := by
      rw [List.length_take]
      omega
    obtain ⟨e1, e2⟩ := take_drop_of_append (A.take 1) (passL lt stride (A.drop 1)) 1
      (Or.inl h1)
    rw [e1, e2]
  | case2 stride hs A temp hlt =>
    rw [sortLoop, if_neg hlt, loopL.eq_1 lt N stride hs, if_neg hlt, List.take_append_drop]

/-- The function `SortPointsByPolarAngle` keeps cell 0 and applies the passes of
the merge sort, with the comparator `cmp` relative to cell 0, to the cells from
1 on. -/
theorem SortPointsByPolarAngle_eq (pointPos : List Point) (A : List Nat) (N : Nat)
    (hA : A.length = N) :
    SortPointsByPolarAngle pointPos A N =
      A.take 1 ++ loopL (cmp pointPos (A.getD 0 0)) N 1 (by decide) (A.drop 1) := by
  unfold SortPointsByPolarAngle
  exact sortLoop_spec _ N 1 _ A _ hA (List.length_replicate _ _)

theorem passL_perm (lt : Nat → Nat → Bool) (stride : Nat) (R : List Nat) :
    (passL lt stride R).Perm R := by
  induction R using passL.induct lt stride with
  | case1 R h =>
    rw [passL, if_pos h]
  | case2 R h ih =>
    rw [passL, if_neg h]
    have h1 : (List.merge (R.take stride) ((R.drop stride).take stride) lt).Perm
        (R.take (2 * stride)) := by
      rw [show 2 * stride = stride + stride by omega, List.take_add]
      exact List.merge_perm_append lt
    have h2 := List.Perm.append h1 ih
    rwa [List.take_append_drop] at h2

theorem loopL_perm (lt : Nat → Nat → Bool) (N stride : Nat) (hs : 0 < stride) (R : List Nat) :
    (loopL lt N stride hs R).Perm R := by
  induction stride, hs, R using loopL.induct lt N with
  | case1 stride hs R hlt ih =>
    rw [loopL, if_pos hlt]
    exact ih.trans (passL_perm lt stride R)
  | case2 stride hs R hlt =>
    rw [loopL, if_neg hlt]

/-- The merge of lines 386-403, with a comparator that is `<` on a key, keeps
two non-decreasing lists non-decreasing. -/
theorem merge_pairwise (key : Nat → ℚ) (lt : Nat → Nat → Bool)
    (hlt : ∀ a b, lt a b = true ↔ key a < key b) (xs ys : List Nat)
    (hx : xs.Pairwise (fun a b => key a ≤ key b))
    (hy : ys.Pairwise (fun a b => key a ≤ key b)) :
    (List.merge xs ys lt).Pairwise (fun a b => key a ≤ key b) := by
  induction xs generalizing ys with
  | nil => simpa using hy
  | cons x xs ihx =>
    induction ys with
    | nil => simpa using hx
    | cons y ys ihy =>
      rw [List.cons_merge_cons]
      rw [List.pairwise_cons] at hx hy
      split_ifs with c
      · rw [List.pairwise_cons]
        refine ⟨?_, ihx (y :: ys) hx.2 (List.pairwise_cons.mpr hy)⟩
        intro z hz
        rcases List.mem_merge.mp hz with hz | hz
        · exact hx.1 z hz
        · have hxy : key x < key y := (hlt x y).mp c
          rcases List.mem_cons.mp hz with rfl | hz
          · exact le_of_lt hxy
          · exact le_trans (le_of_lt hxy) (hy.1 z hz)
      · rw [List.pairwise_cons]
        refine ⟨?_, ihy hy.2⟩
        intro z hz
        have hyx : key y ≤ key x := not_lt.mp (fun h => c ((hlt x y).mpr h))
        rcases List.mem_merge.mp hz with hz | hz
        · rcases List.mem_cons.mp hz with rfl | hz
          · exact hyx
          · exact le_trans hyx (hx.1 z hz)
        · exact hy.1 z hz

theorem blocksSorted_one (key : Nat → ℚ) (R : List Nat) : BlocksSorted key 1 R := by
  intro k
  match h : R.drop (k * 1) with
  | [] => simp
  | a :: t => simp

theorem passL_blocksSorted (key : Nat → ℚ) (lt : Nat → Nat → Bool)
    (hlt : ∀ a b, lt a b = true ↔ key a < key b) (stride : Nat) (hs : 0 < stride)
    (R : List Nat) (h : BlocksSorted key stride R) :
    BlocksSorted key (2 * stride) (passL lt stride R) := by
  induction R using passL.induct lt stride with
  | case1 R hc =>
    rcases hc with rfl | hc
    · intro k
      rw [passL_nil]
      simp
    · omega
  | case2 R hc ih =>
    rw [passL, if_neg hc]
    have hM : (List.merge (R.take stride) ((R.drop stride).take stride) lt).Pairwise
        (fun a b => key a ≤ key b) := by
      apply merge_pairwise key lt hlt
      · have := h 0
        rwa [Nat.zero_mul, List.drop_zero] at this
      · have := h 1
        rwa [Nat.one_mul] at this
    have hMlen : (List.merge (R.take stride) ((R.drop stride).take stride) lt).length
        = min (2 * stride) R.length := by
      rw [List.length_merge, List.length_take, List.length_take, List.length_drop]
      omega
    have hrest : BlocksSorted key stride (R.drop (2 * stride)) := by
      intro k
      have := h (k + 2)
      rwa [List.drop_drop, show 2 * stride + k * stride = (k + 2) * stride by ring]
    have ih0 := ih hrest
    generalize List.merge (R.take stride) ((R.drop stride).take stride) lt = M at hM hMlen ⊢
    intro k
    rcases Nat.le_total (2 * stride) R.length with hle | hle
    · have hlen2 : M.length = 2 * stride := by omega
      cases k with
      | zero =>
        rw [Nat.zero_mul, List.drop_zero, ← hlen2, List.take_left]
        exact hM
      | succ k =>
        rw [show (k + 1) * (2 * stride) = M.length + k * (2 * stride) by rw [hlen2]; ring,
          List.drop_append]
        exact ih0 k
    · have hnil : R.drop (2 * stride) = [] := List.drop_eq_nil_of_le hle
      rw [hnil, passL_nil, List.append_nil]
      exact List.Pairwise.sublist
        ((List.take_sublist _ _).trans (List.drop_sublist _ _)) hM

theorem loopL_pairwise (key : Nat → ℚ) (lt : Nat → Nat → Bool)
    (hlt : ∀ a b, lt a b = true ↔ key a < key b) (N stride : Nat) (hs : 0 < stride)
    (R : List Nat) (hR : R.length < N) (h : BlocksSorted key stride R) :
    (loopL lt N stride hs R).Pairwise (fun a b => key a ≤ key b) := by
  induction stride, hs, R using loopL.induct lt N with
  | case1 stride hs R hc ih =>
    rw [loopL, if_pos hc]
    apply ih
    · rw [passL_length]
      exact hR
    · rw [Nat.mul_comm]
      exact passL_blocksSorted key lt hlt stride hs R h
  | case2 stride hs R hc =>
    rw [loopL, if_neg hc]
    have := h 0
    rwa [Nat.zero_mul, List.drop_zero, List.take_of_length_le (by omega)] at this

theorem cmp_iff (pointPos : List Point) (basePoint a b : Nat) :
    cmp pointPos basePoint a b = true ↔
      negRecipSlope pointPos basePoint a < negRecipSlope pointPos basePoint b := by
  unfold cmp
  exact decide_eq_true_iff

theorem getD_take_one_append (A S : List Nat) (hA : 1 ≤ A.length) :
    (A.take 1 ++ S).getD 0 0 = A.getD 0 0 ∧
    ∀ k, (A.take 1 ++ S).getD (k + 1) 0 = S.getD k 0 := by
  match A, hA with
  | a :: t, _ =>
    refine ⟨rfl, ?_⟩
    intro k
    rfl

theorem getD_eq_getElem_of_lt (l : List Nat) (i : Nat) (h : i < l.length) :
    l.getD i 0 = l[i] := by
  rw [List.getD_eq_getElem?_getD, List.getElem?_eq_getElem h]
  rfl

/-- C4 as stated fails on the code: for the points `(0,0)`, `(2 + 2^-22, 6 + 2^-21)`,
`(1, 3)` and the identity index array the sort returns `[0, 2, 1]`, and the
exact key `-1 / (dy / dx)` of cell 2 (index 1) is strictly smaller than the
exact key of cell 1 (index 2).  The binary32 keys that the source computes for
the two are the same value, and the merge takes from the second half on a
tie. -/
theorem sort_breaks_exact_key_order :
    ([0, 1, 2] : List Nat).length = 3 ∧
    SortPointsByPolarAngle roundedKeyPoints [0, 1, 2] 3 = [0, 2, 1] ∧
    exactKey roundedKeyPoints 0 1 = -(2 + 1 / 2 ^ 22) / (6 + 1 / 2 ^ 21) ∧
    exactKey roundedKeyPoints 0 2 = -1 / 3 ∧
    exactKey roundedKeyPoints ((SortPointsByPolarAngle roundedKeyPoints [0, 1, 2] 3).getD 0 0)
        ((SortPointsByPolarAngle roundedKeyPoints [0, 1, 2] 3).getD 2 0)
      < exactKey roundedKeyPoints ((SortPointsByPolarAngle roundedKeyPoints [0, 1, 2] 3).getD 0 0)
        ((SortPointsByPolarAngle roundedKeyPoints [0, 1, 2] 3).getD 1 0) := by
  decide!

/-- C4, amended: for an index array of length `N`, after `SortPointsByPolarAngle`
the cells `1 .. N-1` are in non-decreasing order of the key `negRecipSlope`,
the binary32 value that the source computes relative to the point of cell 0:
for `1 ≤ i < j < N` the comparator `cmp` of the source does not put cell `j`
strictly before cell `i`. -/
theorem SortPointsByPolarAngle_sorted (pointPos : List Point) (hullVertIndices : List Nat)
    (N : Nat) (hA : hullVertIndices.length = N) (i j : Nat) (hi : 1 ≤ i) (hij : i < j)
    (hj : j < N) :
    cmp pointPos ((SortPointsByPolarAngle pointPos hullVertIndices N).getD 0 0)
      ((SortPointsByPolarAngle pointPos hullVertIndices N).getD j 0)
      ((SortPointsByPolarAngle pointPos hullVertIndices N).getD i 0) = false := by
  rw [SortPointsByPolarAngle_eq pointPos hullVertIndices N hA]
  have hsorted := loopL_pairwise (negRecipSlope pointPos (hullVertIndices.getD 0 0))
    (cmp pointPos (hullVertIndices.getD 0 0)) (cmp_iff pointPos _) N 1 (by decide)
    (hullVertIndices.drop 1) (by rw [List.length_drop]; omega) (blocksSorted_one _ _)
  have hlen : (loopL (cmp pointPos (hullVertIndices.getD 0 0)) N 1 (by decide)
      (hullVertIndices.drop 1)).length = N - 1 := by
    rw [(loopL_perm _ N 1 _ _).length_eq, List.length_drop, hA]
  obtain ⟨g0, gk⟩ := getD_take_one_append hullVertIndices
    (loopL (cmp pointPos (hullVertIndices.getD 0 0)) N 1 (by decide) (hullVertIndices.drop 1))
    (by omega)
  obtain ⟨i, rfl⟩ : ∃ i', i = i' + 1 := ⟨i - 1, by omega⟩
  obtain ⟨j, rfl⟩ : ∃ j', j = j' + 1 := ⟨j - 1, by omega⟩
  rw [g0, gk, gk]
  generalize loopL (cmp pointPos (hullVertIndices.getD 0 0)) N 1 (by decide)
    (hullVertIndices.drop 1) = S at hsorted hlen
  have hle := List.pairwise_iff_getElem.mp hsorted i j (by omega) (by omega) (by omega)
  rw [getD_eq_getElem_of_lt S i (by omega), getD_eq_getElem_of_lt S j (by omega)]
  unfold cmp
  exact decide_eq_false (not_lt.mpr hle)

theorem SortPointsByPolarAngle_sorted_witness :
    [1, 0, 2, 3, 4].length = 5 ∧ 1 ≤ 1 ∧ 1 < 3 ∧ 3 < 5 ∧
    cmp [(0, 0), (4, 0), (4, 4), (0, 4), (2, 2)]
      ((SortPointsByPolarAngle [(0, 0), (4, 0), (4, 4), (0, 4), (2, 2)] [1, 0, 2, 3, 4] 5).getD 0 0)
      ((SortPointsByPolarAngle [(0, 0), (4, 0), (4, 4), (0, 4), (2, 2)] [1, 0, 2, 3, 4] 5).getD 3 0)
      ((SortPointsByPolarAngle [(0, 0), (4, 0), (4, 4), (0, 4), (2, 2)] [1, 0, 2, 3, 4] 5).getD 1 0)
        = false :=
  ⟨by decide, by decide, by decide, by decide,
    SortPointsByPolarAngle_sorted [(0, 0), (4, 0), (4, 4), (0, 4), (2, 2)] [1, 0, 2, 3, 4] 5
      (by decide) 1 3 (by decide) (by decide) (by decide)⟩

theorem swap_head_perm (a : Nat) (t : List Nat) (j : Nat) (hj : j < t.length) :
    (t.getD j 0 :: t.set j a).Perm (a :: t) := by
  obtain ⟨t1, x, t2, rfl, rfl⟩ := exists_split_at t j hj
  have e1 : (t1 ++ x :: t2).set t1.length a = t1 ++ a :: t2 := by
    rw [List.set_append_right _ _ (Nat.le_refl _)]
    simp
  have e2 : (t1 ++ x :: t2).getD t1.length 0 = x := by
    rw [List.getD_eq_getElem?_getD, List.getElem?_append_right (Nat.le_refl _)]
    simp
  rw [e1, e2]
  calc (x :: (t1 ++ a :: t2)).Perm (x :: a :: (t1 ++ t2)) :=
        List.Perm.cons x List.perm_middle
    _ |>.Perm (a :: x :: (t1 ++ t2)) := List.Perm.swap a x _
    _ |>.Perm (a :: (t1 ++ x :: t2)) := List.Perm.cons a List.perm_middle.symm

theorem placePivot_range (N s : Nat) (hs : s < N) :
    (placePivot (initIndices N) s).Perm (List.range N) ∧
    (placePivot (initIndices N) s).getD 0 0 = s := by
  unfold placePivot initIndices
  obtain ⟨n, rfl⟩ : ∃ n, N = n + 1 := ⟨N - 1, by omega⟩
  rw [List.range_eq_range', List.range'_succ]
  cases s with
  | zero =>
    simp only [List.set_cons_zero]
    exact ⟨List.Perm.refl _, rfl⟩
  | succ j =>
    simp only [List.set_cons_zero, List.set_cons_succ]
    refine ⟨?_, rfl⟩
    have hj : j < (List.range' (0 + 1) n).length := by
      rw [List.length_range']
      omega
    have hget : (List.range' (0 + 1) n).getD j 0 = j + 1 := by
      rw [List.getD_eq_getElem?_getD, List.getElem?_eq_getElem hj, List.getElem_range']
      simp only [Option.getD_some]
      omega
    have := swap_head_perm 0 (List.range' (0 + 1) n) j hj
    rwa [hget] at this

/-- C9: for a start index below `N` (so `N ≥ 1`; the scan of step 1 returns
such an index), the identity index array after the pivot placement is a
permutation of `0..N-1` with `start_index` in cell 0, and so it is after
`SortPointsByPolarAngle`, which leaves cell 0 as it is and only permutes the
cells `1 .. N-1`. -/
theorem pivot_sort_perm (pointPos : List Point) (N start_index : Nat)
    (hs : start_index < N) :
    (placePivot (initIndices N) start_index).Perm (List.range N) ∧
    (placePivot (initIndices N) start_index).getD 0 0 = start_index ∧
    (SortPointsByPolarAngle pointPos (placePivot (initIndices N) start_index) N).Perm
      (List.range N) ∧
    (SortPointsByPolarAngle pointPos (placePivot (initIndices N) start_index) N).getD 0 0
      = start_index ∧
    (SortPointsByPolarAngle pointPos (placePivot (initIndices N) start_index) N).take 1
      = (placePivot (initIndices N) start_index).take 1 ∧
    ((SortPointsByPolarAngle pointPos (placePivot (initIndices N) start_index) N).drop 1).Perm
      ((placePivot (initIndices N) start_index).drop 1) := by
  obtain ⟨hperm, h0⟩ := placePivot_range N start_index hs
  have hlen : (placePivot (initIndices N) start_index).length = N := by
    rw [hperm.length_eq, List.length_range]
  rw [SortPointsByPolarAngle_eq pointPos _ N hlen]
  generalize placePivot (initIndices N) start_index = P at hperm h0 hlen
  have hl := loopL_perm (cmp pointPos (P.getD 0 0)) N 1 (by decide) (P.drop 1)
  have h1 : (P.take 1).length = 1 := by
    rw [List.length_take]
    omega
  obtain ⟨e1, e2⟩ := take_drop_of_append (P.take 1)
    (loopL (cmp pointPos (P.getD 0 0)) N 1 (by decide) (P.drop 1)) 1 (Or.inl h1)
  refine ⟨hperm, h0, ?_, ?_, e1, ?_⟩
  · have := List.Perm.append (List.Perm.refl (P.take 1)) hl
    rw [List.take_append_drop] at this
    exact this.trans hperm
  · rw [(getD_take_one_append P _ (by omega)).1]
    exact h0
  · rw [e2]
    exact hl

theorem pivot_sort_perm_witness :
    1 < 5 ∧
    (SortPointsByPolarAngle [(0, 0), (4, 0), (4, 4), (0, 4), (2, 2)]
      (placePivot (initIndices 5) 1) 5).Perm (List.range 5) :=
  ⟨by decide,
    (pivot_sort_perm [(0, 0), (4, 0), (4, 4), (0, 4), (2, 2)] 5 1 (by decide)).2.2.1⟩

/-! ## The comparator against the counter-clockwise order -/

/-- C5, evaluated at the pivot `B = (4,0)` with `a = (0,0)` and `b = (4,4)`:
the scan selects `B`, `cmp` orders `a` strictly before `b`
(`-FLT_MAX < -1 / FLT_MAX`), and yet the cross product of `a - B` and `b - B`
is `-16`, so `a` comes after `b` in the counter-clockwise sweep around `B`. -/
theorem cmp_horizontal_before_vertical :
    findStartIndex [(4, 0), (0, 0), (4, 4)] = 0 ∧
    cmp [(4, 0), (0, 0), (4, 4)] 0 1 2 = true ∧
    (X [(4, 0), (0, 0), (4, 4)] 1 - X [(4, 0), (0, 0), (4, 4)] 0)
        * (Y [(4, 0), (0, 0), (4, 4)] 2 - Y [(4, 0), (0, 0), (4, 4)] 0)
      - (X [(4, 0), (0, 0), (4, 4)] 2 - X [(4, 0), (0, 0), (4, 4)] 0)
        * (Y [(4, 0), (0, 0), (4, 4)] 1 - Y [(4, 0), (0, 0), (4, 4)] 0) = -16 := by
  decide!

/-! ## The whole pipeline against containment and orientation: C1, C2 -/

/-- C1, evaluated at the five points `(0,0),(4,0),(4,4),(0,4),(2,2)` (not all
collinear: the first three make a proper turn).  The scan selects `(4,0)`
(index 1), the sort puts `(0,0)` first because its slope is `0`, the hull scan
replaces it by `(4,4)`, and the pipeline returns the triangle
`(4,0),(4,4),(0,4)`.  The point `x = (0,0)` is strictly to the right of the
closing edge from `(0,4)` to `(4,0)`: the cross product is `-16`.  So the
returned polygon does not contain the point set. -/
theorem grahamHull_misses_corner :
    3 ≤ squareWithCentre.length ∧ turn squareWithCentre 0 1 2 ≠ 0 ∧
    findStartIndex squareWithCentre = 1 ∧
    SortPointsByPolarAngle squareWithCentre (placePivot (initIndices 5) 1) 5 = [1, 0, 2, 4, 3] ∧
    grahamHull squareWithCentre = [1, 2, 3] ∧
    turn squareWithCentre 3 1 0 = -16 ∧
    ¬ hullContains squareWithCentre (grahamHull squareWithCentre) := by
  have hhull : grahamHull squareWithCentre = [1, 2, 3] := by decide!
  have hturn : turn squareWithCentre 3 1 0 = -16 := by decide!
  refine ⟨by decide, by decide!, by decide!, by decide!, hhull, hturn, ?_⟩
  intro h
  have h2 := h 0 (by decide) 2 (by rw [hhull]; decide)
  rw [hhull] at h2
  have h3 : turn squareWithCentre 3 1 0 < 0 := by
    rw [hturn]
    norm_num
  exact absurd h2 (not_le.mpr h3)

/-- C2, evaluated at the four points `(4,0),(2,0),(0,0),(4,4)` in that index
order.  The scan selects `(4,0)` (index 0), the sort puts `(0,0)` and `(2,0)`
first because their slope is `0`, and the pipeline returns
`(4,0),(0,0),(2,0),(4,4)`.  The wrap-around triple `(2,0),(4,4),(4,0)` (second
to last, last, first) has cross product `-8`, so the returned list is not a
counter-clockwise loop. -/
theorem grahamHull_not_ccw :
    3 ≤ bottomRowAndTop.length ∧
    findStartIndex bottomRowAndTop = 0 ∧
    SortPointsByPolarAngle bottomRowAndTop (placePivot (initIndices 4) 0) 4 = [0, 2, 1, 3] ∧
    grahamHull bottomRowAndTop = [0, 2, 1, 3] ∧
    turn bottomRowAndTop 1 3 0 = -8 ∧
    ¬ ccwLoop bottomRowAndTop (grahamHull bottomRowAndTop) := by
  have hhull : grahamHull bottomRowAndTop = [0, 2, 1, 3] := by decide!
  have hturn : turn bottomRowAndTop 1 3 0 = -8 := by decide!
  refine ⟨by decide, by decide!, by decide!, hhull, hturn, ?_⟩
  intro h
  have h2 := h 2 (by rw [hhull]; decide)
  rw [hhull] at h2
  have h3 : turn bottomRowAndTop 1 3 0 < 0 := by
    rw [hturn]
    norm_num
  exact absurd h2 (not_le.mpr h3)

/-! ## The hull scan: C6, C7, C8 -/

/-- Invariant rule for the hull loop: a property of the state `(i, convex_hull_vec)`
that each of the three branches of the loop body preserves holds of the final
state, for some final value `j` of the loop index. -/
theorem hullLoop_invariant (pointPos : List Point) (arr : List Nat) (N : Nat)
    (P : Nat → List Nat → Prop)
    (hreplace : ∀ i vec, i < N → 2 ≤ vec.length → P i vec →
      cross_product pointPos (vec.getD (vec.length - 2) 0) (vec.getD (vec.length - 1) 0)
        (arr.getD i 0) < 0 →
      vec.dropLast.length = 1 → P (i + 1) (vec.dropLast ++ [arr.getD i 0]))
    (hpop : ∀ i vec, i < N → 2 ≤ vec.length → P i vec →
      cross_product pointPos (vec.getD (vec.length - 2) 0) (vec.getD (vec.length - 1) 0)
        (arr.getD i 0) < 0 →
      ¬ vec.dropLast.length = 1 → P i vec.dropLast)
    (hpush : ∀ i vec, i < N → 2 ≤ vec.length → P i vec →
      ¬ cross_product pointPos (vec.getD (vec.length - 2) 0) (vec.getD (vec.length - 1) 0)
        (arr.getD i 0) < 0 →
      P (i + 1) (vec ++ [arr.getD i 0]))
    (i : Nat) (vec : List Nat) (hsize : 2 ≤ vec.length) (h0 : P i vec) :
    ∃ j, P j (hullLoop pointPos arr N i vec hsize) := by
  induction i, vec, hsize using hullLoop.induct pointPos arr N with
  | case1 i vec hsize hi ih =>
    rw [hullLoop, if_pos hi]
    apply ih
    unfold hullStep
    dsimp only
    split_ifs with hc h1
    · exact hreplace i vec hi hsize h0 hc h1
    · exact hpop i vec hi hsize h0 hc h1
    · exact hpush i vec hi hsize h0 hc
  | case2 i vec hsize hi =>
    rw [hullLoop, if_neg hi]
    exact ⟨i, h0⟩

/-- Each iteration of the loop body keeps at least two entries in the vector
and decreases the pair `(NUM_POINTS - i, size)` lexicographically. -/
theorem hullStep_size_measure (pointPos : List Point) (arr : List Nat) (N i : Nat)
    (vec : List Nat) (hi : i < N) (hsize : 2 ≤ vec.length) :
    2 ≤ (hullStep pointPos arr i vec).2.length ∧
    (N - (hullStep pointPos arr i vec).1 < N - i ∨
      (N - (hullStep pointPos arr i vec).1 = N - i ∧
        (hullStep pointPos arr i vec).2.length < vec.length)) := by
  unfold hullStep
  dsimp only
  split_ifs with hc h1
  · rw [List.length_append, List.length_singleton, h1]
    omega
  · rw [List.length_dropLast] at h1 ⊢
    omega
  · rw [List.length_append, List.length_singleton]
    omega

/-- C6: for `numPoints ≥ 2`, whatever the point array and the index array
(sorted or not), the scan returns a list of at least 2 and at most `numPoints`
entries; and one iteration of the loop body, the pop branches included, started
with at least 2 entries ends with at least 2 entries. -/
theorem hullScan_length_bounds (pointPos : List Point) (hullVertIndices : List Nat)
    (numPoints : Nat) (hN : 2 ≤ numPoints) :
    2 ≤ (hullScan pointPos hullVertIndices numPoints).length ∧
    (hullScan pointPos hullVertIndices numPoints).length ≤ numPoints ∧
    ∀ i vec, i < numPoints → 2 ≤ vec.length →
      2 ≤ (hullStep pointPos hullVertIndices i vec).2.length := by
  obtain ⟨j, h2, hj, hjN⟩ := hullLoop_invariant pointPos hullVertIndices numPoints
    (fun i vec => 2 ≤ vec.length ∧ vec.length ≤ i ∧ i ≤ numPoints)
    (by
      intro i vec hi _ h _ h1
      simp only [List.length_append, List.length_singleton, h1]
      omega)
    (by
      intro i vec hi _ h _ h1
      simp only [List.length_dropLast] at h1 ⊢
      omega)
    (by
      intro i vec hi _ h _
      simp only [List.length_append, List.length_singleton]
      omega)
    2 [hullVertIndices.getD 0 0, hullVertIndices.getD 1 0] (Nat.le_refl 2)
    ⟨Nat.le_refl 2, Nat.le_refl 2, hN⟩
  exact ⟨h2, le_trans hj hjN,
    fun i vec hi hv => (hullStep_size_measure pointPos hullVertIndices numPoints i vec hi hv).1⟩

theorem hullScan_length_bounds_witness :
    2 ≤ 3 ∧ 2 ≤ (hullScan [(0, 0), (1, 1), (2, 0)] [0, 2, 1] 3).length ∧
      (hullScan [(0, 0), (1, 1), (2, 0)] [0, 2, 1] 3).length ≤ 3 :=
  ⟨by decide, (hullScan_length_bounds [(0, 0), (1, 1), (2, 0)] [0, 2, 1] 3 (by decide)).1,
    (hullScan_length_bounds [(0, 0), (1, 1), (2, 0)] [0, 2, 1] 3 (by decide)).2.1⟩

theorem getD_dropLast_of_lt (l : List Nat) (k : Nat) (hk : k < l.length - 1) :
    l.dropLast.getD k 0 = l.getD k 0 := by
  rw [List.dropLast_eq_take, List.getD_eq_getElem?_getD, List.getD_eq_getElem?_getD,
    List.getElem?_take_of_lt hk]

theorem getD_append_singleton_of_lt (l : List Nat) (r k : Nat) (hk : k < l.length) :
    (l ++ [r]).getD k 0 = l.getD k 0 := by
  rw [List.getD_eq_getElem?_getD, List.getD_eq_getElem?_getD, List.getElem?_append_left hk]

theorem getD_append_singleton_length (l : List Nat) (r : Nat) :
    (l ++ [r]).getD l.length 0 = r := by
  rw [List.getD_eq_getElem?_getD, List.getElem?_append_right (Nat.le_refl _)]
  simp

/-- C7 as stated fails on the code: for the points `(0,0)`, `(1 + 2^-23, 1)`,
`(1, 1 - 2^-24)` the sort hands `[0, 2, 1]` to the scan and the scan returns
it whole.  For its only triple the source computes
`qx*ry - rx*qy = 1 - fl32 ((1 + 2^-23) * (1 - 2^-24)) = 1 - 1`, so
`cross_product` is `0` and the candidate is pushed, while the exact value of
`(qx-px)(ry-py) - (rx-px)(qy-py)` is `-8388607 / 2^47`, a concave turn. -/
theorem hullScan_keeps_concave_turn :
    2 ≤ roundedTurnPoints.length ∧
    grahamSorted roundedTurnPoints = [0, 2, 1] ∧
    hullScan roundedTurnPoints [0, 2, 1] 3 = [0, 2, 1] ∧
    cross_product roundedTurnPoints 0 2 1 = 0 ∧
    turn roundedTurnPoints 0 2 1 = -8388607 / 2 ^ 47 ∧
    turn roundedTurnPoints ((hullScan roundedTurnPoints [0, 2, 1] 3).getD 0 0)
      ((hullScan roundedTurnPoints [0, 2, 1] 3).getD 1 0)
      ((hullScan roundedTurnPoints [0, 2, 1] 3).getD 2 0) < 0 := by
  decide!

/-- C7, amended: for any input to the scan (in particular for `numPoints ≥ 2`),
every three entries at consecutive positions `k`, `k+1`, `k+2` of the returned
list have a `cross_product`, the binary32 value that the source computes for
them through its expanded expression, that is not negative. -/
theorem hullScan_cross_product_nonneg (pointPos : List Point) (hullVertIndices : List Nat)
    (numPoints : Nat) (k : Nat)
    (hk : k + 2 < (hullScan pointPos hullVertIndices numPoints).length) :
    0 ≤ cross_product pointPos ((hullScan pointPos hullVertIndices numPoints).getD k 0)
        ((hullScan pointPos hullVertIndices numPoints).getD (k + 1) 0)
        ((hullScan pointPos hullVertIndices numPoints).getD (k + 2) 0) := by
  obtain ⟨j, hj⟩ := hullLoop_invariant pointPos hullVertIndices numPoints
    (fun _ vec => ∀ k, k + 2 < vec.length →
      0 ≤ cross_product pointPos (vec.getD k 0) (vec.getD (k + 1) 0) (vec.getD (k + 2) 0))
    (by
      intro i vec _ _ _ _ h1 k hk
      simp only [List.length_append, List.length_singleton, h1] at hk
      omega)
    (by
      intro i vec _ _ h _ _ k hk
      simp only [List.length_dropLast] at hk
      rw [getD_dropLast_of_lt vec k (by omega), getD_dropLast_of_lt vec (k + 1) (by omega),
        getD_dropLast_of_lt vec (k + 2) (by omega)]
      exact h k (by omega))
    (by
      intro i vec _ hsize h hc k hk
      simp only [List.length_append, List.length_singleton] at hk
      rw [getD_append_singleton_of_lt vec _ k (by omega),
        getD_append_singleton_of_lt vec _ (k + 1) (by omega)]
      rcases Nat.lt_or_ge (k + 2) vec.length with hlt | hge
      · rw [getD_append_singleton_of_lt vec _ (k + 2) hlt]
        exact h k hlt
      · have hk2 : k + 2 = vec.length := by omega
        have e0 : k = vec.length - 2 := by omega
        have e1 : k + 1 = vec.length - 1 := by omega
        rw [hk2, getD_append_singleton_length, e1, e0]
        exact not_lt.mp hc)
    2 [hullVertIndices.getD 0 0, hullVertIndices.getD 1 0] (Nat.le_refl 2)
    (by
      intro k hk
      simp only [List.length_cons, List.length_nil] at hk
      omega)
  exact hj k hk

theorem hullScan_cross_product_nonneg_witness :
    0 + 2 < (hullScan roundedTurnPoints [0, 2, 1] 3).length ∧
    0 ≤ cross_product roundedTurnPoints ((hullScan roundedTurnPoints [0, 2, 1] 3).getD 0 0)
        ((hullScan roundedTurnPoints [0, 2, 1] 3).getD (0 + 1) 0)
        ((hullScan roundedTurnPoints [0, 2, 1] 3).getD (0 + 2) 0) :=
  ⟨by decide!, hullScan_cross_product_nonneg roundedTurnPoints [0, 2, 1] 3 0 (by decide!)⟩

theorem head?_dropLast_of_two_le (l : List Nat) (h : 2 ≤ l.length) :
    l.dropLast.head? = l.head? := by
  match l, h with
  | a :: b :: t, _ => simp [List.dropLast]

theorem first_two_sublist_take (l : List Nat) (h : 2 ≤ l.length) :
    [l.getD 0 0, l.getD 1 0].Sublist (l.take 2) := by
  match l, h with
  | a :: b :: t, _ => simp

/-- C8: for an index array of length `numPoints ≥ 2`, the list returned by the
scan is a sublist (an order-preserving selection) of the array, and its first
entry is the array's entry at position 0; hence if the array is a permutation of
`0..numPoints-1`, the returned entries are pairwise distinct and below
`numPoints`. -/
theorem hullScan_sublist (pointPos : List Point) (hullVertIndices : List Nat)
    (numPoints : Nat) (hN : 2 ≤ numPoints) (hlen : hullVertIndices.length = numPoints) :
    (hullScan pointPos hullVertIndices numPoints).Sublist hullVertIndices ∧
    (hullScan pointPos hullVertIndices numPoints).head? = some (hullVertIndices.getD 0 0) ∧
    (hullVertIndices.Perm (List.range numPoints) →
      (hullScan pointPos hullVertIndices numPoints).Nodup ∧
      ∀ x ∈ hullScan pointPos hullVertIndices numPoints, x < numPoints) := by
  obtain ⟨j, hsub, hhead⟩ := hullLoop_invariant pointPos hullVertIndices numPoints
    (fun i vec => vec.Sublist (hullVertIndices.take i) ∧
      vec.head? = some (hullVertIndices.getD 0 0))
    (by
      intro i vec hi hsize h _ h1
      obtain ⟨hs, hh⟩ := h
      have hne : vec.dropLast ≠ [] := by
        intro hc
        rw [hc] at h1
        simp at h1
      refine ⟨?_, ?_⟩
      · rw [List.take_succ]
        have hget : hullVertIndices[i]?.toList = [hullVertIndices.getD i 0] := by
          rw [List.getD_eq_getElem?_getD, List.getElem?_eq_getElem (by omega)]
          rfl
        rw [hget]
        exact List.Sublist.append ((List.dropLast_sublist vec).trans hs) (List.Sublist.refl _)
      · rw [List.head?_append_of_ne_nil _ hne, head?_dropLast_of_two_le vec hsize]
        exact hh)
    (by
      intro i vec _ hsize h _ _
      exact ⟨(List.dropLast_sublist vec).trans h.1,
        (head?_dropLast_of_two_le vec hsize).trans h.2⟩)
    (by
      intro i vec hi hsize h _
      obtain ⟨hs, hh⟩ := h
      have hne : vec ≠ [] := by
        intro hc
        rw [hc] at hsize
        simp at hsize
      refine ⟨?_, ?_⟩
      · rw [List.take_succ]
        have hget : hullVertIndices[i]?.toList = [hullVertIndices.getD i 0] := by
          rw [List.getD_eq_getElem?_getD, List.getElem?_eq_getElem (by omega)]
          rfl
        rw [hget]
        exact List.Sublist.append hs (List.Sublist.refl _)
      · rw [List.head?_append_of_ne_nil _ hne]
        exact hh)
    2 [hullVertIndices.getD 0 0, hullVertIndices.getD 1 0] (Nat.le_refl 2)
    (by
      exact ⟨first_two_sublist_take hullVertIndices (by omega), rfl⟩)
  have hsub2 : (hullScan pointPos hullVertIndices numPoints).Sublist hullVertIndices :=
    hsub.trans (List.take_sublist _ _)
  refine ⟨hsub2, hhead, ?_⟩
  intro hperm
  refine ⟨List.Nodup.sublist hsub2 (hperm.nodup_iff.mpr (List.nodup_range _)), ?_⟩
  intro x hx
  have := hperm.subset (hsub2.subset hx)
  exact List.mem_range.mp this

theorem hullScan_sublist_witness :
    2 ≤ 4 ∧ [0, 1, 2, 3].length = 4 ∧
    (hullScan squareCorners [0, 1, 2, 3] 4).Sublist [0, 1, 2, 3] :=
  ⟨by decide, by decide, (hullScan_sublist squareCorners [0, 1, 2, 3] 4 (by decide) (by decide)).1⟩

/-! ## The furthest-pair search: C10 -/

theorem dst_comm (pointPos : List Point) (arr : List Nat) (i j : Nat) :
    dst pointPos arr i j = dst pointPos arr j i := by
  unfold dst fsub fmul
  dsimp only
  rw [show Y pointPos (arr.getD j 0) - Y pointPos (arr.getD i 0)
      = -(Y pointPos (arr.getD i 0) - Y pointPos (arr.getD j 0)) by ring,
    show X pointPos (arr.getD j 0) - X pointPos (arr.getD i 0)
      = -(X pointPos (arr.getD i 0) - X pointPos (arr.getD j 0)) by ring,
    fl32_neg, fl32_neg, neg_mul_neg, neg_mul_neg]

theorem dst_nonneg (pointPos : List Point) (arr : List Nat) (i j : Nat) :
    0 ≤ dst pointPos arr i j := by
  unfold dst
  exact fsqrt_nonneg _

theorem furthestStep_inv (pointPos : List Point) (arr : List Nat) (M i j : Nat)
    (done : Nat → Nat → Prop) (st : FurthestState) (hi : i < M) (hj : j < M)
    (h : FurthestInv pointPos arr M done st) :
    FurthestInv pointPos arr M (fun a b => done a b ∨ (a = i ∧ b = j))
      (furthestStep pointPos arr i st j) := by
  obtain ⟨h1, h2, h3, h4⟩ := h
  unfold furthestStep
  split_ifs with c
  · refine ⟨hi, hj, le_refl _, ?_⟩
    rintro a b (hd | ⟨rfl, rfl⟩)
    · exact le_trans (h4 a b hd) (le_of_lt c)
    · exact le_refl _
  · refine ⟨h1, h2, h3, ?_⟩
    rintro a b (hd | ⟨rfl, rfl⟩)
    · exact h4 a b hd
    · exact not_lt.mp c

theorem furthestRow_inv_aux (pointPos : List Point) (arr : List Nat) (M i : Nat)
    (done : Nat → Nat → Prop) (st : FurthestState)
    (h : FurthestInv pointPos arr M done st) (n : Nat) (hn : i + n ≤ M) :
    FurthestInv pointPos arr M (fun a b => done a b ∨ (a = i ∧ i ≤ b ∧ b < i + n))
      ((List.range' i n).foldl (furthestStep pointPos arr i) st) := by
  induction n with
  | zero =>
    obtain ⟨h1, h2, h3, h4⟩ := h
    refine ⟨h1, h2, h3, ?_⟩
    rintro a b (hd | ⟨_, h5, h6⟩)
    · exact h4 a b hd
    · omega
  | succ n ih =>
    rw [List.range'_1_concat, List.foldl_append]
    simp only [List.foldl_cons, List.foldl_nil]
    have hstep := furthestStep_inv pointPos arr M i (i + n) _ _ (by omega) (by omega)
      (ih (by omega))
    obtain ⟨h1, h2, h3, h4⟩ := hstep
    refine ⟨h1, h2, h3, ?_⟩
    rintro a b (hd | ⟨ha, h5, h6⟩)
    · exact h4 a b (Or.inl (Or.inl hd))
    · rcases Nat.lt_or_ge b (i + n) with hlt | hge
      · exact h4 a b (Or.inl (Or.inr ⟨ha, h5, hlt⟩))
      · exact h4 a b (Or.inr ⟨ha, by omega⟩)

theorem furthestSearch_inv_aux (pointPos : List Point) (arr : List Nat) (M : Nat)
    (hM : 2 ≤ M) (n : Nat) (hn : n ≤ M) :
    FurthestInv pointPos arr M (fun a b => a < n ∧ a ≤ b ∧ b < M)
      ((List.range n).foldl (furthestRow pointPos arr M)
        { furthestStart := 0, furthestEnd := 1, max_dst := 0 }) := by
  induction n with
  | zero =>
    simp only [List.range_zero, List.foldl_nil]
    refine ⟨show 0 < M by omega, show 1 < M by omega, dst_nonneg _ _ _ _, ?_⟩
    rintro a b ⟨h, _⟩
    omega
  | succ n ih =>
    rw [List.range_succ, List.foldl_append]
    simp only [List.foldl_cons, List.foldl_nil]
    have hrow := furthestRow_inv_aux pointPos arr M n _ _ (ih (by omega)) (M - n) (by omega)
    obtain ⟨h1, h2, h3, h4⟩ := hrow
    refine ⟨h1, h2, h3, ?_⟩
    rintro a b ⟨ha, hab, hb⟩
    rcases Nat.lt_or_ge a n with hlt | hge
    · exact h4 a b (Or.inl ⟨hlt, hab, hb⟩)
    · exact h4 a b (Or.inr ⟨by omega, by omega, by omega⟩)

/-- C10 as stated fails on the code: for the hull list of the points `(0,0)`,
`(1,0)`, `(1, 2^-13)` the search returns the positions `(0, 1)`, at distance
`1`, while the positions `(0, 2)` are strictly farther apart (squared distance
`1 + 2^-26`).  The source computes the same `dst = 1` for both pairs, the sum
`1 + 2^-26` being rounded to `1`, and keeps the first. -/
theorem furthestSearch_not_max :
    2 ≤ 3 ∧
    furthestSearch roundedSumPoints [0, 1, 2] 3
      = { furthestStart := 0, furthestEnd := 1, max_dst := 1 } ∧
    dst roundedSumPoints [0, 1, 2] 0 2 = 1 ∧
    dst2 roundedSumPoints [0, 1, 2] 0 1 = 1 ∧
    dst2 roundedSumPoints [0, 1, 2] 0 2 = 1 + 1 / 2 ^ 26 ∧
    dst2 roundedSumPoints [0, 1, 2] (furthestSearch roundedSumPoints [0, 1, 2] 3).furthestStart
        (furthestSearch roundedSumPoints [0, 1, 2] 3).furthestEnd
      < dst2 roundedSumPoints [0, 1, 2] 0 2 := by
  decide!

/-- C10, amended: for a hull list of `M ≥ 2` positions, the positions
`(furthestStart, furthestEnd)` left by the search are below `M` and the value
`dst` that the source computes for them, the binary32 value of
`sqrt(delta_x * delta_x + delta_y * delta_y)`, is at least the value `dst` of
any two positions `i`, `j` below `M`. -/
theorem furthestSearch_max_dst (pointPos : List Point) (hullVertIndices : List Nat)
    (M : Nat) (hM : 2 ≤ M) (i j : Nat) (hi : i < M) (hj : j < M) :
    (furthestSearch pointPos hullVertIndices M).furthestStart < M ∧
    (furthestSearch pointPos hullVertIndices M).furthestEnd < M ∧
    dst pointPos hullVertIndices i j ≤
      dst pointPos hullVertIndices (furthestSearch pointPos hullVertIndices M).furthestStart
        (furthestSearch pointPos hullVertIndices M).furthestEnd := by
  obtain ⟨h1, h2, h3, h4⟩ := furthestSearch_inv_aux pointPos hullVertIndices M hM M (le_refl M)
  refine ⟨h1, h2, ?_⟩
  rcases Nat.le_total i j with hij | hji
  · exact le_trans (h4 i j ⟨hi, hij, hj⟩) h3
  · rw [dst_comm]
    exact le_trans (h4 j i ⟨hj, hji, hi⟩) h3

theorem furthestSearch_max_dst_witness :
    2 ≤ 3 ∧ 2 < 3 ∧ 0 < 3 ∧
    dst roundedSumPoints [0, 1, 2] 2 0 ≤
      dst roundedSumPoints [0, 1, 2] (furthestSearch roundedSumPoints [0, 1, 2] 3).furthestStart
        (furthestSearch roundedSumPoints [0, 1, 2] 3).furthestEnd :=
  ⟨by decide, by decide, by decide,
    (furthestSearch_max_dst roundedSumPoints [0, 1, 2] 3 (by decide) 2 0 (by decide)
      (by decide)).2.2⟩
/-! ## The comparator against the cross product: C19 -/

/-- The key of a candidate for which neither sentinel branch is taken: the
rounded `-1.0f / slope` of the rounded `slope = delta_y / delta_x`. -/
theorem negRecipSlope_of_no_sentinel (pointPos : List Point) (B a : Nat)
    (hx : fsub (X pointPos a) (X pointPos B) ≠ 0)
    (hs : fdiv (fsub (Y pointPos a) (Y pointPos B)) (fsub (X pointPos a) (X pointPos B)) ≠ 0) :
    negRecipSlope pointPos B a =
        fdiv (-1) (fl32 (fsub (Y pointPos a) (Y pointPos B) / fsub (X pointPos a) (X pointPos B))) ∧
      fl32 (fsub (Y pointPos a) (Y pointPos B) / fsub (X pointPos a) (X pointPos B)) ≠ 0 := by
  have hfd : fdiv (fsub (Y pointPos a) (Y pointPos B)) (fsub (X pointPos a) (X pointPos B))
      = fl32 (fsub (Y pointPos a) (Y pointPos B) / fsub (X pointPos a) (X pointPos B)) := by
    unfold fdiv at hs ⊢
    split_ifs with h
    · rw [if_pos h] at hs
      exact absurd rfl hs
    · rfl
  unfold negRecipSlope
  dsimp only
  rw [if_neg hx, if_neg hs, hfd]
  exact ⟨rfl, hfd ▸ hs⟩

/-- The order of the keys of two candidates above the base point, away from the
sentinels, in terms of their differences `(dxa, dya)` and `(dxb, dyb)`: a
strictly smaller key makes the cross product positive. -/
theorem key_lt_imp_cross_pos (dxa dya dxb dyb : ℚ) (hya : 0 < dya) (hyb : 0 < dyb)
    (hxa : dxa ≠ 0) (hxb : dxb ≠ 0)
    (hsa : fl32 (dya / dxa) ≠ 0) (hsb : fl32 (dyb / dxb) ≠ 0)
    (h : fdiv (-1) (fl32 (dya / dxa)) < fdiv (-1) (fl32 (dyb / dxb))) :
    0 < dxa * dyb - dxb * dya := by
  rcases lt_or_gt_of_ne hxa with hxan | hxap
  · have hsan : fl32 (dya / dxa) < 0 :=
      lt_of_le_of_ne (fl32_nonpos _ (le_of_lt (div_neg_of_pos_of_neg hya hxan))) hsa
    rcases lt_or_gt_of_ne hxb with hxbn | hxbp
    · have hlt : fl32 (dya / dxa) < fl32 (dyb / dxb) := by
        by_contra hc
        exact absurd (fdiv_neg_one_mono_neg _ _ hsan (not_lt.mp hc) (neg_INF32_le_fl32 _))
          (not_le.mpr h)
      have hq := lt_of_fl32_lt _ _ hlt
      rw [← neg_div_neg_eq dya dxa, ← neg_div_neg_eq dyb dxb,
        div_lt_div_iff₀ (neg_pos.mpr hxan) (neg_pos.mpr hxbn)] at hq
      linarith
    · have hsbp : 0 < fl32 (dyb / dxb) :=
        lt_of_le_of_ne (fl32_nonneg _ (le_of_lt (div_pos hyb hxbp))) (Ne.symm hsb)
      exact absurd (lt_of_le_of_lt (fdiv_neg_one_nonneg _ hsan)
        (lt_of_lt_of_le h (fdiv_neg_one_nonpos _ hsbp))) (lt_irrefl 0)
  · have hsap : 0 < fl32 (dya / dxa) :=
      lt_of_le_of_ne (fl32_nonneg _ (le_of_lt (div_pos hya hxap))) (Ne.symm hsa)
    rcases lt_or_gt_of_ne hxb with hxbn | hxbp
    · have h1 : 0 < dxa * dyb := mul_pos hxap hyb
      have h2 : dxb * dya < 0 := mul_neg_of_neg_of_pos hxbn hya
      linarith
    · have hlt : fl32 (dya / dxa) < fl32 (dyb / dxb) := by
        by_contra hc
        have hsbp : 0 < fl32 (dyb / dxb) :=
          lt_of_le_of_ne (fl32_nonneg _ (le_of_lt (div_pos hyb hxbp))) (Ne.symm hsb)
        exact absurd (fdiv_neg_one_mono_pos _ _ hsbp (not_lt.mp hc) (fl32_le_INF32 _))
          (not_le.mpr h)
      have hq := lt_of_fl32_lt _ _ hlt
      rw [div_lt_div_iff₀ hxap hxbp] at hq
      linarith

/-- C19 as stated fails on the code: for the base point `B = (0,0)` and the
points `a = (2 + 2^-22, 6 + 2^-21)`, `b = (1, 3)`, both strictly above `B` and
not vertically aligned with it, the cross product `dxa*dyb - dxb*dya` is
`2^-22 > 0`, and `cmp(a, b)` is false: the two keys are the same binary32
value `-11184811 / 2^25`, the quotients `dy / dx` being rounded and their
negated reciprocals again. -/
theorem cmp_false_cross_pos :
    Y roundedKeyPoints 0 < Y roundedKeyPoints 1 ∧ Y roundedKeyPoints 0 < Y roundedKeyPoints 2 ∧
    X roundedKeyPoints 1 ≠ X roundedKeyPoints 0 ∧ X roundedKeyPoints 2 ≠ X roundedKeyPoints 0 ∧
    (X roundedKeyPoints 1 - X roundedKeyPoints 0) * (Y roundedKeyPoints 2 - Y roundedKeyPoints 0)
      - (X roundedKeyPoints 2 - X roundedKeyPoints 0)
        * (Y roundedKeyPoints 1 - Y roundedKeyPoints 0) = 1 / 2 ^ 22 ∧
    negRecipSlope roundedKeyPoints 0 1 = -11184811 / 2 ^ 25 ∧
    negRecipSlope roundedKeyPoints 0 2 = -11184811 / 2 ^ 25 ∧
    cmp roundedKeyPoints 0 1 2 = false := by
  decide!

/-- C19, amended: for a base point `B` and two indices `a`, `b` whose binary32
differences to `B` have `delta_y > 0` and `delta_x ≠ 0` and whose binary32
`slope = delta_y / delta_x` is not `0` (neither sentinel branch is taken), the
comparator follows the cross product of those differences in one direction:
when `cmp(a, b)` is true then `dxa * dyb - dxb * dya > 0`, and when
`dxa * dyb - dxb * dya > 0` then `cmp(b, a)` is false. -/
theorem cmp_imp_cross_pos_above (pointPos : List Point) (B a b : Nat)
    (hya : 0 < fsub (Y pointPos a) (Y pointPos B))
    (hyb : 0 < fsub (Y pointPos b) (Y pointPos B))
    (hxa : fsub (X pointPos a) (X pointPos B) ≠ 0)
    (hxb : fsub (X pointPos b) (X pointPos B) ≠ 0)
    (hsa : fdiv (fsub (Y pointPos a) (Y pointPos B)) (fsub (X pointPos a) (X pointPos B)) ≠ 0)
    (hsb : fdiv (fsub (Y pointPos b) (Y pointPos B)) (fsub (X pointPos b) (X pointPos B)) ≠ 0) :
    (cmp pointPos B a b = true →
      0 < fsub (X pointPos a) (X pointPos B) * fsub (Y pointPos b) (Y pointPos B)
        - fsub (X pointPos b) (X pointPos B) * fsub (Y pointPos a) (Y pointPos B)) ∧
    (0 < fsub (X pointPos a) (X pointPos B) * fsub (Y pointPos b) (Y pointPos B)
        - fsub (X pointPos b) (X pointPos B) * fsub (Y pointPos a) (Y pointPos B) →
      cmp pointPos B b a = false) := by
  obtain ⟨hka, hsa1⟩ := negRecipSlope_of_no_sentinel pointPos B a hxa hsa
  obtain ⟨hkb, hsb1⟩ := negRecipSlope_of_no_sentinel pointPos B b hxb hsb
  constructor
  · intro h
    rw [cmp_iff, hka, hkb] at h
    exact key_lt_imp_cross_pos _ _ _ _ hya hyb hxa hxb hsa1 hsb1 h
  · intro h
    by_contra hc
    rw [Bool.not_eq_false, cmp_iff, hkb, hka] at hc
    have := key_lt_imp_cross_pos _ _ _ _ hyb hya hxb hxa hsb1 hsa1 hc
    linarith

theorem cmp_imp_cross_pos_above_witness :
    0 < fsub (Y squareCornersSkew 1) (Y squareCornersSkew 0) ∧
    0 < fsub (Y squareCornersSkew 2) (Y squareCornersSkew 0) ∧
    fsub (X squareCornersSkew 1) (X squareCornersSkew 0) ≠ 0 ∧
    fsub (X squareCornersSkew 2) (X squareCornersSkew 0) ≠ 0 ∧
    fdiv (fsub (Y squareCornersSkew 1) (Y squareCornersSkew 0))
      (fsub (X squareCornersSkew 1) (X squareCornersSkew 0)) ≠ 0 ∧
    fdiv (fsub (Y squareCornersSkew 2) (Y squareCornersSkew 0))
      (fsub (X squareCornersSkew 2) (X squareCornersSkew 0)) ≠ 0 ∧
    cmp squareCornersSkew 0 1 2 = true ∧
    0 < fsub (X squareCornersSkew 1) (X squareCornersSkew 0)
          * fsub (Y squareCornersSkew 2) (Y squareCornersSkew 0)
        - fsub (X squareCornersSkew 2) (X squareCornersSkew 0)
          * fsub (Y squareCornersSkew 1) (Y squareCornersSkew 0) :=
  ⟨by decide!, by decide!, by decide!, by decide!, by decide!, by decide!, by decide!,
    (cmp_imp_cross_pos_above squareCornersSkew 0 1 2 (by decide!) (by decide!) (by decide!)
      (by decide!) (by decide!) (by decide!)).1 (by decide!)⟩
/-! ## Termination of the backtracking scan: C14 -/

theorem hullStep_sum_measure (pointPos : List Point) (arr : List Nat) (N i : Nat)
    (vec : List Nat) (hi : i < N) (hsize : 2 ≤ vec.length) :
    2 * (N - (hullStep pointPos arr i vec).1) + (hullStep pointPos arr i vec).2.length
      < 2 * (N - i) + vec.length := by
  unfold hullStep
  dsimp only
  split_ifs with hc h1
  · rw [List.length_append, List.length_singleton, h1]
    omega
  · rw [List.length_dropLast]
    omega
  · rw [List.length_append, List.length_singleton]
    omega

theorem hullLoop_eq_hullIter (pointPos : List Point) (arr : List Nat) (N i : Nat)
    (vec : List Nat) (hsize : 2 ≤ vec.length) :
    ∃ n, n + 2 ≤ 2 * (N - i) + vec.length ∧
      ¬ (hullIter pointPos arr N n (i, vec)).1 < N ∧
      hullLoop pointPos arr N i vec hsize = (hullIter pointPos arr N n (i, vec)).2 := by
  induction i, vec, hsize using hullLoop.induct pointPos arr N with
  | case1 i vec hsize hi ih =>
    obtain ⟨n, hn, hexit, heq⟩ := ih
    have hm := hullStep_sum_measure pointPos arr N i vec hi hsize
    refine ⟨n + 1, by omega, ?_, ?_⟩
    · rw [hullIter, if_pos hi]
      exact hexit
    · rw [hullLoop, if_pos hi, heq, hullIter.eq_2, if_pos hi]
  | case2 i vec hsize hi =>
    refine ⟨0, by omega, ?_, ?_⟩
    · rw [hullIter]
      exact hi
    · rw [hullLoop, if_neg hi, hullIter]

/-- C14: for any input (in particular for `numPoints ≥ 2`), each iteration of the hull loop
(the one that re-enters with the same `i` after a pop included) decreases the
pair `(numPoints - i, size of the vector)` lexicographically, and the loop ends:
after some number `n ≤ 2 * (numPoints - 2)` of iterations from the initial state
the condition `i < numPoints` is false, and the vector then is the result of
the scan. -/
theorem hullLoop_terminates (pointPos : List Point) (hullVertIndices : List Nat)
    (numPoints : Nat) :
    (∀ i vec, i < numPoints → 2 ≤ vec.length →
      (numPoints - (hullStep pointPos hullVertIndices i vec).1 < numPoints - i ∨
        (numPoints - (hullStep pointPos hullVertIndices i vec).1 = numPoints - i ∧
          (hullStep pointPos hullVertIndices i vec).2.length < vec.length))) ∧
    ∃ n, n ≤ 2 * (numPoints - 2) ∧
      ¬ (hullIter pointPos hullVertIndices numPoints n
          (2, [hullVertIndices.getD 0 0, hullVertIndices.getD 1 0])).1 < numPoints ∧
      hullScan pointPos hullVertIndices numPoints =
        (hullIter pointPos hullVertIndices numPoints n
          (2, [hullVertIndices.getD 0 0, hullVertIndices.getD 1 0])).2 := by
  refine ⟨fun i vec hi hv =>
    (hullStep_size_measure pointPos hullVertIndices numPoints i vec hi hv).2, ?_⟩
  obtain ⟨n, hn, hexit, heq⟩ := hullLoop_eq_hullIter pointPos hullVertIndices numPoints 2
    [hullVertIndices.getD 0 0, hullVertIndices.getD 1 0] (Nat.le_refl 2)
  refine ⟨n, ?_, hexit, heq⟩
  simp only [List.length_cons, List.length_nil] at hn
  omega

theorem hullLoop_terminates_witness :
    2 < 4 ∧ 2 ≤ [0, 1].length ∧
    (4 - (hullStep squareCorners [0, 1, 2, 3] 2 [0, 1]).1 < 4 - 2 ∨
      (4 - (hullStep squareCorners [0, 1, 2, 3] 2 [0, 1]).1 = 4 - 2 ∧
        (hullStep squareCorners [0, 1, 2, 3] 2 [0, 1]).2.length < [0, 1].length)) :=
  ⟨by decide, by decide,
    (hullLoop_terminates squareCorners [0, 1, 2, 3] 4).1 2 [0, 1] (by decide) (by decide)⟩

/-! ## The tie-break of the furthest-pair search: C11 -/

theorem dst_self (pointPos : List Point) (arr : List Nat) (i : Nat) :
    dst pointPos arr i i = 0 := by
  unfold dst fsub fmul fadd
  dsimp only
  rw [sub_self, sub_self, fl32_zero, mul_zero, fl32_zero, add_zero, fl32_zero, fsqrt_zero]

theorem furthestStep_firstMax (pointPos : List Point) (arr : List Nat) (M i j : Nat)
    (st : FurthestState) (hij : i ≤ j) (hj : j < M)
    (h : FirstMaxInv pointPos arr M i j st) :
    FirstMaxInv pointPos arr M i (j + 1) (furthestStep pointPos arr i st j) := by
  obtain ⟨h1, h2, h3, h4, h5, h6⟩ := h
  unfold furthestStep
  split_ifs with c
  · have hne : i ≠ j := by
      intro hc
      rw [hc, dst_self] at c
      exact absurd c (not_lt.mpr h3)
    have hlt : i < j := by omega
    refine ⟨hlt, hj, dst_nonneg _ _ _ _, le_refl _, ?_, ?_⟩
    · intro a b hab hb hd
      dsimp only
      by_cases hcase : a = i ∧ b = j
      · rw [hcase.1, hcase.2]
      · exact le_trans (h5 a b hab hb (by omega)) (le_of_lt c)
    · intro a b hab hb hd
      dsimp only at hd ⊢
      exact lt_of_le_of_lt (h5 a b (by omega) hb hd) c
  · refine ⟨h1, h2, h3, h4, ?_, h6⟩
    intro a b hab hb hd
    by_cases hcase : a = i ∧ b = j
    · rw [hcase.1, hcase.2]
      exact not_lt.mp c
    · exact h5 a b hab hb (by omega)

theorem furthestRow_firstMax (pointPos : List Point) (arr : List Nat) (M i : Nat)
    (st : FurthestState) (h : FirstMaxInv pointPos arr M i i st) (n : Nat) (hn : i + n ≤ M) :
    FirstMaxInv pointPos arr M i (i + n)
      ((List.range' i n).foldl (furthestStep pointPos arr i) st) := by
  induction n with
  | zero => exact h
  | succ n ih =>
    rw [List.range'_1_concat, List.foldl_append]
    simp only [List.foldl_cons, List.foldl_nil]
    exact furthestStep_firstMax pointPos arr M i (i + n) _ (by omega) (by omega)
      (ih (by omega))

theorem furthestSearch_firstMax_aux (pointPos : List Point) (arr : List Nat) (M : Nat)
    (hM : 2 ≤ M) (n : Nat) (hn : n ≤ M) :
    FirstMaxInv pointPos arr M n n
      ((List.range n).foldl (furthestRow pointPos arr M)
        { furthestStart := 0, furthestEnd := 1, max_dst := 0 }) := by
  induction n with
  | zero =>
    simp only [List.range_zero, List.foldl_nil]
    refine ⟨Nat.zero_lt_one, show 1 < M by omega, le_refl _, dst_nonneg _ _ _ _, ?_, ?_⟩
    · intro a b _ _ hd
      omega
    · intro a b hab _ hd
      dsimp only at hd
      omega
  | succ n ih =>
    rw [List.range_succ, List.foldl_append]
    simp only [List.foldl_cons, List.foldl_nil]
    have hrow := furthestRow_firstMax pointPos arr M n _ (ih (by omega)) (M - n) (by omega)
    rw [show n + (M - n) = M by omega] at hrow
    obtain ⟨h1, h2, h3, h4, h5, h6⟩ := hrow
    refine ⟨h1, h2, h3, h4, ?_, h6⟩
    intro a b hab hb hd
    exact h5 a b hab hb (by omega)

/-- C11 as stated fails on the code: for the hull list of the points `(0,0)`,
`(1,0)`, `(1, 2^-13)` the search returns the positions `(0, 1)`, which are not
among the pairs attaining the maximum distance: the positions `(0, 2)` are
strictly farther apart.  The two pairs have the same `dst`, and of the pairs
with the largest `dst` the first is returned. -/
theorem furthestSearch_first_not_max :
    2 ≤ 3 ∧
    (furthestSearch roundedSumPoints [0, 1, 2] 3).furthestStart = 0 ∧
    (furthestSearch roundedSumPoints [0, 1, 2] 3).furthestEnd = 1 ∧
    dst roundedSumPoints [0, 1, 2] 0 1 = dst roundedSumPoints [0, 1, 2] 0 2 ∧
    dst2 roundedSumPoints [0, 1, 2] 0 1 < dst2 roundedSumPoints [0, 1, 2] 0 2 := by
  decide!

/-- C11, amended: for a hull list of `M ≥ 2` positions the search returns a
proper pair `furthestStart < furthestEnd < M` (never a pair with `i = j`, also
when all points coincide) that attains the largest value `dst`, the binary32
distance that the source computes, and it is the first such pair in increasing
`(i, then j)` order: every proper pair `a < b < M` with the same `dst` has
`furthestStart < a`, or `furthestStart = a` and `furthestEnd ≤ b`. -/
theorem furthestSearch_first_max_dst (pointPos : List Point) (hullVertIndices : List Nat)
    (M : Nat) (hM : 2 ≤ M) :
    (furthestSearch pointPos hullVertIndices M).furthestStart
      < (furthestSearch pointPos hullVertIndices M).furthestEnd ∧
    (furthestSearch pointPos hullVertIndices M).furthestEnd < M ∧
    (∀ a b, a < M → b < M → dst pointPos hullVertIndices a b ≤
      dst pointPos hullVertIndices (furthestSearch pointPos hullVertIndices M).furthestStart
        (furthestSearch pointPos hullVertIndices M).furthestEnd) ∧
    (∀ a b, a < b → b < M →
      dst pointPos hullVertIndices a b =
        dst pointPos hullVertIndices (furthestSearch pointPos hullVertIndices M).furthestStart
          (furthestSearch pointPos hullVertIndices M).furthestEnd →
      (furthestSearch pointPos hullVertIndices M).furthestStart < a ∨
        ((furthestSearch pointPos hullVertIndices M).furthestStart = a ∧
          (furthestSearch pointPos hullVertIndices M).furthestEnd ≤ b)) := by
  have hinv : FirstMaxInv pointPos hullVertIndices M M M
      (furthestSearch pointPos hullVertIndices M) :=
    furthestSearch_firstMax_aux pointPos hullVertIndices M hM M (le_refl M)
  generalize furthestSearch pointPos hullVertIndices M = st at hinv ⊢
  obtain ⟨h1, h2, _, h4, h5, h6⟩ := hinv
  refine ⟨h1, h2, ?_, ?_⟩
  · intro a b ha hb
    rcases Nat.le_total a b with hab | hba
    · exact le_trans (h5 a b hab hb (by omega)) h4
    · rw [dst_comm]
      exact le_trans (h5 b a hba ha (by omega)) h4
  · intro a b hab hb heq
    by_contra hcon
    have := h6 a b hab hb (by omega)
    rw [heq] at this
    exact lt_irrefl _ this

theorem furthestSearch_first_max_dst_witness :
    2 ≤ 3 ∧
    (furthestSearch [(0, 0), (0, 0), (0, 0)] [0, 1, 2] 3).furthestStart
      < (furthestSearch [(0, 0), (0, 0), (0, 0)] [0, 1, 2] 3).furthestEnd ∧
    (furthestSearch [(0, 0), (0, 0), (0, 0)] [0, 1, 2] 3).furthestEnd < 3 :=
  ⟨by decide, (furthestSearch_first_max_dst [(0, 0), (0, 0), (0, 0)] [0, 1, 2] 3 (by decide)).1,
    (furthestSearch_first_max_dst [(0, 0), (0, 0), (0, 0)] [0, 1, 2] 3 (by decide)).2.1⟩

/-! ## The furthest pair of the whole point set: C12 -/

/-- C12, evaluated at the four points `(0,0),(4,0),(4,1),(3,1)`.  The pipeline
returns the hull `(4,0),(4,1),(3,1)` without `(0,0)`, and the search marks the
hull positions `0` and `2`, the points `(4,0)` and `(3,1)`, at squared distance
`2` (the recorded `max_dst` is the binary32 value of `sqrt(2)`); the points
`(0,0)` and `(4,1)` of the point set are at squared distance `17`. -/
theorem furthestPair_not_furthest :
    2 ≤ wedgePoints.length ∧
    grahamHull wedgePoints = [1, 2, 3] ∧
    grahamIndices wedgePoints = [1, 2, 3, 3] ∧
    furthestPair wedgePoints
      = { furthestStart := 0, furthestEnd := 2, max_dst := 11863283 / 2 ^ 23 } ∧
    dst2 wedgePoints (grahamIndices wedgePoints) (furthestPair wedgePoints).furthestStart
      (furthestPair wedgePoints).furthestEnd = 2 ∧
    dst2 wedgePoints (initIndices 4) 0 2 = 17 := by
  decide!

/-! ## The concrete scenarios: C16, C17, C18 -/

/-- The acceptance branch of the loop body: a candidate whose `cross_product`
with the last two accepted vertices is `0` is pushed. -/
theorem hullStep_push_of_zero (pointPos : List Point) (arr : List Nat) (i : Nat)
    (vec : List Nat)
    (h : cross_product pointPos (vec.getD (vec.length - 2) 0) (vec.getD (vec.length - 1) 0)
      (arr.getD i 0) = 0) :
    hullStep pointPos arr i vec = (i + 1, vec ++ [arr.getD i 0]) := by
  unfold hullStep
  dsimp only
  rw [if_neg (by rw [h]; exact lt_irrefl 0)]

/-- C16, evaluated at its point set `(0,0),(4,0),(4,4),(0,4),(2,2)`.  The two
lowest points are `(0,0)` and `(4,0)`, and the scan selects the one with the
highest `x`, `(4,0)` (index 1).  The sort puts `(0,0)` first because its slope
is `0`, the hull scan replaces it by `(4,4)`, and the pipeline returns
`[1, 2, 3]`, the triangle `(4,0),(4,4),(0,4)`: the interior point `(2,2)`
(index 4) is left out, and so is the corner `(0,0)` (index 0). -/
theorem scenario1_loses_corner :
    Y squareWithCentre 0 = Y squareWithCentre 1 ∧
    findStartIndex squareWithCentre = 1 ∧
    squareWithCentre.getD (findStartIndex squareWithCentre) (0, 0) = (4, 0) ∧
    grahamSorted squareWithCentre = [1, 0, 2, 4, 3] ∧
    cross_product squareWithCentre 1 0 2 = -16 ∧
    grahamHull squareWithCentre = [1, 2, 3] ∧
    4 ∉ grahamHull squareWithCentre ∧
    0 ∉ grahamHull squareWithCentre := by
  decide!

/-- C17 as stated fails on the code: for the collinear points
`(0,0),(1,1),(2,2)` the returned list has 3 entries and the middle point
(index 1) is one of them. -/
theorem scenario2_not_as_stated :
    (grahamHull collinearThree).length = 3 ∧ 1 ∈ grahamHull collinearThree := by
  decide!

/-- C17, amended: for the collinear points `(0,0),(1,1),(2,2)` the pipeline
returns the three indices `[0, 2, 1]`: the pivot `(0,0)`, the far point `(2,2)`
and then the middle point `(1,1)`, whose cross product with the two accepted
vertices is `0`.  Generally, a candidate whose `cross_product` with the last two
accepted vertices is `0` is accepted: the loop body pushes it and moves on. -/
theorem scenario2_collinear_kept :
    grahamHull collinearThree = [0, 2, 1] ∧
    cross_product collinearThree 0 2 1 = 0 ∧
    ∀ (pointPos : List Point) (arr : List Nat) (i : Nat) (vec : List Nat),
      cross_product pointPos (vec.getD (vec.length - 2) 0) (vec.getD (vec.length - 1) 0)
        (arr.getD i 0) = 0 →
      hullStep pointPos arr i vec = (i + 1, vec ++ [arr.getD i 0]) := by
  refine ⟨by decide!, by decide!, ?_⟩
  intro pointPos arr i vec h
  exact hullStep_push_of_zero pointPos arr i vec h

theorem scenario2_collinear_kept_witness :
    cross_product collinearThree ([0, 2].getD ([0, 2].length - 2) 0)
      ([0, 2].getD ([0, 2].length - 1) 0) ([0, 2, 1].getD 2 0) = 0 ∧
    hullStep collinearThree [0, 2, 1] 2 [0, 2] = (2 + 1, [0, 2] ++ [[0, 2, 1].getD 2 0]) :=
  ⟨by decide!, scenario2_collinear_kept.2.2 collinearThree [0, 2, 1] 2 [0, 2] (by decide!)⟩

/-! ## The merge sort reverses ties: C20 -/

theorem withKey_nil_of_lt (key : Nat → ℚ) (k : ℚ) (l : List Nat)
    (h : ∀ x ∈ l, k < key x) : withKey key k l = [] := by
  unfold withKey
  rw [List.filter_eq_nil_iff]
  intro x hx hk
  have := h x hx
  rw [of_decide_eq_true hk] at this
  exact lt_irrefl _ this

theorem withKey_cons (key : Nat → ℚ) (k : ℚ) (a : Nat) (l : List Nat) :
    withKey key k (a :: l) = if key a = k then a :: withKey key k l else withKey key k l := by
  unfold withKey
  rw [List.filter_cons]
  by_cases h : key a = k
  · simp [h]
  · simp [h]

/-- In the merge of two non-decreasing lists, the entries of a given key that
come from the second list precede those that come from the first. -/
theorem merge_withKey (key : Nat → ℚ) (lt : Nat → Nat → Bool)
    (hlt : ∀ a b, lt a b = true ↔ key a < key b) (k : ℚ) (xs ys : List Nat)
    (hy : ys.Pairwise (fun a b => key a ≤ key b)) :
    withKey key k (List.merge xs ys lt) = withKey key k ys ++ withKey key k xs := by
  induction xs generalizing ys with
  | nil =>
    rw [List.nil_merge]
    unfold withKey
    simp
  | cons x xs ihx =>
    induction ys with
    | nil =>
      rw [List.merge_right]
      unfold withKey
      simp
    | cons y ys ihy =>
      rw [List.cons_merge_cons]
      split_ifs with c
      · have hxy : key x < key y := (hlt x y).mp c
        rw [withKey_cons, ihx (y :: ys) hy, withKey_cons key k x xs]
        by_cases hk : key x = k
        · rw [if_pos hk, if_pos hk]
          have hnil : withKey key k (y :: ys) = [] := by
            apply withKey_nil_of_lt
            intro z hz
            rw [← hk]
            rcases List.mem_cons.mp hz with rfl | hz
            · exact hxy
            · exact lt_of_lt_of_le hxy ((List.pairwise_cons.mp hy).1 z hz)
          rw [hnil]
          rfl
        · rw [if_neg hk, if_neg hk]
      · rw [withKey_cons, ihy (List.pairwise_cons.mp hy).2, withKey_cons key k y ys]
        by_cases hk : key y = k
        · rw [if_pos hk, if_pos hk]
          rfl
        · rw [if_neg hk, if_neg hk]

theorem blk_eq_nil_of_le (stride b : Nat) (R : List Nat) (h : R.length ≤ b * stride) :
    blk stride b R = [] := by
  unfold blk
  rw [List.drop_eq_nil_of_le h, List.take_nil]

theorem blk_drop (stride b : Nat) (R : List Nat) :
    blk stride b (R.drop (2 * stride)) = blk stride (b + 2) R := by
  unfold blk
  rw [List.drop_drop, show 2 * stride + b * stride = (b + 2) * stride by ring]

theorem blk_two_mul (stride b : Nat) (R : List Nat) :
    blk (2 * stride) b R = blk stride (2 * b) R ++ blk stride (2 * b + 1) R := by
  unfold blk
  rw [show 2 * stride = stride + stride by omega, List.take_add, List.drop_drop,
    show b * (stride + stride) = 2 * b * stride by ring,
    show 2 * b * stride + stride = (2 * b + 1) * stride by ring]

/-- After one pass, the block number `b` of `2 * stride` cells is the merge of
the blocks number `2 * b` and `2 * b + 1` of `stride` cells. -/
theorem passL_blk (lt : Nat → Nat → Bool) (stride : Nat) (hs : 0 < stride) (R : List Nat)
    (b : Nat) :
    blk (2 * stride) b (passL lt stride R) =
      List.merge (blk stride (2 * b) R) (blk stride (2 * b + 1) R) lt := by
  induction R using passL.induct lt stride generalizing b with
  | case1 R hc =>
    rcases hc with rfl | hc
    · rw [passL_nil]
      unfold blk
      simp
    · omega
  | case2 R hc ih =>
    rw [passL, if_neg hc]
    have hMlen : (List.merge (R.take stride) ((R.drop stride).take stride) lt).length
        = min (2 * stride) R.length := by
      rw [List.length_merge, List.length_take, List.length_take, List.length_drop]
      omega
    have hM0 : List.merge (R.take stride) ((R.drop stride).take stride) lt
        = List.merge (blk stride (2 * 0) R) (blk stride (2 * 0 + 1) R) lt := by
      unfold blk
      simp
    generalize List.merge (R.take stride) ((R.drop stride).take stride) lt = M at hMlen hM0 ⊢
    rcases Nat.le_total (2 * stride) R.length with hle | hle
    · have hlen2 : M.length = 2 * stride := by omega
      cases b with
      | zero =>
        rw [← hM0]
        unfold blk
        rw [Nat.zero_mul, List.drop_zero, ← hlen2, List.take_left]
      | succ b =>
        have hb := ih b
        rw [blk_drop, blk_drop] at hb
        rw [show 2 * (b + 1) = 2 * b + 2 by ring, show 2 * b + 2 + 1 = 2 * b + 1 + 2 by ring,
          ← hb]
        unfold blk
        rw [show (b + 1) * (2 * stride) = M.length + b * (2 * stride) by rw [hlen2]; ring,
          List.drop_append]
    · have hnil : R.drop (2 * stride) = [] := List.drop_eq_nil_of_le hle
      rw [hnil, passL_nil, List.append_nil]
      cases b with
      | zero =>
        rw [← hM0]
        unfold blk
        rw [Nat.zero_mul, List.drop_zero, List.take_of_length_le (by omega)]
      | succ b =>
        have h1 : 2 * stride ≤ (b + 1) * (2 * stride) :=
          Nat.le_mul_of_pos_left _ (Nat.succ_pos b)
        have h2 : 2 * (b + 1) * stride = (b + 1) * (2 * stride) := by ring
        have h3 : (2 * (b + 1) + 1) * stride = (b + 1) * (2 * stride) + stride := by ring
        rw [blk_eq_nil_of_le stride (2 * (b + 1)) R (by omega),
          blk_eq_nil_of_le stride (2 * (b + 1) + 1) R (by omega),
          blk_eq_nil_of_le (2 * stride) (b + 1) M (by omega), List.nil_merge]

theorem withKey_append (key : Nat → ℚ) (k : ℚ) (l1 l2 : List Nat) :
    withKey key k (l1 ++ l2) = withKey key k l1 ++ withKey key k l2 := by
  unfold withKey
  exact List.filter_append l1 l2

theorem passL_withKey_reverse (key : Nat → ℚ) (lt : Nat → Nat → Bool)
    (hlt : ∀ a b, lt a b = true ↔ key a < key b) (k : ℚ) (stride : Nat) (hs : 0 < stride)
    (R0 R : List Nat) (hsorted : BlocksSorted key stride R)
    (hrel : ∀ b, withKey key k (blk stride b R) = (withKey key k (blk stride b R0)).reverse)
    (b : Nat) :
    withKey key k (blk (2 * stride) b (passL lt stride R))
      = (withKey key k (blk (2 * stride) b R0)).reverse := by
  have hy : (blk stride (2 * b + 1) R).Pairwise (fun a b => key a ≤ key b) :=
    hsorted (2 * b + 1)
  rw [passL_blk lt stride hs R b,
    merge_withKey key lt hlt k (blk stride (2 * b) R) (blk stride (2 * b + 1) R) hy,
    hrel (2 * b + 1), hrel (2 * b), blk_two_mul, withKey_append, List.reverse_append]

theorem loopL_withKey_reverse (key : Nat → ℚ) (lt : Nat → Nat → Bool)
    (hlt : ∀ a b, lt a b = true ↔ key a < key b) (k : ℚ) (N stride : Nat) (hs : 0 < stride)
    (R0 R : List Nat) (hR : R.length ≤ N) (hlen : R0.length = R.length)
    (hsorted : BlocksSorted key stride R)
    (hrel : ∀ b, withKey key k (blk stride b R) = (withKey key k (blk stride b R0)).reverse) :
    withKey key k (loopL lt N stride hs R) = (withKey key k R0).reverse := by
  induction stride, hs, R using loopL.induct lt N with
  | case1 stride hs R hc ih =>
    rw [loopL, if_pos hc]
    apply ih
    · rw [passL_length]
      exact hR
    · rw [passL_length]
      exact hlen
    · rw [Nat.mul_comm]
      exact passL_blocksSorted key lt hlt stride hs R hsorted
    · intro b
      rw [Nat.mul_comm]
      exact passL_withKey_reverse key lt hlt k stride hs R0 R hsorted hrel b
  | case2 stride hs R hc =>
    rw [loopL, if_neg hc]
    have h0 := hrel 0
    unfold blk at h0
    rwa [Nat.zero_mul, List.drop_zero, List.drop_zero, List.take_of_length_le (by omega),
      List.take_of_length_le (by omega)] at h0

theorem reverse_of_length_le_one (l : List Nat) (h : l.length ≤ 1) : l.reverse = l := by
  match l, h with
  | [], _ => rfl
  | [a], _ => rfl

/-- List level: the passes of the merge sort from `stride = 1` leave the entries
of any one key in the reverse of their original order. -/
theorem loopL_reverses_ties (key : Nat → ℚ) (lt : Nat → Nat → Bool)
    (hlt : ∀ a b, lt a b = true ↔ key a < key b) (k : ℚ) (N : Nat) (R : List Nat)
    (hR : R.length ≤ N) :
    withKey key k (loopL lt N 1 (by decide) R) = (withKey key k R).reverse := by
  apply loopL_withKey_reverse key lt hlt k N 1 (by decide) R R hR rfl (blocksSorted_one key R)
  intro b
  symm
  apply reverse_of_length_le_one
  unfold withKey
  refine le_trans (List.length_filter_le _ _) ?_
  unfold blk
  rw [List.length_take]
  exact Nat.min_le_left _ _

theorem pair_sublist_of_reversed_ties (key : Nat → ℚ) (R0 out : List Nat)
    (hrev : ∀ k, withKey key k out = (withKey key k R0).reverse)
    (i j : Nat) (hij : i < j) (hj : j < R0.length)
    (hkey : key (R0.getD i 0) = key (R0.getD j 0)) :
    [R0.getD j 0, R0.getD i 0].Sublist out := by
  have hi : i < R0.length := by omega
  rw [getD_eq_getElem_of_lt R0 i hi, getD_eq_getElem_of_lt R0 j hj] at hkey ⊢
  have h1 : [R0[i], R0[j]].Sublist R0 := by
    have := @List.map_getElem_sublist Nat R0 [⟨i, hi⟩, ⟨j, hj⟩] (by simp [hij])
    simpa using this
  have h2 := (h1.filter (fun x => decide (key x = key R0[i]))).reverse
  have h3 : List.filter (fun x => decide (key x = key R0[i])) [R0[i], R0[j]]
      = [R0[i], R0[j]] := by
    rw [List.filter_eq_self]
    intro a ha
    rcases List.mem_cons.mp ha with rfl | ha
    · exact decide_eq_true rfl
    · rw [List.mem_singleton.mp ha]
      exact decide_eq_true hkey.symm
  rw [h3] at h2
  have h4 := hrev (key R0[i])
  unfold withKey at h4
  rw [← h4] at h2
  exact h2.trans (List.filter_sublist _)

theorem placePivot_getD (N s u : Nat) (hs : s < N) (hu : u < N) :
    (placePivot (initIndices N) s).getD u 0 = if u = s then 0 else if u = 0 then s else u := by
  unfold placePivot initIndices
  rw [List.getD_eq_getElem?_getD, List.getElem?_set, List.getElem?_set]
  by_cases h1 : u = s
  · subst h1
    simp [hu]
  · by_cases h2 : u = 0
    · subst h2
      have : ¬ s = 0 := fun h => h1 h.symm
      simp [this, h1, hs, hu]
    · have h3 : ¬ s = u := fun h => h1 h.symm
      have h4 : ¬ 0 = u := fun h => h2 h.symm
      simp [h1, h2, h3, h4, hu]

/-- C20 as stated fails on the code in its last clause: for the points
`(1,1),(2,2),(0,0)` the pivot is index 2, the indices 0 and 1 are collinear with
it and have equal keys, and they reach the hull scan in index order (0 before
1), not in the reverse of it. -/
theorem sort_ties_in_index_order :
    findStartIndex diagonalPivotLast = 2 ∧
    negRecipSlope diagonalPivotLast 2 0 = negRecipSlope diagonalPivotLast 2 1 ∧
    placePivot (initIndices 3) 2 = [2, 1, 0] ∧
    grahamSorted diagonalPivotLast = [2, 0, 1] := by
  decide!

/-- C20, amended: for an index array of length `N`, the entries of the cells
`1 .. N-1` that have one and the same key appear after `SortPointsByPolarAngle`
in the reverse of their order before it; so two entries of equal key at the
positions `1 ≤ i < j < N` come out in the opposite order, the one from `j`
before the one from `i` (the sort is not stable).  In the pipeline the array
before the sort is the identity with the cells `0` and `start_index` swapped:
two indices `u < v` of equal key, both other than `0` and `start_index`, reach
the hull scan in the reverse of index order (`v` before `u`), while index `0`,
which sits in cell `start_index`, comes before every index `v` below
`start_index` of the same key. -/
theorem sort_reverses_ties (pointPos : List Point) (hullVertIndices : List Nat) (N : Nat)
    (hA : hullVertIndices.length = N) :
    (∀ k, withKey (negRecipSlope pointPos (hullVertIndices.getD 0 0)) k
        ((SortPointsByPolarAngle pointPos hullVertIndices N).drop 1)
      = (withKey (negRecipSlope pointPos (hullVertIndices.getD 0 0)) k
          (hullVertIndices.drop 1)).reverse) ∧
    (∀ i j, 1 ≤ i → i < j → j < N →
      negRecipSlope pointPos (hullVertIndices.getD 0 0) (hullVertIndices.getD i 0)
        = negRecipSlope pointPos (hullVertIndices.getD 0 0) (hullVertIndices.getD j 0) →
      [hullVertIndices.getD j 0, hullVertIndices.getD i 0].Sublist
        ((SortPointsByPolarAngle pointPos hullVertIndices N).drop 1)) ∧
    (∀ s u v, hullVertIndices = placePivot (initIndices N) s → s < N →
      1 ≤ u → u < v → v < N → u ≠ s → v ≠ s →
      negRecipSlope pointPos s u = negRecipSlope pointPos s v →
      [v, u].Sublist ((SortPointsByPolarAngle pointPos hullVertIndices N).drop 1)) ∧
    (∀ s v, hullVertIndices = placePivot (initIndices N) s → s < N →
      1 ≤ v → v < s →
      negRecipSlope pointPos s 0 = negRecipSlope pointPos s v →
      [0, v].Sublist ((SortPointsByPolarAngle pointPos hullVertIndices N).drop 1)) := by
  have hrev : ∀ k, withKey (negRecipSlope pointPos (hullVertIndices.getD 0 0)) k
        ((SortPointsByPolarAngle pointPos hullVertIndices N).drop 1)
      = (withKey (negRecipSlope pointPos (hullVertIndices.getD 0 0)) k
          (hullVertIndices.drop 1)).reverse := by
    intro k
    rw [SortPointsByPolarAngle_eq pointPos hullVertIndices N hA]
    have hl := loopL_reverses_ties (negRecipSlope pointPos (hullVertIndices.getD 0 0))
      (cmp pointPos (hullVertIndices.getD 0 0)) (cmp_iff pointPos _) k N
      (hullVertIndices.drop 1) (by rw [List.length_drop]; omega)
    have hdrop : (hullVertIndices.take 1 ++ loopL (cmp pointPos (hullVertIndices.getD 0 0)) N 1
        (by decide) (hullVertIndices.drop 1)).drop 1
        = loopL (cmp pointPos (hullVertIndices.getD 0 0)) N 1 (by decide)
          (hullVertIndices.drop 1) := by
      apply (take_drop_of_append _ _ 1 _).2
      rcases Nat.eq_zero_or_pos hullVertIndices.length with h0 | h0
      · right
        have hnil : hullVertIndices = [] := List.length_eq_zero.mp h0
        refine ⟨by rw [hnil]; exact Nat.zero_le 1, ?_⟩
        have hp := (loopL_perm (cmp pointPos (hullVertIndices.getD 0 0)) N 1 (by decide)
          (hullVertIndices.drop 1)).length_eq
        rw [List.length_drop, h0] at hp
        exact List.length_eq_zero.mp hp
      · left
        rw [List.length_take]
        omega
    rw [hdrop]
    exact hl
  have hpair : ∀ i j, 1 ≤ i → i < j → j < N →
      negRecipSlope pointPos (hullVertIndices.getD 0 0) (hullVertIndices.getD i 0)
        = negRecipSlope pointPos (hullVertIndices.getD 0 0) (hullVertIndices.getD j 0) →
      [hullVertIndices.getD j 0, hullVertIndices.getD i 0].Sublist
        ((SortPointsByPolarAngle pointPos hullVertIndices N).drop 1) := by
    intro i j hi hij hj hkey
    have hd : ∀ n, (hullVertIndices.drop 1).getD n 0 = hullVertIndices.getD (n + 1) 0 := by
      intro n
      rw [List.getD_eq_getElem?_getD, List.getD_eq_getElem?_getD, List.getElem?_drop,
        Nat.add_comm]
    have := pair_sublist_of_reversed_ties _ (hullVertIndices.drop 1) _ hrev (i - 1) (j - 1)
      (by omega) (by rw [List.length_drop]; omega)
      (by rw [hd, hd, Nat.sub_add_cancel hi, Nat.sub_add_cancel (by omega : 1 ≤ j)]; exact hkey)
    rwa [hd, hd, Nat.sub_add_cancel hi, Nat.sub_add_cancel (by omega : 1 ≤ j)] at this
  refine ⟨hrev, hpair, ?_, ?_⟩
  · intro s u v hP hs hu huv hv hus hvs hkey
    have h0 : hullVertIndices.getD 0 0 = s := by
      rw [hP, placePivot_getD N s 0 hs (by omega)]
      by_cases h : 0 = s
      · rw [if_pos h, h]
      · rw [if_neg h, if_pos rfl]
    have gu : hullVertIndices.getD u 0 = u := by
      rw [hP, placePivot_getD N s u hs (by omega), if_neg hus, if_neg (by omega)]
    have gv : hullVertIndices.getD v 0 = v := by
      rw [hP, placePivot_getD N s v hs hv, if_neg hvs, if_neg (by omega)]
    have := hpair u v hu huv hv (by rw [h0, gu, gv]; exact hkey)
    rwa [gu, gv] at this
  · intro s v hP hs hv hvs hkey
    have h0 : hullVertIndices.getD 0 0 = s := by
      rw [hP, placePivot_getD N s 0 hs (by omega), if_neg (by omega), if_pos rfl]
    have gs : hullVertIndices.getD s 0 = 0 := by
      rw [hP, placePivot_getD N s s hs hs, if_pos rfl]
    have gv : hullVertIndices.getD v 0 = v := by
      rw [hP, placePivot_getD N s v hs (by omega), if_neg (by omega), if_neg (by omega)]
    have := hpair v s hv hvs hs (by rw [h0, gs, gv]; exact hkey.symm)
    rwa [gs, gv] at this

theorem sort_reverses_ties_witness :
    [2, 1, 0].length = 3 ∧
    [0, 1].Sublist ((SortPointsByPolarAngle diagonalPivotLast [2, 1, 0] 3).drop 1) :=
  ⟨by decide,
    (sort_reverses_ties diagonalPivotLast [2, 1, 0] 3 (by decide)).2.1 1 2 (by decide)
      (by decide) (by decide) (by decide!)⟩

/-! ## Reindexing the point set: C13 -/

theorem pt_eq_of_map_eq (pointPos pointPos' : List Point) (l l' : List Nat)
    (h : l.map (pt pointPos) = l'.map (pt pointPos')) (k : Nat) (hk : k < l.length) :
    pt pointPos (l.getD k 0) = pt pointPos' (l'.getD k 0) := by
  have hlen : l'.length = l.length := by
    have := congrArg List.length h
    rw [List.length_map, List.length_map] at this
    exact this.symm
  have h1 := congrArg (fun m => m[k]?) h
  dsimp only at h1
  rw [List.getElem?_map, List.getElem?_map, List.getElem?_eq_getElem hk,
    List.getElem?_eq_getElem (by omega : k < l'.length)] at h1
  rw [getD_eq_getElem_of_lt l k hk, getD_eq_getElem_of_lt l' k (by omega)]
  exact Option.some.inj h1

theorem cross_product_congr (pointPos pointPos' : List Point) (p q r p' q' r' : Nat)
    (hp : pt pointPos p = pt pointPos' p') (hq : pt pointPos q = pt pointPos' q')
    (hr : pt pointPos r = pt pointPos' r') :
    cross_product pointPos p q r = cross_product pointPos' p' q' r' := by
  have e1 : X pointPos p = X pointPos' p' := congrArg Prod.fst hp
  have e2 : Y pointPos p = Y pointPos' p' := congrArg Prod.snd hp
  have e3 : X pointPos q = X pointPos' q' := congrArg Prod.fst hq
  have e4 : Y pointPos q = Y pointPos' q' := congrArg Prod.snd hq
  have e5 : X pointPos r = X pointPos' r' := congrArg Prod.fst hr
  have e6 : Y pointPos r = Y pointPos' r' := congrArg Prod.snd hr
  unfold cross_product
  rw [e1, e2, e3, e4, e5, e6]

/-- The loop body sees the index array and the vector only through the points
of their entries. -/
theorem hullStep_congr (pointPos pointPos' : List Point) (A A' : List Nat) (N i : Nat)
    (vec vec' : List Nat) (hA : A.length = N)
    (hAA : A.map (pt pointPos) = A'.map (pt pointPos')) (hi : i < N)
    (hsize : 2 ≤ vec.length) (hv : vec.map (pt pointPos) = vec'.map (pt pointPos')) :
    (hullStep pointPos A i vec).1 = (hullStep pointPos' A' i vec').1 ∧
    (hullStep pointPos A i vec).2.map (pt pointPos)
      = (hullStep pointPos' A' i vec').2.map (pt pointPos') := by
  have hlen : vec'.length = vec.length := by
    have := congrArg List.length hv
    rw [List.length_map, List.length_map] at this
    exact this.symm
  have hr := pt_eq_of_map_eq pointPos pointPos' A A' hAA i (by omega)
  have hc : cross_product pointPos (vec.getD (vec.length - 2) 0)
        (vec.getD (vec.length - 1) 0) (A.getD i 0)
      = cross_product pointPos' (vec'.getD (vec'.length - 2) 0)
        (vec'.getD (vec'.length - 1) 0) (A'.getD i 0) := by
    rw [hlen]
    exact cross_product_congr pointPos pointPos' _ _ _ _ _ _
      (pt_eq_of_map_eq pointPos pointPos' vec vec' hv _ (by omega))
      (pt_eq_of_map_eq pointPos pointPos' vec vec' hv _ (by omega)) hr
  have hd : vec.dropLast.map (pt pointPos) = vec'.dropLast.map (pt pointPos') := by
    rw [List.map_dropLast, List.map_dropLast, hv]
  have hdl : vec'.dropLast.length = vec.dropLast.length := by
    rw [List.length_dropLast, List.length_dropLast, hlen]
  unfold hullStep
  dsimp only
  rw [← hc, hdl]
  split_ifs with c1 c2
  · refine ⟨rfl, ?_⟩
    dsimp only
    rw [List.map_append, List.map_append, hd, List.map_singleton, List.map_singleton, hr]
  · exact ⟨rfl, hd⟩
  · refine ⟨rfl, ?_⟩
    dsimp only
    rw [List.map_append, List.map_append, hv, List.map_singleton, List.map_singleton, hr]

theorem hullLoop_congr (pointPos pointPos' : List Point) (A A' : List Nat) (N : Nat)
    (hA : A.length = N) (hAA : A.map (pt pointPos) = A'.map (pt pointPos'))
    (i : Nat) (vec : List Nat) (hsize : 2 ≤ vec.length) (vec' : List Nat)
    (hsize' : 2 ≤ vec'.length) (hv : vec.map (pt pointPos) = vec'.map (pt pointPos')) :
    (hullLoop pointPos A N i vec hsize).map (pt pointPos)
      = (hullLoop pointPos' A' N i vec' hsize').map (pt pointPos') := by
  induction i, vec, hsize using hullLoop.induct pointPos A N generalizing vec' with
  | case1 i vec hsize hi ih =>
    obtain ⟨h1, h2⟩ := hullStep_congr pointPos pointPos' A A' N i vec vec' hA hAA hi hsize hv
    rw [hullLoop, if_pos hi, hullLoop.eq_1 pointPos' A' N i vec', if_pos hi]
    have := ih (hullStep pointPos' A' i vec').2 (by
      have hl := congrArg List.length h2
      rw [List.length_map, List.length_map] at hl
      rw [← hl]
      exact (hullStep_size_measure pointPos A N i vec hi hsize).1) h2
    rw [this]
    congr 2
  | case2 i vec hsize hi =>
    rw [hullLoop, if_neg hi, hullLoop.eq_1 pointPos' A' N i vec', if_neg hi]
    exact hv

/-- The hull scan sees its index array only through the points of its entries:
two runs on index arrays that list the same points return lists of the same
points. -/
theorem hullScan_congr (pointPos pointPos' : List Point) (A A' : List Nat) (N : Nat)
    (hN : 2 ≤ N) (hA : A.length = N)
    (hAA : A.map (pt pointPos) = A'.map (pt pointPos')) :
    (hullScan pointPos A N).map (pt pointPos) = (hullScan pointPos' A' N).map (pt pointPos') := by
  unfold hullScan
  apply hullLoop_congr pointPos pointPos' A A' N hA hAA
  simp only [List.map_cons, List.map_nil]
  rw [pt_eq_of_map_eq pointPos pointPos' A A' hAA 0 (by omega),
    pt_eq_of_map_eq pointPos pointPos' A A' hAA 1 (by omega)]

theorem map_pt_range (pointPos : List Point) :
    (List.range pointPos.length).map (pt pointPos) = pointPos := by
  apply List.ext_getElem
  · rw [List.length_map, List.length_range]
  · intro n h1 h2
    rw [List.getElem_map, List.getElem_range]
    unfold pt
    rw [List.getD_eq_getElem?_getD, List.getElem?_eq_getElem h2]
    rfl

theorem negRecipSlope_eq_keyP (pointPos : List Point) (s a : Nat) :
    negRecipSlope pointPos s a = keyP (pt pointPos s) (pt pointPos a) := rfl

theorem startScan_inv (pointPos : List Point) (hN : 0 < pointPos.length) :
    StartInv pointPos pointPos.length (startScan pointPos) := by
  have h := startFold_inv pointPos (pointPos.length - 1)
  rwa [show pointPos.length - 1 + 1 = pointPos.length by omega] at h

/-- The pivot is a point of the array that is lowest, and rightmost among the
lowest. -/
theorem pivot_extremal (pointPos : List Point) (hN : 0 < pointPos.length) :
    pt pointPos (findStartIndex pointPos) ∈ pointPos ∧
    ∀ P ∈ pointPos, (pt pointPos (findStartIndex pointPos)).2 ≤ P.2 ∧
      (P.2 = (pt pointPos (findStartIndex pointPos)).2 →
        P.1 ≤ (pt pointPos (findStartIndex pointPos)).1) := by
  obtain ⟨h1, _, h3, h4, _⟩ := startScan_inv pointPos hN
  have hs : findStartIndex pointPos < pointPos.length := h1
  refine ⟨?_, ?_⟩
  · unfold pt
    rw [List.getD_eq_getElem?_getD, List.getElem?_eq_getElem hs]
    exact List.getElem_mem _
  · intro P hP
    obtain ⟨n, hn, rfl⟩ := List.getElem_of_mem hP
    have e : pointPos[n] = pt pointPos n := by
      unfold pt
      rw [List.getD_eq_getElem?_getD, List.getElem?_eq_getElem hn]
      rfl
    rw [e]
    exact ⟨h3 n hn, h4 n hn⟩

/-- Two arrays that hold the same points, in whatever order, have the same pivot
point. -/
theorem pivot_point_perm (pointPos pointPos' : List Point) (hperm : pointPos'.Perm pointPos)
    (hN : 0 < pointPos.length) :
    pt pointPos' (findStartIndex pointPos') = pt pointPos (findStartIndex pointPos) := by
  have hN' : 0 < pointPos'.length := by
    rw [hperm.length_eq]
    exact hN
  obtain ⟨m1, e1⟩ := pivot_extremal pointPos hN
  obtain ⟨m2, e2⟩ := pivot_extremal pointPos' hN'
  obtain ⟨a1, a2⟩ := e1 _ (hperm.subset m2)
  obtain ⟨b1, b2⟩ := e2 _ (hperm.symm.subset m1)
  have hy := le_antisymm b1 a1
  have hx := le_antisymm (a2 hy) (b2 hy.symm)
  exact Prod.ext hx hy

/-- A list is determined by its multiset of entries and by the list of its keys,
when entries with the same key are equal. -/
theorem eq_of_perm_of_map_eq (f : Point → ℚ) (L L' : List Point) (hperm : L.Perm L')
    (hmap : L.map f = L'.map f) (hinj : ∀ P ∈ L, ∀ Q ∈ L, f P = f Q → P = Q) : L = L' := by
  induction L generalizing L' with
  | nil => exact hperm.symm.eq_nil.symm
  | cons a l ih =>
    match L', hperm, hmap with
    | [], hp, _ => exact absurd hp.eq_nil (List.cons_ne_nil a l)
    | a' :: l', hp, hm =>
      rw [List.map_cons, List.map_cons] at hm
      have hfa : f a = f a' := List.head_eq_of_cons_eq hm
      have htl : l.map f = l'.map f := List.tail_eq_of_cons_eq hm
      have haa : a' = a :=
        (hinj a (List.mem_cons_self a l) a' (hp.symm.subset (List.mem_cons_self a' l')) hfa).symm
      subst haa
      rw [ih l' hp.cons_inv htl
        (fun P hP Q hQ => hinj P (List.mem_cons_of_mem _ hP) Q (List.mem_cons_of_mem _ hQ))]

theorem grahamHull_eq (pointPos : List Point) :
    grahamHull pointPos = hullScan pointPos (grahamSorted pointPos) pointPos.length := rfl

/-- The array handed to the hull scan is the pivot followed by the other
indices in non-decreasing order of their keys. -/
theorem grahamSorted_structure (pointPos : List Point) (hN : 0 < pointPos.length) :
    ∃ T, grahamSorted pointPos = findStartIndex pointPos :: T ∧
      T.Perm ((List.range pointPos.length).erase (findStartIndex pointPos)) ∧
      T.Pairwise (fun a b => negRecipSlope pointPos (findStartIndex pointPos) a
        ≤ negRecipSlope pointPos (findStartIndex pointPos) b) := by
  have hs : findStartIndex pointPos < pointPos.length := (startScan_inv pointPos hN).1
  obtain ⟨hperm, h0⟩ := placePivot_range pointPos.length (findStartIndex pointPos) hs
  have hlen : (placePivot (initIndices pointPos.length) (findStartIndex pointPos)).length
      = pointPos.length := by
    rw [hperm.length_eq, List.length_range]
  unfold grahamSorted
  rw [SortPointsByPolarAngle_eq pointPos _ pointPos.length hlen]
  generalize placePivot (initIndices pointPos.length) (findStartIndex pointPos) = P
    at hperm h0 hlen
  match P, hlen, h0, hperm with
  | a :: t, hlen, h0, hperm =>
    have ha : a = findStartIndex pointPos := h0
    subst ha
    refine ⟨loopL (cmp pointPos ((findStartIndex pointPos :: t).getD 0 0)) pointPos.length 1
      (by decide) ((findStartIndex pointPos :: t).drop 1), rfl, ?_, ?_⟩
    · have h1 := loopL_perm (cmp pointPos ((findStartIndex pointPos :: t).getD 0 0))
        pointPos.length 1 (by decide) ((findStartIndex pointPos :: t).drop 1)
      have h2 := hperm.erase (findStartIndex pointPos)
      rw [List.erase_cons_head] at h2
      exact h1.trans h2
    · exact loopL_pairwise (negRecipSlope pointPos (findStartIndex pointPos))
        (cmp pointPos (findStartIndex pointPos)) (cmp_iff pointPos _) pointPos.length 1
        (by decide) t (by rw [← hlen]; exact Nat.lt_succ_self _) (blocksSorted_one _ _)
  | [], hlen, _, _ =>
    rw [List.length_nil] at hlen
    omega

/-- C13 as stated fails on the code: the points `(0,0),(1,1),(2,2),(0,3)` give
the hull `(0,0),(2,2),(0,3)`, and the same points with the indices 1 and 2
exchanged give the hull `(0,0),(1,1),(2,2),(0,3)`, which has the additional
point `(1,1)`. -/
theorem reindex_changes_hull_points :
    diagonalAndTopSwapped.Perm diagonalAndTop ∧
    (grahamHull diagonalAndTop).map (pt diagonalAndTop) = [(0, 0), (2, 2), (0, 3)] ∧
    (grahamHull diagonalAndTopSwapped).map (pt diagonalAndTopSwapped)
      = [(0, 0), (1, 1), (2, 2), (0, 3)] ∧
    (1, 1) ∉ (grahamHull diagonalAndTop).map (pt diagonalAndTop) ∧
    (1, 1) ∈ (grahamHull diagonalAndTopSwapped).map (pt diagonalAndTopSwapped) := by
  refine ⟨?_, by decide!, by decide!, by decide!, by decide!⟩
  exact List.Perm.cons _ (List.Perm.swap _ _ _)

theorem sorted_points_perm (pointPos : List Point) (T : List Nat)
    (hT : T.Perm ((List.range pointPos.length).erase (findStartIndex pointPos)))
    (hN : 0 < pointPos.length) :
    (pt pointPos (findStartIndex pointPos) :: T.map (pt pointPos)).Perm pointPos := by
  have hs : findStartIndex pointPos < pointPos.length := (startScan_inv pointPos hN).1
  have h1 : (findStartIndex pointPos :: T).Perm (List.range pointPos.length) :=
    (List.Perm.cons _ hT).trans (List.perm_cons_erase (List.mem_range.mpr hs)).symm
  have h2 := h1.map (pt pointPos)
  rwa [List.map_cons, map_pt_range] at h2

/-- The ties of C13 are ties of the keys as the source computes them: the points
`(0,0)`, `(2 + 2^-22, 6 + 2^-21)`, `(1, 3)` are in three different directions
from the pivot `(0,0)`, their binary32 keys are the same value, and the hull has
2 points in this index order and 3 points with the indices 1 and 2 exchanged. -/
theorem reindex_changes_hull_points_rounded :
    (reindexed roundedKeyPoints [0, 2, 1]).Perm roundedKeyPoints ∧
    exactKey roundedKeyPoints 0 1 ≠ exactKey roundedKeyPoints 0 2 ∧
    negRecipSlope roundedKeyPoints 0 1 = negRecipSlope roundedKeyPoints 0 2 ∧
    (grahamHull roundedKeyPoints).map (pt roundedKeyPoints)
      = [(0, 0), (2 + 1 / 2 ^ 22, 6 + 1 / 2 ^ 21)] ∧
    (grahamHull (reindexed roundedKeyPoints [0, 2, 1])).map
        (pt (reindexed roundedKeyPoints [0, 2, 1]))
      = [(0, 0), (2 + 1 / 2 ^ 22, 6 + 1 / 2 ^ 21), (1, 3)] := by
  refine ⟨?_, by decide!, by decide!, by decide!, by decide!⟩
  exact List.Perm.cons _ (List.Perm.swap _ _ _)

/-- Reindexing leaves the list of hull points unchanged when the only ties in
the comparator are between copies of one point: any two indices other than the
pivot that have the same key `negRecipSlope` hold the same point. -/
theorem grahamHull_reindex_of_ties (pointPos pointPos' : List Point)
    (hperm : pointPos'.Perm pointPos)
    (hties : ∀ i ∈ (List.range pointPos.length).erase (findStartIndex pointPos),
      ∀ j ∈ (List.range pointPos.length).erase (findStartIndex pointPos),
      negRecipSlope pointPos (findStartIndex pointPos) i
        = negRecipSlope pointPos (findStartIndex pointPos) j →
      pt pointPos i = pt pointPos j) :
    (grahamHull pointPos').map (pt pointPos') = (grahamHull pointPos).map (pt pointPos) := by
  rcases Nat.lt_or_ge pointPos.length 2 with hsmall | hN
  · -- fewer than two points: the two arrays are equal
    have heq : pointPos' = pointPos := by
      match pointPos, hperm, hsmall with
      | [], hp, _ => exact hp.eq_nil
      | [a], hp, _ => exact List.perm_singleton.mp hp
      | _ :: _ :: _, _, h => exact absurd h (by simp)
    rw [heq]
  · have hlen : pointPos'.length = pointPos.length := hperm.length_eq
    have hN0 : 0 < pointPos.length := by omega
    have hN0' : 0 < pointPos'.length := by omega
    obtain ⟨T, hA, hTperm, hTsorted⟩ := grahamSorted_structure pointPos hN0
    obtain ⟨T', hA', hTperm', hTsorted'⟩ := grahamSorted_structure pointPos' hN0'
    have hpivot := pivot_point_perm pointPos pointPos' hperm hN0
    -- the two tails list the same points
    have hp1 := sorted_points_perm pointPos T hTperm hN0
    have hp2 := sorted_points_perm pointPos' T' hTperm' hN0'
    rw [hpivot] at hp2
    have hLL : (T'.map (pt pointPos')).Perm (T.map (pt pointPos)) :=
      (hp2.trans (hperm.trans hp1.symm)).cons_inv
    -- both are sorted by the same key
    have hk1 : (T.map (pt pointPos)).map (keyP (pt pointPos (findStartIndex pointPos)))
        = T.map (negRecipSlope pointPos (findStartIndex pointPos)) := by
      rw [List.map_map]
      rfl
    have hk2 : (T'.map (pt pointPos')).map (keyP (pt pointPos (findStartIndex pointPos)))
        = T'.map (negRecipSlope pointPos' (findStartIndex pointPos')) := by
      rw [List.map_map, ← hpivot]
      rfl
    have hs1 : (T.map (negRecipSlope pointPos (findStartIndex pointPos))).Sorted (· ≤ ·) :=
      List.pairwise_map.mpr hTsorted
    have hs2 : (T'.map (negRecipSlope pointPos' (findStartIndex pointPos'))).Sorted (· ≤ ·) :=
      List.pairwise_map.mpr hTsorted'
    have hkeq : (T'.map (pt pointPos')).map (keyP (pt pointPos (findStartIndex pointPos)))
        = (T.map (pt pointPos)).map (keyP (pt pointPos (findStartIndex pointPos))) := by
      haveI : IsAntisymm ℚ (fun x1 x2 => x1 ≤ x2) := ⟨fun _ _ => le_antisymm⟩
      rw [hk1, hk2]
      exact List.eq_of_perm_of_sorted (hk2 ▸ hk1 ▸ hLL.map _) hs2 hs1
    have hinj : ∀ P ∈ T.map (pt pointPos), ∀ Q ∈ T.map (pt pointPos),
        keyP (pt pointPos (findStartIndex pointPos)) P
          = keyP (pt pointPos (findStartIndex pointPos)) Q → P = Q := by
      intro P hP Q hQ hPQ
      obtain ⟨i, hi, rfl⟩ := List.mem_map.mp hP
      obtain ⟨j, hj, rfl⟩ := List.mem_map.mp hQ
      exact hties i (hTperm.subset hi) j (hTperm.subset hj) hPQ
    have hTT := (eq_of_perm_of_map_eq _ _ _ hLL.symm hkeq.symm hinj).symm
    -- so the two scans run on the same list of points
    rw [grahamHull_eq, grahamHull_eq, hA, hA', hlen]
    apply hullScan_congr pointPos' pointPos _ _ pointPos.length hN
    · rw [List.length_cons, hTperm'.length_eq, hlen]
      have hs : findStartIndex pointPos' < pointPos'.length := (startScan_inv pointPos' hN0').1
      have hmem : findStartIndex pointPos' ∈ List.range pointPos.length := by
        rw [List.mem_range, ← hlen]
        exact hs
      rw [List.length_erase_of_mem hmem, List.length_range]
      omega
    · rw [List.map_cons, List.map_cons, hpivot, hTT]


/-- C13, amended: when no two indices other than the pivot have the same key
`negRecipSlope`, the binary32 value that the source computes (no two points are
tied in the comparator), reindexing the point set by any permutation leaves the
list of hull points, in order, unchanged. -/
theorem grahamHull_reindex (pointPos pointPos' : List Point)
    (hperm : pointPos'.Perm pointPos)
    (hkeys : (((List.range pointPos.length).erase (findStartIndex pointPos)).map
      (negRecipSlope pointPos (findStartIndex pointPos))).Nodup) :
    (grahamHull pointPos').map (pt pointPos') = (grahamHull pointPos).map (pt pointPos) := by
  apply grahamHull_reindex_of_ties pointPos pointPos' hperm
  intro i hi j hj hij
  rw [List.inj_on_of_nodup_map hkeys hi hj hij]

theorem grahamHull_reindex_witness :
    [((0 : ℚ), (0 : ℚ)), (0, 4), (4, 4), (4, 1)].Perm squareCornersSkew ∧
    (grahamHull [(0, 0), (0, 4), (4, 4), (4, 1)]).map (pt [(0, 0), (0, 4), (4, 4), (4, 1)])
      = (grahamHull squareCornersSkew).map (pt squareCornersSkew) :=
  ⟨by decide, grahamHull_reindex squareCornersSkew [(0, 0), (0, 4), (4, 4), (4, 1)]
    (by decide) (by decide!)⟩

/-! ## No out-of-bounds access: C15 -/

theorem rd_nat (l : List Nat) (i : Nat) (h : i < l.length) : rd l i = some (l.getD i 0) := by
  unfold rd
  rw [List.getD_eq_getElem?_getD, List.getElem?_eq_getElem h]
  rfl

theorem rd_pt (pointPos : List Point) (i : Nat) (h : i < pointPos.length) :
    rd pointPos i = some (pt pointPos i) := by
  unfold rd pt
  rw [List.getD_eq_getElem?_getD, List.getElem?_eq_getElem h]
  rfl

theorem wr_of_lt (l : List Nat) (i v : Nat) (h : i < l.length) :
    wr l i v = some (l.set i v) := by
  unfold wr
  rw [if_pos h]

theorem getD_mem_of_lt (l : List Nat) (i : Nat) (h : i < l.length) : l.getD i 0 ∈ l := by
  rw [getD_eq_getElem_of_lt l i h]
  exact List.getElem_mem _

theorem startStepC_eq (pointPos : List Point) (st : StartState) (i : Nat)
    (hi : i < pointPos.length) (hs : st.start_index < pointPos.length) :
    startStepC pointPos st i = some (startStep pointPos st i) := by
  unfold startStepC startStep
  rw [rd_pt pointPos i hi]
  dsimp only
  rw [rd_pt pointPos st.start_index hs]
  dsimp only
  show (if Y pointPos i > st.lowest_y then some st
    else if Y pointPos i < st.lowest_y then
      some { start_index := i, lowest_y := Y pointPos i }
    else if Y pointPos i = st.lowest_y ∧ X pointPos i > X pointPos st.start_index then
      some { st with start_index := i }
    else some st) = _
  split_ifs <;> rfl

theorem startFoldC_eq (pointPos : List Point) (k : Nat) (hk : k + 1 ≤ pointPos.length) :
    (List.range' 1 k).foldlM (startStepC pointPos)
        { start_index := 0, lowest_y := Y pointPos 0 }
      = some ((List.range' 1 k).foldl (startStep pointPos)
        { start_index := 0, lowest_y := Y pointPos 0 }) := by
  induction k with
  | zero => rfl
  | succ k ih =>
    rw [List.range'_1_concat, List.foldlM_append, List.foldl_append, ih (by omega)]
    have hinv := (startFold_inv pointPos k).1
    simp only [List.foldlM_cons, List.foldlM_nil, List.foldl_cons, List.foldl_nil,
      Option.bind_eq_bind, Option.some_bind, bind_pure]
    exact startStepC_eq pointPos _ (1 + k) (by omega) (by omega)

theorem startScanC_eq (pointPos : List Point) (hN : 0 < pointPos.length) :
    startScanC pointPos = some (startScan pointPos) := by
  unfold startScanC startScan
  rw [rd_pt pointPos 0 hN]
  exact startFoldC_eq pointPos (pointPos.length - 1) (by omega)

theorem placePivotC_eq (A : List Nat) (s : Nat) (hs : s < A.length) :
    placePivotC A s = some (placePivot A s) := by
  unfold placePivotC placePivot
  rw [wr_of_lt A 0 s (by omega)]
  dsimp only
  rw [wr_of_lt _ s 0 (by rw [List.length_set]; exact hs)]

theorem cmpC_eq (pointPos : List Point) (basePoint a b : Nat)
    (hbase : basePoint < pointPos.length) (ha : a < pointPos.length)
    (hb : b < pointPos.length) :
    cmpC pointPos basePoint a b = some (cmp pointPos basePoint a b) := by
  unfold cmpC
  rw [rd_pt pointPos a ha, rd_pt pointPos basePoint hbase, rd_pt pointPos b hb]
  rfl

theorem mergeBothC_eq (ltC : Nat → Nat → Option Bool) (lt : Nat → Nat → Bool)
    (A : List Nat) (N stride i : Nat) (hA : A.length = N)
    (hlt : ∀ a b, a ∈ A → b ∈ A → ltC a b = some (lt a b)) (s : MergeState)
    (hT : s.index + (seg A s.firstHalf (i + stride)).length
        + (seg A s.secondHalf (i + 2 * stride)).length ≤ s.temp.length) :
    mergeBothC ltC A N stride i s = some (mergeBoth lt A N stride i s) ∧
    (mergeBoth lt A N stride i s).index
        + (seg A (mergeBoth lt A N stride i s).firstHalf (i + stride)).length
        + (seg A (mergeBoth lt A N stride i s).secondHalf (i + 2 * stride)).length
      ≤ (mergeBoth lt A N stride i s).temp.length := by
  induction s using mergeBoth.induct lt A N stride i with
  | case1 s hc hl ih =>
    have hseg1 := seg_cons A s.firstHalf (i + stride) hc.1 (by omega)
    rw [hseg1] at hT
    simp only [List.length_cons] at hT
    have ih0 := ih (by
      dsimp only
      rw [List.length_set]
      omega)
    rw [mergeBothC, if_pos hc, rd_nat A _ (by omega), rd_nat A _ (by omega)]
    dsimp only
    rw [hlt _ _ (getD_mem_of_lt A _ (by omega)) (getD_mem_of_lt A _ (by omega)), hl]
    dsimp only
    rw [wr_of_lt _ _ _ (by omega)]
    dsimp only
    rw [mergeBoth, if_pos hc, if_pos hl]
    exact ih0
  | case2 s hc hl ih =>
    have hseg2 := seg_cons A s.secondHalf (i + 2 * stride) hc.2.2.1 (by omega)
    rw [hseg2] at hT
    simp only [List.length_cons] at hT
    have ih0 := ih (by
      dsimp only
      rw [List.length_set]
      omega)
    rw [mergeBothC, if_pos hc, rd_nat A _ (by omega), rd_nat A _ (by omega)]
    dsimp only
    rw [hlt _ _ (getD_mem_of_lt A _ (by omega)) (getD_mem_of_lt A _ (by omega)),
      Bool.eq_false_iff.mpr hl]
    dsimp only
    rw [wr_of_lt _ _ _ (by omega)]
    dsimp only
    rw [mergeBoth, if_pos hc, if_neg hl]
    exact ih0
  | case3 s hc =>
    rw [mergeBothC, if_neg hc, mergeBoth, if_neg hc]
    exact ⟨rfl, hT⟩

theorem dumpFirstC_eq (A : List Nat) (N stride i : Nat) (hA : A.length = N) (s : MergeState)
    (hT : s.index + (seg A s.firstHalf (i + stride)).length ≤ s.temp.length) :
    dumpFirstC A N stride i s = some (dumpFirst A N stride i s) := by
  induction s using dumpFirst.induct A N stride i with
  | case1 s hc ih =>
    have hseg := seg_cons A s.firstHalf (i + stride) hc.1 (by omega)
    rw [hseg] at hT
    simp only [List.length_cons] at hT
    have ih0 := ih (by
      dsimp only
      rw [List.length_set]
      omega)
    rw [dumpFirstC, if_pos hc, rd_nat A _ (by omega)]
    dsimp only
    rw [wr_of_lt _ _ _ (by omega)]
    dsimp only
    rw [dumpFirst, if_pos hc]
    exact ih0
  | case2 s hc =>
    rw [dumpFirstC, if_neg hc, dumpFirst, if_neg hc]

theorem dumpSecondC_eq (A : List Nat) (N stride i : Nat) (hA : A.length = N) (s : MergeState)
    (hT : s.index + (seg A s.secondHalf (i + 2 * stride)).length ≤ s.temp.length) :
    dumpSecondC A N stride i s = some (dumpSecond A N stride i s) := by
  induction s using dumpSecond.induct A N stride i with
  | case1 s hc ih =>
    have hseg := seg_cons A s.secondHalf (i + 2 * stride) hc.1 (by omega)
    rw [hseg] at hT
    simp only [List.length_cons] at hT
    have ih0 := ih (by
      dsimp only
      rw [List.length_set]
      omega)
    rw [dumpSecondC, if_pos hc, rd_nat A _ (by omega)]
    dsimp only
    rw [wr_of_lt _ _ _ (by omega)]
    dsimp only
    rw [dumpSecond, if_pos hc]
    exact ih0
  | case2 s hc =>
    rw [dumpSecondC, if_neg hc, dumpSecond, if_neg hc]

theorem copyBackC_eq (temp : List Nat) (N stride i : Nat) (hT : temp.length = N)
    (j : Nat) (A : List Nat) (hA : A.length = N) :
    copyBackC temp N stride i j A = some (copyBack temp N stride i j A) := by
  induction j, A using copyBack.induct temp N stride i with
  | case1 j A hc ih =>
    rw [copyBackC, if_pos hc, rd_nat temp _ (by omega)]
    dsimp only
    rw [wr_of_lt _ _ _ (by omega)]
    dsimp only
    rw [copyBack, if_pos hc]
    exact ih (by rw [List.length_set]; exact hA)
  | case2 j A hc =>
    rw [copyBackC, if_neg hc, copyBack, if_neg hc]

theorem seg_subset (A : List Nat) (a b x : Nat) (h : x ∈ seg A a b) : x ∈ A := by
  unfold seg at h
  exact List.mem_of_mem_drop (List.mem_of_mem_take h)

theorem seg_pair_length (A : List Nat) (N stride i : Nat) (hA : A.length = N) :
    (seg A i (i + stride)).length + (seg A (i + stride) (i + 2 * stride)).length
      = min (2 * stride) (N - i) := by
  rw [seg_length, seg_length, hA]
  omega

/-- One block keeps the lengths of both arrays and the entries of the index
array. -/
theorem mergeBlock_props (lt : Nat → Nat → Bool) (N stride i : Nat) (A temp : List Nat)
    (hA : A.length = N) (hT : temp.length = N) (hi : i < N) :
    (mergeBlock lt N stride i A temp).1.length = N ∧
    (mergeBlock lt N stride i A temp).2.length = N ∧
    ∀ x ∈ (mergeBlock lt N stride i A temp).1, x ∈ A := by
  obtain ⟨hb1, hb2⟩ := mergeBlock_spec lt N stride i A temp hA hT hi
  have hlen := seg_pair_length A N stride i hA
  refine ⟨?_, hb2, ?_⟩
  · rw [hb1]
    simp only [List.length_append, List.length_take, List.length_drop, List.length_merge]
    omega
  · intro x hx
    rw [hb1] at hx
    rcases List.mem_append.mp hx with h | h
    · rcases List.mem_append.mp h with h | h
      · exact List.mem_of_mem_take h
      · rcases List.mem_merge.mp h with h | h
        · exact seg_subset A _ _ x h
        · exact seg_subset A _ _ x h
    · exact List.mem_of_mem_drop h

theorem mergeBlockC_eq (ltC : Nat → Nat → Option Bool) (lt : Nat → Nat → Bool)
    (N stride i : Nat) (A temp : List Nat) (hA : A.length = N) (hT : temp.length = N)
    (hi : i < N) (hlt : ∀ a b, a ∈ A → b ∈ A → ltC a b = some (lt a b)) :
    mergeBlockC ltC N stride i A temp = some (mergeBlock lt N stride i A temp) := by
  have hlen := seg_pair_length A N stride i hA
  obtain ⟨e1, inv1⟩ := mergeBothC_eq ltC lt A N stride i hA hlt
    { index := i, firstHalf := i, secondHalf := i + stride, temp := temp } (by
      dsimp only
      omega)
  have e2 := dumpFirstC_eq A N stride i hA _ (Nat.le_trans (Nat.le_add_right _ _) inv1)
  obtain ⟨d1, d2, d3⟩ := dumpFirst_spec A N stride i hA _
    (Nat.le_trans (Nat.le_add_right _ _) inv1)
  have e3 := dumpSecondC_eq A N stride i hA
    (dumpFirst A N stride i (mergeBoth lt A N stride i
      { index := i, firstHalf := i, secondHalf := i + stride, temp := temp })) (by
      rw [d1, d2, d3]
      simp only [List.length_append, List.length_take, List.length_drop]
      omega)
  have h3 : (dumpSecond A N stride i (dumpFirst A N stride i (mergeBoth lt A N stride i
      { index := i, firstHalf := i, secondHalf := i + stride, temp := temp }))).temp.length
      = N := (mergeBlock_spec lt N stride i A temp hA hT hi).2
  have e4 := copyBackC_eq _ N stride i h3 i A hA
  unfold mergeBlockC
  rw [e1]
  dsimp only
  rw [e2]
  dsimp only
  rw [e3]
  dsimp only
  rw [e4]
  rfl

theorem sortPassC_eq (ltC : Nat → Nat → Option Bool) (lt : Nat → Nat → Bool)
    (n N stride : Nat) (hs : 0 < stride)
    (hlt : ∀ a b, a < n → b < n → ltC a b = some (lt a b))
    (i : Nat) (A temp : List Nat) (hA : A.length = N) (hT : temp.length = N)
    (hb : ∀ x ∈ A, x < n) :
    sortPassC ltC N stride hs i A temp = some (sortPass lt N stride hs i A temp) := by
  induction i, A, temp using sortPass.induct lt N stride hs with
  | case1 i A temp hi ih =>
    obtain ⟨p1, p2, p3⟩ := mergeBlock_props lt N stride i A temp hA hT hi
    rw [sortPassC, if_pos hi, mergeBlockC_eq ltC lt N stride i A temp hA hT hi
      (fun a b ha hb' => hlt a b (hb a ha) (hb b hb'))]
    dsimp only
    rw [sortPass, if_pos hi]
    exact ih p1 p2 (fun x hx => hb x (p3 x hx))
  | case2 i A temp hi =>
    rw [sortPassC, if_neg hi, sortPass, if_neg hi]

/-- One pass keeps the lengths of both arrays and the entries of the index
array. -/
theorem sortPass_props (lt : Nat → Nat → Bool) (N stride : Nat) (hs : 0 < stride)
    (A temp : List Nat) (hA : A.length = N) (hT : temp.length = N) :
    (sortPass lt N stride hs 1 A temp).1.length = N ∧
    (sortPass lt N stride hs 1 A temp).2.length = N ∧
    ∀ x ∈ (sortPass lt N stride hs 1 A temp).1, x ∈ A := by
  obtain ⟨hp1, hp2⟩ := sortPass_spec lt N stride hs 1 A temp hA hT
  have hperm : (sortPass lt N stride hs 1 A temp).1.Perm A := by
    rw [hp1]
    have := List.Perm.append (List.Perm.refl (A.take 1)) (passL_perm lt stride (A.drop 1))
    rwa [List.take_append_drop] at this
  exact ⟨by rw [hperm.length_eq, hA], hp2, fun x hx => hperm.subset hx⟩

theorem sortLoopC_eq (ltC : Nat → Nat → Option Bool) (lt : Nat → Nat → Bool)
    (n N stride : Nat) (hs : 0 < stride)
    (hlt : ∀ a b, a < n → b < n → ltC a b = some (lt a b))
    (A temp : List Nat) (hA : A.length = N) (hT : temp.length = N)
    (hb : ∀ x ∈ A, x < n) :
    sortLoopC ltC N stride hs A temp = some (sortLoop lt N stride hs A temp) := by
  induction stride, hs, A, temp using sortLoop.induct lt N with
  | case1 stride hs A temp hc ih =>
    obtain ⟨p1, p2, p3⟩ := sortPass_props lt N stride hs A temp hA hT
    rw [sortLoopC, if_pos hc, sortPassC_eq ltC lt n N stride hs hlt 1 A temp hA hT hb]
    dsimp only
    rw [sortLoop, if_pos hc]
    exact ih p1 p2 (fun x hx => hb x (p3 x hx))
  | case2 stride hs A temp hc =>
    rw [sortLoopC, if_neg hc, sortLoop, if_neg hc]

theorem SortPointsByPolarAngleC_eq (pointPos : List Point) (A : List Nat) (N : Nat)
    (hN : 0 < N) (hA : A.length = N) (hb : ∀ x ∈ A, x < pointPos.length) :
    SortPointsByPolarAngleC pointPos A N = some (SortPointsByPolarAngle pointPos A N) := by
  unfold SortPointsByPolarAngleC SortPointsByPolarAngle
  rw [rd_nat A 0 (by omega)]
  dsimp only
  have hbase : A.getD 0 0 < pointPos.length := hb _ (getD_mem_of_lt A 0 (by omega))
  exact sortLoopC_eq _ _ pointPos.length N 1 _
    (fun a b ha hb' => cmpC_eq pointPos _ a b hbase ha hb') A _ hA
    (List.length_replicate _ _) hb

theorem hullStepC_eq (pointPos : List Point) (arr : List Nat) (i : Nat) (vec : List Nat)
    (hsize : 2 ≤ vec.length) (hi : i < arr.length)
    (hv : ∀ x ∈ vec, x < pointPos.length) (ha : ∀ x ∈ arr, x < pointPos.length) :
    hullStepC pointPos arr i vec = some (hullStep pointPos arr i vec) := by
  have hcp : ∀ p q r, cross_product pointPos p q r
      = crossP (pt pointPos p) (pt pointPos q) (pt pointPos r) := fun _ _ _ => rfl
  unfold hullStepC hullStep
  rw [if_pos hsize, rd_nat vec _ (by omega), rd_nat vec _ (by omega), rd_nat arr i hi]
  dsimp only
  rw [rd_pt pointPos _ (hv _ (getD_mem_of_lt vec _ (by omega))),
    rd_pt pointPos _ (hv _ (getD_mem_of_lt vec _ (by omega))),
    rd_pt pointPos _ (ha _ (getD_mem_of_lt arr i hi))]
  dsimp only
  rw [hcp]
  split_ifs <;> rfl

theorem hullStep_mem (pointPos : List Point) (arr : List Nat) (i : Nat) (vec : List Nat)
    (x : Nat) (hx : x ∈ (hullStep pointPos arr i vec).2) : x ∈ vec ∨ x = arr.getD i 0 := by
  unfold hullStep at hx
  dsimp only at hx
  split_ifs at hx
  · rcases List.mem_append.mp hx with h | h
    · exact Or.inl ((List.dropLast_sublist vec).subset h)
    · exact Or.inr (List.mem_singleton.mp h)
  · exact Or.inl ((List.dropLast_sublist vec).subset hx)
  · rcases List.mem_append.mp hx with h | h
    · exact Or.inl h
    · exact Or.inr (List.mem_singleton.mp h)

theorem hullLoopC_eq (pointPos : List Point) (arr : List Nat) (N : Nat)
    (hA : arr.length = N) (ha : ∀ x ∈ arr, x < pointPos.length)
    (i : Nat) (vec : List Nat) (hsize : 2 ≤ vec.length)
    (hv : ∀ x ∈ vec, x < pointPos.length) :
    hullLoopC pointPos arr N i vec = some (hullLoop pointPos arr N i vec hsize) := by
  induction i, vec, hsize using hullLoop.induct pointPos arr N with
  | case1 i vec hsize hi ih =>
    have hstep := hullStepC_eq pointPos arr i vec hsize (by omega) hv ha
    rw [hullLoopC, if_pos hi, hullLoop, if_pos hi]
    split
    · rename_i h
      rw [hstep] at h
      cases h
    · rename_i st h
      rw [hstep] at h
      cases h
      apply ih
      intro x hx
      rcases hullStep_mem pointPos arr i vec x hx with h | h
      · exact hv x h
      · rw [h]
        exact ha _ (getD_mem_of_lt arr i (by omega))
  | case2 i vec hsize hi =>
    rw [hullLoopC, if_neg hi, hullLoop, if_neg hi]

theorem hullScanC_eq (pointPos : List Point) (arr : List Nat) (N : Nat) (hN : 2 ≤ N)
    (hA : arr.length = N) (ha : ∀ x ∈ arr, x < pointPos.length) :
    hullScanC pointPos arr N = some (hullScan pointPos arr N) := by
  unfold hullScanC hullScan
  rw [rd_nat arr 0 (by omega), rd_nat arr 1 (by omega)]
  dsimp only
  apply hullLoopC_eq pointPos arr N hA ha
  intro x hx
  rcases List.mem_cons.mp hx with h | h
  · rw [h]
    exact ha _ (getD_mem_of_lt arr 0 (by omega))
  · rw [List.mem_singleton.mp h]
    exact ha _ (getD_mem_of_lt arr 1 (by omega))

/-- The vector returned by the scan has between 2 and `N` entries, all of them
entries of the index array. -/
theorem hullScan_props (pointPos : List Point) (arr : List Nat) (N : Nat) (hN : 2 ≤ N)
    (hA : arr.length = N) :
    2 ≤ (hullScan pointPos arr N).length ∧ (hullScan pointPos arr N).length ≤ N ∧
    ∀ x ∈ hullScan pointPos arr N, x ∈ arr := by
  obtain ⟨j, h1, h2, h3, h4⟩ := hullLoop_invariant pointPos arr N
    (fun i vec => 2 ≤ vec.length ∧ vec.length ≤ i ∧ i ≤ N ∧ ∀ x ∈ vec, x ∈ arr)
    (by
      intro i vec hi _ h _ h1
      refine ⟨?_, ?_, by omega, ?_⟩
      · rw [List.length_append, List.length_singleton, h1]
      · rw [List.length_append, List.length_singleton, h1]
        omega
      · intro x hx
        rcases List.mem_append.mp hx with hx | hx
        · exact h.2.2.2 x ((List.dropLast_sublist vec).subset hx)
        · rw [List.mem_singleton.mp hx]
          exact getD_mem_of_lt arr i (by omega))
    (by
      intro i vec hi _ h _ h1
      rw [List.length_dropLast] at h1 ⊢
      exact ⟨by omega, by omega, by omega,
        fun x hx => h.2.2.2 x ((List.dropLast_sublist vec).subset hx)⟩)
    (by
      intro i vec hi _ h _
      refine ⟨?_, ?_, by omega, ?_⟩
      · rw [List.length_append, List.length_singleton]
        omega
      · rw [List.length_append, List.length_singleton]
        omega
      · intro x hx
        rcases List.mem_append.mp hx with hx | hx
        · exact h.2.2.2 x hx
        · rw [List.mem_singleton.mp hx]
          exact getD_mem_of_lt arr i (by omega))
    2 [arr.getD 0 0, arr.getD 1 0] (Nat.le_refl 2)
    ⟨Nat.le_refl 2, Nat.le_refl 2, hN, by
      intro x hx
      rcases List.mem_cons.mp hx with h | h
      · rw [h]
        exact getD_mem_of_lt arr 0 (by omega)
      · rw [List.mem_singleton.mp h]
        exact getD_mem_of_lt arr 1 (by omega)⟩
  exact ⟨h1, le_trans h2 h3, h4⟩

theorem writeBackFold_eq (vec arr : List Nat) (hlen : vec.length ≤ arr.length) (k : Nat)
    (hk : k ≤ vec.length) :
    (List.range k).foldlM
        (fun a i =>
          match rd vec i with
          | none => none
          | some v => wr a i v) arr
      = some ((List.range k).foldl (fun a i => a.set i (vec.getD i 0)) arr) ∧
    ((List.range k).foldl (fun a i => a.set i (vec.getD i 0)) arr).length = arr.length ∧
    ∀ x ∈ (List.range k).foldl (fun a i => a.set i (vec.getD i 0)) arr, x ∈ vec ∨ x ∈ arr := by
  induction k with
  | zero => exact ⟨rfl, rfl, fun x hx => Or.inr hx⟩
  | succ k ih =>
    obtain ⟨e1, e2, e3⟩ := ih (by omega)
    rw [List.range_succ, List.foldlM_append, List.foldl_append, e1]
    simp only [List.foldlM_cons, List.foldlM_nil, List.foldl_cons, List.foldl_nil,
      Option.bind_eq_bind, Option.some_bind, bind_pure]
    rw [rd_nat vec k (by omega)]
    dsimp only
    rw [wr_of_lt _ k _ (by omega)]
    refine ⟨rfl, by rw [List.length_set]; exact e2, ?_⟩
    intro x hx
    rcases List.mem_or_eq_of_mem_set hx with h | h
    · exact e3 x h
    · rw [h]
      exact Or.inl (getD_mem_of_lt vec k (by omega))

theorem writeBackC_eq (vec arr : List Nat) (hlen : vec.length ≤ arr.length) :
    writeBackC vec arr = some (writeBack vec arr) ∧
    (writeBack vec arr).length = arr.length ∧
    ∀ x ∈ writeBack vec arr, x ∈ vec ∨ x ∈ arr :=
  writeBackFold_eq vec arr hlen vec.length (Nat.le_refl _)

theorem furthestStepC_eq (pointPos : List Point) (arr : List Nat) (i j : Nat)
    (st : FurthestState) (hi : i < arr.length) (hj : j < arr.length)
    (ha : ∀ x ∈ arr, x < pointPos.length) :
    furthestStepC pointPos arr i st j = some (furthestStep pointPos arr i st j) := by
  have hd : dst pointPos arr i j
      = dstP (pt pointPos (arr.getD i 0)) (pt pointPos (arr.getD j 0)) := rfl
  unfold furthestStepC furthestStep
  rw [rd_nat arr i hi, rd_nat arr j hj]
  dsimp only
  rw [rd_pt pointPos _ (ha _ (getD_mem_of_lt arr i hi)),
    rd_pt pointPos _ (ha _ (getD_mem_of_lt arr j hj))]
  dsimp only
  rw [hd]
  split_ifs <;> rfl

theorem furthestRowFold_eq (pointPos : List Point) (arr : List Nat) (i : Nat)
    (st : FurthestState) (ha : ∀ x ∈ arr, x < pointPos.length) (n : Nat)
    (hn : i + n ≤ arr.length) :
    (List.range' i n).foldlM (furthestStepC pointPos arr i) st
      = some ((List.range' i n).foldl (furthestStep pointPos arr i) st) := by
  induction n with
  | zero => rfl
  | succ n ih =>
    rw [List.range'_1_concat, List.foldlM_append, List.foldl_append, ih (by omega)]
    simp only [List.foldlM_cons, List.foldlM_nil, List.foldl_cons, List.foldl_nil,
      Option.bind_eq_bind, Option.some_bind, bind_pure]
    exact furthestStepC_eq pointPos arr i (i + n) _ (by omega) (by omega) ha

theorem furthestRowC_eq (pointPos : List Point) (arr : List Nat) (M i : Nat)
    (st : FurthestState) (ha : ∀ x ∈ arr, x < pointPos.length) (hM : M ≤ arr.length) :
    furthestRowC pointPos arr M st i = some (furthestRow pointPos arr M st i) := by
  unfold furthestRowC furthestRow
  rcases Nat.lt_or_ge i M with h | h
  · exact furthestRowFold_eq pointPos arr i st ha (M - i) (by omega)
  · rw [show M - i = 0 by omega]
    rfl

theorem furthestSearchFold_eq (pointPos : List Point) (arr : List Nat) (M : Nat)
    (st : FurthestState) (ha : ∀ x ∈ arr, x < pointPos.length) (hM : M ≤ arr.length)
    (n : Nat) :
    (List.range n).foldlM (furthestRowC pointPos arr M) st
      = some ((List.range n).foldl (furthestRow pointPos arr M) st) := by
  induction n with
  | zero => rfl
  | succ n ih =>
    rw [List.range_succ, List.foldlM_append, List.foldl_append, ih]
    simp only [List.foldlM_cons, List.foldlM_nil, List.foldl_cons, List.foldl_nil,
      Option.bind_eq_bind, Option.some_bind, bind_pure]
    exact furthestRowC_eq pointPos arr M n _ ha hM

theorem furthestSearchC_eq (pointPos : List Point) (arr : List Nat) (M : Nat)
    (ha : ∀ x ∈ arr, x < pointPos.length) (hM : M ≤ arr.length) :
    furthestSearchC pointPos arr M = some (furthestSearch pointPos arr M) :=
  furthestSearchFold_eq pointPos arr M _ ha hM M

theorem colourFurthestC_eq (pointPos : List Point) (arr : List Nat) (M : Nat)
    (ha : ∀ x ∈ arr, x < pointPos.length) (hM2 : 2 ≤ M) (hM : M ≤ arr.length) :
    colourFurthestC pointPos.length arr (furthestSearch pointPos arr M) = some () := by
  obtain ⟨h1, h2, _, _⟩ := furthestSearch_inv_aux pointPos arr M hM2 M (le_refl M)
  have h1' : (furthestSearch pointPos arr M).furthestStart < M := h1
  have h2' : (furthestSearch pointPos arr M).furthestEnd < M := h2
  unfold colourFurthestC
  rw [rd_nat arr _ (by omega), rd_nat arr _ (by omega)]
  dsimp only
  rw [if_pos ⟨ha _ (getD_mem_of_lt arr _ (by omega)), ha _ (getD_mem_of_lt arr _ (by omega))⟩]

/-- C15 as stated fails at `N = 1`: for the single point `(0,0)` the scan, the
pivot placement and the sort make no access out of bounds, but the hull
initialisation reads `hullVertIndices[1]` (line 111) in an array of one cell,
so the checked run is `none`. -/
theorem single_point_reads_cell_one :
    1 ≤ [((0 : ℚ), (0 : ℚ))].length ∧
    startScanC [(0, 0)] = some { start_index := 0, lowest_y := 0 } ∧
    placePivotC (initIndices 1) 0 = some [0] ∧
    SortPointsByPolarAngleC [(0, 0)] [0] 1 = some [0] ∧
    rd [0] 1 = none ∧
    hullScanC [(0, 0)] [0] 1 = none ∧
    pipelineC [(0, 0)] = none := by
  decide!

/-- C15, amended: for every point array of `N ≥ 2` points, no access of the
starting-point scan, the pivot placement, `SortPointsByPolarAngle`, the hull
initialisation and scan, the write-back, the furthest-pair search and the
reads of lines 183-186 is out of bounds: the run with checked accesses is not
`none`, and it returns what the unchecked run computes. -/
theorem pipelineC_no_out_of_bounds (pointPos : List Point) (hN : 2 ≤ pointPos.length) :
    pipelineC pointPos = some (grahamIndices pointPos, furthestPair pointPos) := by
  have hN0 : 0 < pointPos.length := by omega
  have hs : findStartIndex pointPos < pointPos.length := (startScan_inv pointPos hN0).1
  obtain ⟨hperm, _⟩ := placePivot_range pointPos.length (findStartIndex pointPos) hs
  have hplen : (placePivot (initIndices pointPos.length) (findStartIndex pointPos)).length
      = pointPos.length := by
    rw [hperm.length_eq, List.length_range]
  have hpb : ∀ x ∈ placePivot (initIndices pointPos.length) (findStartIndex pointPos),
      x < pointPos.length := fun x hx => List.mem_range.mp (hperm.subset hx)
  obtain ⟨T, hT, hTperm, _⟩ := grahamSorted_structure pointPos hN0
  have hsperm : (grahamSorted pointPos).Perm (List.range pointPos.length) := by
    rw [hT]
    exact (List.Perm.cons _ hTperm).trans
      (List.perm_cons_erase (List.mem_range.mpr hs)).symm
  have hslen : (grahamSorted pointPos).length = pointPos.length := by
    rw [hsperm.length_eq, List.length_range]
  have hsb : ∀ x ∈ grahamSorted pointPos, x < pointPos.length :=
    fun x hx => List.mem_range.mp (hsperm.subset hx)
  obtain ⟨v1, v2, v3⟩ := hullScan_props pointPos (grahamSorted pointPos) pointPos.length hN hslen
  obtain ⟨w1, w2, w3⟩ := writeBackC_eq (hullScan pointPos (grahamSorted pointPos) pointPos.length)
    (grahamSorted pointPos) (by omega)
  have hwb : ∀ x ∈ writeBack (hullScan pointPos (grahamSorted pointPos) pointPos.length)
      (grahamSorted pointPos), x < pointPos.length := by
    intro x hx
    rcases w3 x hx with h | h
    · exact hsb x (v3 x h)
    · exact hsb x h
  have e1 : startScanC pointPos = some (startScan pointPos) := startScanC_eq pointPos hN0
  have e2 : placePivotC (initIndices pointPos.length) (startScan pointPos).start_index
      = some (placePivot (initIndices pointPos.length) (findStartIndex pointPos)) :=
    placePivotC_eq _ _ (by
      unfold initIndices
      rw [List.length_range]
      exact hs)
  have e3 : SortPointsByPolarAngleC pointPos
      (placePivot (initIndices pointPos.length) (findStartIndex pointPos)) pointPos.length
      = some (grahamSorted pointPos) :=
    SortPointsByPolarAngleC_eq pointPos _ pointPos.length hN0 hplen hpb
  have e4 : hullScanC pointPos (grahamSorted pointPos) pointPos.length
      = some (hullScan pointPos (grahamSorted pointPos) pointPos.length) :=
    hullScanC_eq pointPos _ pointPos.length hN hslen hsb
  have e5 := furthestSearchC_eq pointPos
    (writeBack (hullScan pointPos (grahamSorted pointPos) pointPos.length)
      (grahamSorted pointPos))
    (hullScan pointPos (grahamSorted pointPos) pointPos.length).length hwb (by omega)
  have e6 := colourFurthestC_eq pointPos
    (writeBack (hullScan pointPos (grahamSorted pointPos) pointPos.length)
      (grahamSorted pointPos))
    (hullScan pointPos (grahamSorted pointPos) pointPos.length).length hwb v1 (by omega)
  unfold pipelineC
  rw [e1, Option.some_bind, e2, Option.some_bind, e3, Option.some_bind, e4, Option.some_bind,
    w1, Option.some_bind, e5, Option.some_bind, e6, Option.some_bind]
  rfl

theorem pipelineC_no_out_of_bounds_witness :
    2 ≤ squareWithCentre.length ∧
    pipelineC squareWithCentre
      = some (grahamIndices squareWithCentre, furthestPair squareWithCentre) :=
  ⟨by decide, pipelineC_no_out_of_bounds squareWithCentre (by decide)⟩

/-! ## The square with a doubled corner: C18 -/

/-- The square `(0,0),(4,0),(4,4),(0,4)` with the corner `(4,4)` doubled: the
pivot `(4,0)` has the corner `(0,0)` level with it, the sort puts that corner
first, and the scan replaces it by the copy of `(4,4)`, as in C1; the returned
list `[1, 4, 2, 3]` has 4 entries, the doubled corner twice and the corner
`(0,0)` not at all. -/
theorem squareDupTop_loses_corner :
    grahamHull [(0, 0), (4, 0), (4, 4), (0, 4), (4, 4)] = [1, 4, 2, 3] := by
  decide!
end ConvexHull
